import Mathlib

/-!
# The `Alloc` allocator (`src/Alloc/alloc.c`)

A shallow embedding of the allocator.  Memory is a flat, byte-addressed map;
pointers and `size_t` values are natural numbers below `2 ^ 64` and every
pointer or size computation is reduced modulo `2 ^ 64`, as the machine does.
The two globals of the program (`head`, and the address of `empty`) and the
program break live in an explicit `State`.  The three list-walking loops take
a fuel argument and return `none` when the fuel runs out.
-/

namespace Alloc

/-! ## Memory -/

/-- Byte-addressed memory; a cell is read modulo 256.  Every address can be
read and written: a load or store above the break, where the program may
fault, is not told apart from one inside the arena. -/
abbrev Mem := Nat → Nat

/-- Load of a 64-bit little-endian word at address `a`. -/
def read64 (m : Mem) (a : Nat) : Nat :=
  m a % 256
    + m ((a + 1) % 2 ^ 64) % 256 * 256
    + m ((a + 2) % 2 ^ 64) % 256 * 256 ^ 2
    + m ((a + 3) % 2 ^ 64) % 256 * 256 ^ 3
    + m ((a + 4) % 2 ^ 64) % 256 * 256 ^ 4
    + m ((a + 5) % 2 ^ 64) % 256 * 256 ^ 5
    + m ((a + 6) % 2 ^ 64) % 256 * 256 ^ 6
    + m ((a + 7) % 2 ^ 64) % 256 * 256 ^ 7

/-- Store of a 64-bit little-endian word `v` at address `a`. -/
def write64 (m : Mem) (a v : Nat) : Mem := fun x =>
  if (2 ^ 64 + x - a) % 2 ^ 64 < 8 then v / 256 ^ ((2 ^ 64 + x - a) % 2 ^ 64) % 256 else m x

/-- The libc routine `bzero(p, n)`: `n` zero bytes from `p` on. -/
def bzero (m : Mem) (p n : Nat) : Mem := fun x =>
  if (2 ^ 64 + x - p) % 2 ^ 64 < n then 0 else m x

/-- The libc routine `memcpy(dst, src, n)` on non-overlapping ranges. -/
def memcpy (m : Mem) (dst src n : Nat) : Mem := fun x =>
  if (2 ^ 64 + x - dst) % 2 ^ 64 < n then m ((src + (2 ^ 64 + x - dst) % 2 ^ 64) % 2 ^ 64) else m x

/-! ## Constants and macros (`alloc.c`, lines 10-20) -/

/-- The macro `ALLOC_SIZE`, that is `sizeof(long)`. -/
def ALLOC_SIZE : Nat := 8

/-- The macro `MIN_UNMAP_SIZE`. -/
def MIN_UNMAP_SIZE : Nat := 1024

/-- The macro `BATCH_SIZE`, that is `ALLOC_SIZE * 124`. -/
def BATCH_SIZE : Nat := ALLOC_SIZE * 124

/-- The macro `OVER_HEAD`, that is `sizeof(uint32_t) * 2`. -/
def OVER_HEAD : Nat := 4 * 2

/-- The macro `ALIGN_SIZE(size)`: `(size + 7) & ~7` on 64-bit words. -/
def ALIGN_SIZE (size : Nat) : Nat :=
  ((size + (ALLOC_SIZE - 1)) % 2 ^ 64) &&& (2 ^ 64 - 1 - (ALLOC_SIZE - 1))

/-- The macro `GET_SIZE(ptr)` read: the word at `ptr - 8`. -/
def GET_SIZE (m : Mem) (ptr : Nat) : Nat := read64 m ((2 ^ 64 + ptr - 8) % 2 ^ 64)

/-- The macro `GET_SIZE(ptr)` used as an lvalue: store at `ptr - 8`. -/
def SET_SIZE (m : Mem) (ptr v : Nat) : Mem := write64 m ((2 ^ 64 + ptr - 8) % 2 ^ 64) v

/-- The macro `GET_NEXT(ptr)`, that is `ptr + GET_SIZE(ptr)`. -/
def GET_NEXT (m : Mem) (ptr : Nat) : Nat := (ptr + GET_SIZE m ptr) % 2 ^ 64

/-! ## State and the boundary primitive -/

/-- The allocator state: memory, the global `head`, the address of the global
`empty`, and the program break together with the limits the operating system
puts on it. -/
structure State where
  /-- the bytes of memory -/
  mem : Mem
  /-- the global `head`, first block of the free list or `0` -/
  head : Nat
  /-- the address of the global `empty` -/
  emptyAddr : Nat
  /-- the current program break -/
  brk : Nat
  /-- the lowest break the operating system accepts -/
  brkMin : Nat
  /-- the highest break the operating system accepts -/
  brkMax : Nat

/-- Modelled from the spec: the boundary primitive `adjust_boundary(delta)`
(libc `sbrk`), which is not part of the repository.  The increment is a signed
64-bit value; on success the previous break is returned, on failure
`(void *) -1` is returned and nothing changes.  `sbrk(0)` returns the current
break. -/
def sbrk (s : State) (incr : Nat) : Nat × State :=
  if incr = 0 then (s.brk, s)
  else if incr < 2 ^ 63 then
    if s.brk + incr ≤ s.brkMax ∧ s.brk + incr < 2 ^ 64 then
      (s.brk, { s with brk := s.brk + incr })
    else (2 ^ 64 - 1, s)
  else
    if s.brkMin + (2 ^ 64 - incr) ≤ s.brk then
      (s.brk, { s with brk := s.brk - (2 ^ 64 - incr) })
    else (2 ^ 64 - 1, s)

/-- Modelled from the spec: the boundary primitive setting the break to an
absolute address (libc `brk`), which is not part of the repository.  Returns
`0` on success and `-1`, changing nothing, on failure. -/
def brk (s : State) (addr : Nat) : Int × State :=
  if s.brkMin ≤ addr ∧ addr ≤ s.brkMax then (0, { s with brk := addr }) else (-1, s)

/-! ## The functions of `alloc.c` -/

/-- The function `split` (lines 33-44). -/
def split (s : State) (ptr size : Nat) : Nat × State :=
  if (2 ^ 64 + GET_SIZE s.mem ptr - size) % 2 ^ 64 < OVER_HEAD + 8 then (ptr, s)
  else
    let free_block := (ptr + size) % 2 ^ 64
    let m1 := SET_SIZE s.mem free_block ((2 ^ 64 + GET_SIZE s.mem ptr - size) % 2 ^ 64)
    let m2 := SET_SIZE m1 ptr ((2 ^ 64 + GET_SIZE m1 ptr - GET_SIZE m1 free_block) % 2 ^ 64)
    let m3 := write64 m2 free_block s.head
    (ptr, { s with mem := m3, head := free_block })

/-- The list walk shared by `merge`, `shrink_heap` and `find_free_block`:
`while (ptr && !stop(ptr)) { prev = ptr; ptr = *ptr; }`, returning the final
`(prev, ptr)`. -/
def scan (m : Mem) (stop : Nat → Bool) : Nat → Nat → Nat → Option (Nat × Nat)
  | 0, _, _ => none
  | fuel + 1, prev, ptr =>
    if ptr ≠ 0 ∧ stop ptr = false then scan m stop fuel ptr (read64 m ptr)
    else some (prev, ptr)

/-- The outer loop of `merge` (lines 51-67), started at `ptr`. -/
def mergeLoop : Nat → State → Nat → Option State
  | 0, _, _ => none
  | fuel + 1, s, ptr =>
    if ptr = 0 then some s
    else
      match scan s.mem (fun tmp => decide ((ptr + GET_SIZE s.mem ptr) % 2 ^ 64 = tmp)) fuel 0 s.head with
      | none => none
      | some (prev, tmp) =>
        let s1 :=
          if tmp ≠ 0 then
            let m1 := SET_SIZE s.mem ptr ((GET_SIZE s.mem ptr + GET_SIZE s.mem tmp) % 2 ^ 64)
            if prev = 0 then { s with mem := m1, head := read64 m1 tmp }
            else { s with mem := write64 m1 prev (read64 m1 tmp) }
          else s
        mergeLoop fuel s1 (read64 s1.mem ptr)

/-- The function `merge` (lines 49-68). -/
def merge (fuel : Nat) (s : State) : Option State := mergeLoop fuel s s.head

/-- The function `shrink_heap` (lines 74-90). -/
def shrink_heap (fuel : Nat) (s : State) : Option State :=
  let top := (sbrk s 0).1
  match scan s.mem
      (fun ptr => decide (MIN_UNMAP_SIZE ≤ GET_SIZE s.mem ptr)
        && decide ((2 ^ 64 + GET_NEXT s.mem ptr - OVER_HEAD) % 2 ^ 64 = top))
      fuel 0 s.head with
  | none => none
  | some (prev, ptr) =>
    if ptr = 0 then some s
    else
      let s1 :=
        if prev = 0 then { s with head := read64 s.mem s.head }
        else { s with mem := write64 s.mem prev (read64 s.mem ptr) }
      some (brk s1 ((2 ^ 64 + ptr - OVER_HEAD) % 2 ^ 64)).2

/-- The function `find_free_block` (lines 95-114). -/
def find_free_block (fuel : Nat) (s : State) (size : Nat) : Option (Nat × State) :=
  if s.head = 0 then some (0, s)
  else
    match scan s.mem (fun ptr => decide (size ≤ GET_SIZE s.mem ptr)) fuel 0 s.head with
    | none => none
    | some (prev, ptr) =>
      if ptr = 0 then some (0, s)
      else
        let s1 :=
          if prev = 0 then { s with head := read64 s.mem s.head }
          else { s with mem := write64 s.mem prev (read64 s.mem ptr) }
        some (split s1 ptr size)

/-- The function `req_inc_size` (lines 118-133). -/
def req_inc_size (s : State) (size : Nat) : Nat × State :=
  if size < BATCH_SIZE then
    let r := sbrk s BATCH_SIZE
    let ptr := (r.1 + OVER_HEAD) % 2 ^ 64
    split { r.2 with mem := SET_SIZE r.2.mem ptr BATCH_SIZE } ptr size
  else
    let r := sbrk s size
    let ptr := (r.1 + OVER_HEAD) % 2 ^ 64
    (ptr, { r.2 with mem := SET_SIZE r.2.mem ptr size })

/-- The function `mymalloc` (lines 135-147). -/
def mymalloc (fuel : Nat) (s : State) (size : Nat) : Option (Nat × State) :=
  if size = 0 then some (s.emptyAddr, s)
  else
    let size := (ALIGN_SIZE size + OVER_HEAD) % 2 ^ 64
    if s.head = 0 then some (req_inc_size s size)
    else
      match find_free_block fuel s size with
      | none => none
      | some (ptr, s1) => if ptr = 0 then some (req_inc_size s1 size) else some (ptr, s1)

/-- The function `mycalloc` (lines 149-157). -/
def mycalloc (fuel : Nat) (s : State) (nmemb size : Nat) : Option (Nat × State) :=
  match mymalloc fuel s (nmemb * size % 2 ^ 64) with
  | none => none
  | some (ptr, s1) =>
    if ptr = 0 then some (0, s1)
    else some (ptr, { s1 with mem := bzero s1.mem ptr (ALIGN_SIZE (nmemb * size % 2 ^ 64)) })

/-- The function `myfree` (lines 159-171). -/
def myfree (fuel : Nat) (s : State) (ptr : Nat) : Option State :=
  if ptr = 0 then some s
  else if ptr = s.emptyAddr then some s
  else
    match merge fuel { s with mem := write64 s.mem ptr s.head, head := ptr } with
    | none => none
    | some s2 => shrink_heap fuel s2

/-- The function `myrealloc` (lines 173-185). -/
def myrealloc (fuel : Nat) (s : State) (ptr size : Nat) : Option (Nat × State) :=
  if ptr = 0 then mymalloc fuel s size
  else
    let size := (ALIGN_SIZE size + OVER_HEAD) % 2 ^ 64
    if size ≤ GET_SIZE s.mem ptr then some (ptr, s)
    else if size < GET_SIZE s.mem ptr then some (split s ptr size)
    else
      match mymalloc fuel s size with
      | none => none
      | some (tmp, s1) =>
        if tmp = 0 then some (0, s1)
        else
          match myfree fuel { s1 with mem := memcpy s1.mem tmp ptr (GET_SIZE s1.mem ptr) } ptr with
          | none => none
          | some s3 => some (tmp, s3)

/-! ## The free list as a linked structure in memory -/

/-- The free list as it lies in memory: `lseg m h xs` says that following the
links stored in the first payload word, from `h`, visits exactly the blocks
`xs` and then reaches `NULL`. -/
def lseg (m : Mem) : Nat → List Nat → Prop
  | h, [] => h = 0
  | h, x :: xs => h = x ∧ x ≠ 0 ∧ lseg m (read64 m x) xs

/-- Last element of `xs`, or `d` when `xs` is empty. -/
def lastOr : List Nat → Nat → Nat
  | [], d => d
  | x :: xs, _ => lastOr xs x

/-- What `scan` computes on a list laid out in memory: the first element on
which `stop` holds, with its predecessor. -/
def scanList (stop : Nat → Bool) : Nat → List Nat → Nat × Nat
  | prev, [] => (prev, 0)
  | prev, x :: xs => if stop x then (prev, x) else scanList stop x xs

/-! ## Well-formed heaps -/

/-- Stepping from the address `a` by the recorded size of each block visits
exactly the blocks `xs`, in this order, and lands on `e`. -/
def tiles (m : Mem) : Nat → List Nat → Nat → Prop
  | a, [], e => a = e
  | a, x :: xs, e => a = x ∧ tiles m (x + GET_SIZE m x) xs e

/-- The heap is well formed: `live` lists the blocks handed to callers,
`free` lists the blocks of the free list in list order, every block lies
inside the arena between `base` and the break, carries its recorded size in
the word before its payload, is at least `OVER_HEAD + 8` bytes long and a
multiple of 8, no two blocks overlap, the blocks partition the arena, and the
free list is laid out in memory as a `NULL`-terminated chain starting at
`head`. -/
structure WF (s : State) (base : Nat) (live free : List Nat) : Prop where
  /-- addresses do not wrap -/
  max_lt : s.brkMax + 8 < 2 ^ 64
  /-- the break is one the operating system accepts -/
  brk_le : s.brk ≤ s.brkMax
  /-- the arena starts at `base` -/
  base_le : base ≤ s.brk
  /-- the operating system accepts every break inside the arena -/
  min_le : s.brkMin ≤ base
  /-- the address of `empty` is not `NULL` -/
  empty_ne : s.emptyAddr ≠ 0
  /-- the global `empty` lies below the arena -/
  empty_lt : s.emptyAddr < base + 8
  /-- no block is listed twice -/
  nodup : (live ++ free).Nodup
  /-- every block lies inside the arena and has room for a link -/
  blk : ∀ p ∈ live ++ free,
    base + 8 ≤ p ∧ 16 ≤ GET_SIZE s.mem p ∧ p + GET_SIZE s.mem p ≤ s.brk + 8
  /-- blocks do not overlap -/
  disj : ∀ p ∈ live ++ free, ∀ q ∈ live ++ free, p ≠ q →
    p + GET_SIZE s.mem p ≤ q ∨ q + GET_SIZE s.mem q ≤ p
  /-- the free list is laid out in memory -/
  list : lseg s.mem s.head free
  /-- every recorded size is a multiple of 8 -/
  mult : ∀ p ∈ live ++ free, GET_SIZE s.mem p % 8 = 0
  /-- the blocks partition the arena: stepping from the first block, at `base`,
  by the recorded sizes lands on the break -/
  tile : ∃ chain, chain.Perm (live ++ free) ∧ tiles s.mem (base + 8) chain (s.brk + 8)

/-- No two blocks of the free list are adjacent by address. -/
def NoAdj (m : Mem) (free : List Nat) : Prop :=
  ∀ x ∈ free, ∀ y ∈ free, x + GET_SIZE m x ≠ y

/-- All bytes of block `q`, header and payload, are the same in `m'` as in `m`. -/
def SameBlock (m m' : Mem) (q : Nat) : Prop :=
  ∀ x, q ≤ x + 8 → x + 8 < q + GET_SIZE m q → m' x = m x

/-- The state after the block `x`, found behind the blocks `A` of the free
list, has been unlinked: `if (!prev) head = *x; else *prev = *x;`. -/
def unlinked (s : State) (A : List Nat) (x : Nat) : State :=
  match A with
  | [] => { s with head := read64 s.mem x }
  | a :: A' => { s with mem := write64 s.mem (lastOr A' a) (read64 s.mem x) }

/-- The state after `split` has cut the block `p` at `n` bytes: the remainder
`p + n` gets its header and becomes the head of the free list. -/
def splitAt (s : State) (p n : Nat) : State :=
  { s with
    mem := write64 (SET_SIZE (SET_SIZE s.mem (p + n) (GET_SIZE s.mem p - n)) p n) (p + n) s.head
    head := p + n }

/-- The state after `req_inc_size` has moved the break up by `n` bytes and
written the header of the new block. -/
def grown (s : State) (n : Nat) : State :=
  { s with brk := s.brk + n, mem := SET_SIZE s.mem (s.brk + 8) n }

/-- The boundary primitive grants the growth that a request of `t` bytes
(header included) triggers: one batch when `t` is below `BATCH_SIZE`, `t`
bytes otherwise.  In the second case `t` must also be below `2 ^ 63`: `sbrk`
takes its argument as a signed increment, and a larger `t` moves the break
down. -/
def Room (s : State) (t : Nat) : Prop :=
  if t < BATCH_SIZE then s.brk + BATCH_SIZE ≤ s.brkMax else t < 2 ^ 63 ∧ s.brk + t ≤ s.brkMax

/-- The free list after `split` has served `t` bytes of the block `p` of
recorded size `sz`: the remainder, if any, is pushed in front. -/
def splitFree (sz t p : Nat) (free : List Nat) : List Nat :=
  if sz < t + 16 then free else (p + t) :: free

/-- The state after one merging step of `merge`: the free block `y`, found
behind the blocks `A` of the free list, is absorbed by the free block `x`
that ends where `y` starts, and is unlinked. -/
def merged (s : State) (A : List Nat) (x y : Nat) : State :=
  { unlinked s A y with
    mem := SET_SIZE (unlinked s A y).mem x (GET_SIZE s.mem x + GET_SIZE s.mem y) }

/-- Every block of `F`, with its size in `m`, lies inside a block of `F'`,
with its size in `m'`. -/
def Covers (m m' : Mem) (F F' : List Nat) : Prop :=
  ∀ q ∈ F, ∃ r ∈ F', r ≤ q ∧ q + GET_SIZE m q ≤ r + GET_SIZE m' r

/-- No block of the free list is both at the top of the arena and large
enough for `shrink_heap` to give it back. -/
def NoTop (s : State) (free : List Nat) : Prop :=
  ∀ x ∈ free, ¬ (MIN_UNMAP_SIZE ≤ GET_SIZE s.mem x ∧ x + GET_SIZE s.mem x = s.brk + 8)

/-! ## Calls and reachable states -/

/-- The call `f`, a function of the fuel, returns `r`: it does so with any
large enough fuel. -/
def Returns {α : Type} (f : Nat → Option α) (r : α) : Prop :=
  ∃ N, ∀ fuel, N ≤ fuel → f fuel = some r

/-- Some block of the free list has a recorded size of at least `t`. -/
def Fits (s : State) (t : Nat) : Prop :=
  ∃ free x, lseg s.mem s.head free ∧ x ∈ free ∧ t ≤ GET_SIZE s.mem x

/-- A request of `n > 0` bytes is valid usage: the aligned size does not wrap,
and either the free list can serve the request, or the request, header
included, is below `2 ^ 63` and the boundary primitive grants the growth
(`Room`). -/
def CanServe (s : State) (n : Nat) : Prop :=
  n + 16 ≤ 2 ^ 64 ∧ (Fits s (ALIGN_SIZE n + 8) ∨ Room s (ALIGN_SIZE n + 8))

/-- The initial state of the allocator: `head` is `NULL`, the global `empty`
lies below the break, and the break is one the operating system accepts. -/
def Init (s : State) : Prop :=
  s.head = 0 ∧ s.emptyAddr ≠ 0 ∧ s.emptyAddr < s.brk + 8 ∧ s.brkMin ≤ s.brk ∧ s.brk ≤ s.brkMax
    ∧ s.brkMax + 8 < 2 ^ 64

/-- One call of the public interface under valid usage.  `Step s L s' L'`:
in state `s` with live blocks `L` the call returns and leaves state `s'` with
live blocks `L'`.  Valid usage is: sizes whose aligned size with header does
not wrap; a request that has to grow the arena is below `2 ^ 63`, header
included, and the boundary primitive grants the growth (`CanServe`);
`myfree` is called on `NULL`, on the address of `empty` or on a live block;
`myrealloc` is called on `NULL` or on a live block, not on the address of
`empty`, which is no block and has no header. -/
inductive Step : State → List Nat → State → List Nat → Prop
  /-- `mymalloc(0)` -/
  | malloc_zero {s : State} {L : List Nat} {p : Nat} {s' : State} :
      Returns (fun fuel => mymalloc fuel s 0) (p, s') → Step s L s' L
  /-- `mymalloc(n)` with `n > 0` -/
  | malloc {s : State} {L : List Nat} {n p : Nat} {s' : State} :
      0 < n → CanServe s n → Returns (fun fuel => mymalloc fuel s n) (p, s') →
      Step s L s' (p :: L)
  /-- `mycalloc(c, n)` with `c * n = 0` -/
  | calloc_zero {s : State} {L : List Nat} {c n p : Nat} {s' : State} :
      c * n = 0 → Returns (fun fuel => mycalloc fuel s c n) (p, s') → Step s L s' L
  /-- `mycalloc(c, n)` with `0 < c * n`, the product not overflowing -/
  | calloc {s : State} {L : List Nat} {c n p : Nat} {s' : State} :
      0 < c * n → CanServe s (c * n) → Returns (fun fuel => mycalloc fuel s c n) (p, s') →
      Step s L s' (p :: L)
  /-- `myrealloc(NULL, 0)` -/
  | realloc_null_zero {s : State} {L : List Nat} {p : Nat} {s' : State} :
      Returns (fun fuel => myrealloc fuel s 0 0) (p, s') → Step s L s' L
  /-- `myrealloc(NULL, n)` with `n > 0` -/
  | realloc_null {s : State} {L : List Nat} {n p : Nat} {s' : State} :
      0 < n → CanServe s n → Returns (fun fuel => myrealloc fuel s 0 n) (p, s') →
      Step s L s' (p :: L)
  /-- `myrealloc(q, n)` on a live block that is large enough already -/
  | realloc_keep {s : State} {L : List Nat} {q n p : Nat} {s' : State} :
      q ∈ L → n + 16 ≤ 2 ^ 64 → ALIGN_SIZE n + 8 ≤ GET_SIZE s.mem q →
      Returns (fun fuel => myrealloc fuel s q n) (p, s') → Step s L s' L
  /-- `myrealloc(q, n)` on a live block that is too small -/
  | realloc_grow {s : State} {L : List Nat} {q n p : Nat} {s' : State} :
      q ∈ L → n + 16 ≤ 2 ^ 64 → GET_SIZE s.mem q < ALIGN_SIZE n + 8 →
      CanServe s (ALIGN_SIZE n + 8) →
      Returns (fun fuel => myrealloc fuel s q n) (p, s') → Step s L s' (p :: L.erase q)
  /-- `myfree(NULL)` and `myfree` of the value returned by `mymalloc(0)` -/
  | free_none {s : State} {L : List Nat} {q : Nat} {s' : State} :
      q = 0 ∨ q = s.emptyAddr → Returns (fun fuel => myfree fuel s q) s' → Step s L s' L
  /-- `myfree(q)` on a live block -/
  | free {s : State} {L : List Nat} {q : Nat} {s' : State} :
      q ∈ L → Returns (fun fuel => myfree fuel s q) s' → Step s L s' (L.erase q)

/-- The states reachable from an initial state by calls under valid usage
and by stores of the client into live blocks, with the blocks that are live
in them. -/
inductive Reach : State → List Nat → Prop
  /-- the initial state, no block live -/
  | init {s : State} : Init s → Reach s []
  /-- one more call -/
  | step {s s' : State} {L L' : List Nat} : Reach s L → Step s L s' L' → Reach s' L'
  /-- the client stores into the payload of a live block -/
  | store {s : State} {L : List Nat} {p : Nat} {m' : Mem} : Reach s L → p ∈ L →
      (∀ x, ¬ (p ≤ x ∧ x + 8 < p + GET_SIZE s.mem p) → m' x = s.mem x) →
      Reach { s with mem := m' } L

/-- The runs from the state `s0`: `Run s0 s L` says that calls under valid
usage and stores of the client into live blocks lead from `s0`, with no block
live, to `s` with the live blocks `L`. -/
inductive Run (s0 : State) : State → List Nat → Prop
  /-- no call yet -/
  | init : Run s0 s0 []
  /-- one more call -/
  | step {s s' : State} {L L' : List Nat} : Run s0 s L → Step s L s' L' → Run s0 s' L'
  /-- the client stores into the payload of a live block -/
  | store {s : State} {L : List Nat} {p : Nat} {m' : Mem} : Run s0 s L → p ∈ L →
      (∀ x, ¬ (p ≤ x ∧ x + 8 < p + GET_SIZE s.mem p) → m' x = s.mem x) →
      Run s0 { s with mem := m' } L

/-- The invariant of reachable states: the heap is well formed, no two blocks
of the free list are adjacent, and no large free block sits at the top. -/
def Inv (s : State) (L : List Nat) : Prop :=
  ∃ base free, WF s base L free ∧ NoAdj s.mem free ∧ NoTop s free

/-- A concrete initial state: memory all zero, an empty free list, the break
at `4096` with room up to `1000000`, and the global `empty` at address `64`. -/
def initState : State :=
  { mem := fun _ => 0, head := 0, emptyAddr := 64, brk := 4096, brkMin := 4096, brkMax := 1000000 }

/-- The state after `mymalloc(10)` in `initState`: the block `4104` is live
and the remainder `4128` of the batch is the only free block. -/
def oneBlockState : State := (req_inc_size initState 24).2

/-- The state after `q = mymalloc(992)`, `p = mymalloc(976)` and `myfree(q)`
in `initState`: the block `p = 5104` of recorded size `992` is live and ends
at the arena boundary, the block `q = 4104` of recorded size `1000`, just
below it, is the only free block. -/
def joinState : State :=
  { (req_inc_size (req_inc_size initState 1000).2 984).2 with
    mem := write64 (req_inc_size (req_inc_size initState 1000).2 984).2.mem 4104 0
    head := 4104 }

/-- The range from the block address `a` to the end address `e` lies inside
one block of the free list `F`, or has been given back above the break. -/
def Held (s : State) (F : List Nat) (a e : Nat) : Prop :=
  (∃ r ∈ F, r ≤ a ∧ e ≤ r + GET_SIZE s.mem r) ∨ s.brk + 8 ≤ a

/-- Whether the free list lies in memory as `xs` can be computed. -/
instance lseg.dec (m : Mem) : ∀ (h : Nat) (xs : List Nat), Decidable (lseg m h xs)
  | h, [] => inferInstanceAs (Decidable (h = 0))
  | h, x :: xs =>
    have := lseg.dec m (read64 m x) xs
    inferInstanceAs (Decidable (h = x ∧ x ≠ 0 ∧ lseg m (read64 m x) xs))

/-- The state after `mymalloc(16)` in `oneBlockState`: blocks `4104`, `4128`. -/
def twoBlocks : State := ((mymalloc 2 oneBlockState 16).getD (0, initState)).2

/-- The state after `mymalloc(16)` in `twoBlocks`: blocks `4104` to `4152`. -/
def threeBlocks : State := ((mymalloc 2 twoBlocks 16).getD (0, initState)).2

/-- The state after `mymalloc(16)` in `threeBlocks`: blocks `4104` to `4176`. -/
def fourBlocks : State := ((mymalloc 2 threeBlocks 16).getD (0, initState)).2

/-- The state after `myfree(4104)` in `fourBlocks`: the blocks `4128`, `4152`
and `4176`, of `24` bytes each, are live and lie in a row; the block `4104`
just below them and the remainder `4200` of the batch just above are free. -/
def rowState : State := (myfree 6 fourBlocks 4104).getD initState

/-- The state `oneBlockState` after the client has stored the byte `7` at the
start of its block `4104`. -/
def storedState : State :=
  { oneBlockState with mem := fun x => if x = 4104 then 7 else oneBlockState.mem x }

/-- The state after `mymalloc(992)` in `initState`: the block `4104` of
recorded size `1000` is live and the free list is empty. -/
def bigState : State := (req_inc_size initState 1000).2

/-- An initial state like `initState` in which the operating system grants
exactly one batch: the break may rise to `5088` and no further. -/
def tightInit : State := { initState with brkMax := 5088 }

/-- The state after `mymalloc(976)` in `tightInit`: the block `4104` takes the
whole batch, the free list is empty, and the boundary primitive has no room
left. -/
def tightState : State := (req_inc_size tightInit 984).2

/-- The state after `mymalloc(1592)` in `initState`: the block `4104` of
recorded size `1600` is live and ends at the break `5696`. -/
def wideState : State := (req_inc_size initState 1600).2

/-- The state in which `myfree(4104)`, called in `wideState`, calls
`shrink_heap`: the block `4104` has been pushed on the free list, and `merge`
has found nothing to join. -/
def topState : State :=
  { wideState with mem := write64 wideState.mem 4104 wideState.head, head := 4104 }

/-- The state `topState` with an operating system that accepts no break below
`5000`: `shrink_heap` finds the block `4104` to give back and the boundary
primitive refuses. -/
def stuckState : State := { topState with brkMin := 5000 }

/-- The state after `mymalloc(2 ^ 64 - 1000)` in `bigState`: the request,
`2 ^ 64 - 992` bytes with its header, does not wrap; `sbrk` takes it as the
increment `-992`, succeeds and returns the old break `5096`; the block
`5104` is returned, and the break is `4104`, inside the live block `4104`. -/
def hugeState : State := ((mymalloc 0 bigState (2 ^ 64 - 1000)).getD (0, bigState)).2

/-- The state after `a = mymalloc(10)` in `hugeState`: `a = 4112`. -/
def hugeA : State := ((mymalloc 1 hugeState 10).getD (0, hugeState)).2

/-- The state after `b = mymalloc(10)` in `hugeA`: `b = 4136`. -/
def hugeB : State := ((mymalloc 2 hugeA 10).getD (0, hugeA)).2

/-- The state after `c = mymalloc(10)` in `hugeB`: `c = 4160`. -/
def hugeC : State := ((mymalloc 2 hugeB 10).getD (0, hugeB)).2

/-- The state after `myfree(b)` in `hugeC`, followed by a store of the client
into its live block `4104`: the byte at offset `24`, address `4128`, is set
to `48`.  That byte is also the first byte of the header of the free block
`b`. -/
def hugeStored : State :=
  { (myfree 6 hugeC 4136).getD hugeC with
    mem := fun x => if x = 4128 then 48 else ((myfree 6 hugeC 4136).getD hugeC).mem x }

theorem digits64 (v : Nat) :
    v % 256 + v / 256 % 256 * 256 + v / 256 ^ 2 % 256 * 256 ^ 2 + v / 256 ^ 3 % 256 * 256 ^ 3
      + v / 256 ^ 4 % 256 * 256 ^ 4 + v / 256 ^ 5 % 256 * 256 ^ 5 + v / 256 ^ 6 % 256 * 256 ^ 6
      + v / 256 ^ 7 % 256 * 256 ^ 7 = v % 2 ^ 64 := by
  have h1 : v / 256 / 256 = v / 256 ^ 2 := by rw [Nat.div_div_eq_div_mul]; norm_num
  have h2 : v / 256 ^ 2 / 256 = v / 256 ^ 3 := by rw [Nat.div_div_eq_div_mul]; norm_num
  have h3 : v / 256 ^ 3 / 256 = v / 256 ^ 4 := by rw [Nat.div_div_eq_div_mul]; norm_num
  have h4 : v / 256 ^ 4 / 256 = v / 256 ^ 5 := by rw [Nat.div_div_eq_div_mul]; norm_num
  have h5 : v / 256 ^ 5 / 256 = v / 256 ^ 6 := by rw [Nat.div_div_eq_div_mul]; norm_num
  have h6 : v / 256 ^ 6 / 256 = v / 256 ^ 7 := by rw [Nat.div_div_eq_div_mul]; norm_num
  have h7 : v / 256 ^ 7 / 256 = v / 256 ^ 8 := by rw [Nat.div_div_eq_div_mul]; norm_num
  omega

theorem read64_lt (m : Mem) (a : Nat) : read64 m a < 2 ^ 64 := by
  unfold read64
  omega

theorem write64_out (m : Mem) (a v x : Nat) (ha : a + 8 ≤ 2 ^ 64) (hx : x < 2 ^ 64)
    (h : x < a ∨ a + 8 ≤ x) : write64 m a v x = m x := by
  unfold write64
  rw [if_neg]
  omega

theorem write64_in (m : Mem) (a v i : Nat) (hi : i < 8) :
    write64 m a v (a + i) = v / 256 ^ i % 256 := by
  unfold write64
  have e : (2 ^ 64 + (a + i) - a) % 2 ^ 64 = i := by omega
  rw [e, if_pos hi]

theorem read64_write64_same (m : Mem) (a v : Nat) (ha : a + 8 ≤ 2 ^ 64) :
    read64 (write64 m a v) a = v % 2 ^ 64 := by
  have h0 := write64_in m a v 0 (by norm_num)
  have h1 := write64_in m a v 1 (by norm_num)
  have h2 := write64_in m a v 2 (by norm_num)
  have h3 := write64_in m a v 3 (by norm_num)
  have h4 := write64_in m a v 4 (by norm_num)
  have h5 := write64_in m a v 5 (by norm_num)
  have h6 := write64_in m a v 6 (by norm_num)
  have h7 := write64_in m a v 7 (by norm_num)
  unfold read64
  have e1 : (a + 1) % 2 ^ 64 = a + 1 := by omega
  have e2 : (a + 2) % 2 ^ 64 = a + 2 := by omega
  have e3 : (a + 3) % 2 ^ 64 = a + 3 := by omega
  have e4 : (a + 4) % 2 ^ 64 = a + 4 := by omega
  have e5 : (a + 5) % 2 ^ 64 = a + 5 := by omega
  have e6 : (a + 6) % 2 ^ 64 = a + 6 := by omega
  have e7 : (a + 7) % 2 ^ 64 = a + 7 := by omega
  rw [e1, e2, e3, e4, e5, e6, e7]
  simp only [Nat.add_zero, pow_zero, Nat.div_one, pow_one] at h0 h1
  rw [h0, h1, h2, h3, h4, h5, h6, h7]
  simp only [Nat.mod_mod]
  exact digits64 v

/-- Two memories that agree on the eight bytes of a word give the same load. -/
theorem read64_congr (m m' : Mem) (a : Nat) (ha : a + 8 ≤ 2 ^ 64)
    (h : ∀ x, a ≤ x → x < a + 8 → m' x = m x) : read64 m' a = read64 m a := by
  unfold read64
  have e1 : (a + 1) % 2 ^ 64 = a + 1 := by omega
  have e2 : (a + 2) % 2 ^ 64 = a + 2 := by omega
  have e3 : (a + 3) % 2 ^ 64 = a + 3 := by omega
  have e4 : (a + 4) % 2 ^ 64 = a + 4 := by omega
  have e5 : (a + 5) % 2 ^ 64 = a + 5 := by omega
  have e6 : (a + 6) % 2 ^ 64 = a + 6 := by omega
  have e7 : (a + 7) % 2 ^ 64 = a + 7 := by omega
  rw [e1, e2, e3, e4, e5, e6, e7, h a (by omega) (by omega), h (a + 1) (by omega) (by omega),
    h (a + 2) (by omega) (by omega), h (a + 3) (by omega) (by omega),
    h (a + 4) (by omega) (by omega), h (a + 5) (by omega) (by omega),
    h (a + 6) (by omega) (by omega), h (a + 7) (by omega) (by omega)]

theorem read64_write64_disj (m : Mem) (a b v : Nat) (ha : a + 8 ≤ 2 ^ 64) (hb : b + 8 ≤ 2 ^ 64)
    (h : a + 8 ≤ b ∨ b + 8 ≤ a) : read64 (write64 m a v) b = read64 m b := by
  apply read64_congr _ _ _ hb
  intro x h1 h2
  exact write64_out m a v x ha (by omega) (by omega)

theorem ALIGN_SIZE_eq (n : Nat) : ALIGN_SIZE n = (n + 7) % 2 ^ 64 / 8 * 8 := by
  unfold ALIGN_SIZE ALLOC_SIZE
  have h : (n + (8 - 1)) % 2 ^ 64 < 2 ^ 64 := Nat.mod_lt _ (by norm_num)
  generalize (n + (8 - 1)) % 2 ^ 64 = x at h
  apply Nat.eq_of_testBit_eq
  intro i
  rw [Nat.testBit_and]
  have hm : (2 ^ 64 - 1 - (8 - 1) : Nat) = 2 ^ 3 * (2 ^ 61 - 1) := by norm_num
  rw [hm, Nat.testBit_mul_pow_two,
    show x / 8 * 8 = 2 ^ 3 * (x >>> 3) by rw [Nat.shiftRight_eq_div_pow]; omega,
    Nat.testBit_mul_pow_two]
  by_cases h3 : 3 ≤ i
  · simp only [h3, decide_True, Bool.true_and]
    rw [Nat.testBit_shiftRight]
    have e : 3 + (i - 3) = i := by omega
    rw [e, Nat.testBit_two_pow_sub_one]
    by_cases h64 : i < 64
    · have : i - 3 < 61 := by omega
      simp [this]
    · have : x < 2 ^ i := lt_of_lt_of_le h (Nat.pow_le_pow_right (by norm_num) (by omega))
      simp [Nat.testBit_lt_two_pow this]
  · simp [h3]

/-! ## Walking and editing the free list -/

theorem lseg_congr {m m' : Mem} : ∀ {xs : List Nat} {h : Nat},
    (∀ x ∈ xs, read64 m' x = read64 m x) → lseg m h xs → lseg m' h xs
  | [], _, _, hl => hl
  | x :: xs, h, hc, hl => by
    obtain ⟨h1, h2, h3⟩ := hl
    refine ⟨h1, h2, ?_⟩
    rw [hc x (List.mem_cons_self _ _)]
    exact lseg_congr (fun y hy => hc y (List.mem_cons_of_mem _ hy)) h3

theorem lseg_ne_zero {m : Mem} : ∀ {xs : List Nat} {h : Nat}, lseg m h xs → ∀ x ∈ xs, x ≠ 0
  | [], _, _, x, hx => by simp at hx
  | y :: ys, h, hl, x, hx => by
    obtain ⟨_, h2, h3⟩ := hl
    rcases List.mem_cons.1 hx with e | e
    · rw [e]; exact h2
    · exact lseg_ne_zero h3 x e

theorem lastOr_mem : ∀ (A : List Nat) (p : Nat), lastOr A p ∈ p :: A
  | [], p => by simp [lastOr]
  | a :: A, p => by
    have := lastOr_mem A a
    simp only [lastOr]
    exact List.mem_cons_of_mem _ this

theorem scan_eq {m : Mem} (stop : Nat → Bool) : ∀ {xs : List Nat} {h : Nat} (fuel prev : Nat),
    lseg m h xs → xs.length < fuel → scan m stop fuel prev h = some (scanList stop prev xs)
  | [], h, fuel, prev, hl, hf => by
    cases fuel with
    | zero => simp at hf
    | succ f =>
      have : h = 0 := hl
      simp [scan, scanList, this]
  | x :: xs, h, fuel, prev, hl, hf => by
    obtain ⟨h1, h2, h3⟩ := hl
    cases fuel with
    | zero => simp at hf
    | succ f =>
      subst h1
      have hf' : xs.length < f := by simpa using hf
      by_cases hs : stop h = true
      · simp [scan, scanList, hs]
      · have hs' : stop h = false := by simpa using hs
        simp only [scan, scanList, hs', h2, ne_eq, not_false_eq_true, and_self, if_true]
        simpa using scan_eq stop f h h3 hf'

theorem scanList_none (stop : Nat → Bool) : ∀ (xs : List Nat) (prev : Nat),
    (∀ x ∈ xs, stop x = false) → (scanList stop prev xs).2 = 0
  | [], _, _ => rfl
  | x :: xs, prev, h => by
    have hx := h x (List.mem_cons_self _ _)
    simp only [scanList, hx]
    exact scanList_none stop xs x (fun y hy => h y (List.mem_cons_of_mem _ hy))

theorem scanList_found (stop : Nat → Bool) : ∀ (xs : List Nat) (prev : Nat),
    (∃ x ∈ xs, stop x = true) →
    ∃ A y B, xs = A ++ y :: B ∧ (∀ a ∈ A, stop a = false) ∧ stop y = true ∧
      scanList stop prev xs = (lastOr A prev, y)
  | [], _, h => by simp at h
  | x :: xs, prev, h => by
    by_cases hx : stop x = true
    · exact ⟨[], x, xs, rfl, by simp, hx, by simp [scanList, hx, lastOr]⟩
    · have hx' : stop x = false := by simpa using hx
      have h' : ∃ y ∈ xs, stop y = true := by
        obtain ⟨y, hy, hs⟩ := h
        rcases List.mem_cons.1 hy with e | e
        · rw [e] at hs; exact absurd hs hx
        · exact ⟨y, e, hs⟩
      obtain ⟨A, y, B, e, hA, hy, hr⟩ := scanList_found stop xs x h'
      refine ⟨x :: A, y, B, by rw [e]; rfl, ?_, hy, ?_⟩
      · intro a ha
        rcases List.mem_cons.1 ha with e | e
        · rw [e]; exact hx'
        · exact hA a e
      · simp only [scanList, hx', lastOr]
        rw [hr]
        simp

theorem lseg_split {m : Mem} : ∀ {A : List Nat} {y : Nat} {B : List Nat} {h : Nat},
    lseg m h (A ++ y :: B) → y ≠ 0 ∧ lseg m (read64 m y) B
  | [], _, _, _, hl => ⟨hl.2.1, hl.2.2⟩
  | _ :: _, _, _, _, hl => lseg_split hl.2.2

/-- Unlinking a block that is not first: the predecessor's link is overwritten
with the block's own link. -/
theorem lseg_unlink {m : Mem} (y : Nat) (B : List Nat) : ∀ (A : List Nat) (h p : Nat),
    lseg m h (p :: A ++ y :: B) →
    (∀ x ∈ p :: A ++ y :: B, x + 8 ≤ 2 ^ 64) →
    (p :: A ++ y :: B).Pairwise (fun a b => a + 8 ≤ b ∨ b + 8 ≤ a) →
    lseg (write64 m (lastOr A p) (read64 m y)) h (p :: A ++ B)
  | [], h, a, hl, hb, hp => by
    obtain ⟨h1, h2, h3⟩ := hl
    obtain ⟨h4, h5, h6⟩ := h3
    have ha : a + 8 ≤ 2 ^ 64 := hb a (by simp)
    simp only [List.cons_append, List.nil_append, List.pairwise_cons] at hp
    refine ⟨h1, h2, ?_⟩
    simp only [lastOr]
    rw [read64_write64_same _ _ _ ha, Nat.mod_eq_of_lt (read64_lt _ _)]
    refine lseg_congr ?_ h6
    intro x hx
    have hx' : x ∈ B := hx
    have := hp.1 x (List.mem_cons_of_mem _ hx')
    exact read64_write64_disj _ _ _ _ ha (hb x (by simp [hx'])) this
  | a' :: A, h, a, hl, hb, hp => by
    obtain ⟨h1, h2, h3⟩ := hl
    have ha : a + 8 ≤ 2 ^ 64 := hb a (by simp)
    have hp' := hp
    simp only [List.cons_append, List.pairwise_cons] at hp'
    have ih := lseg_unlink y B A (read64 m a) a' h3
      (fun x hx => hb x (List.mem_cons_of_mem _ hx)) (by simpa using hp'.2)
    have hmem : lastOr A a' ∈ a' :: A := lastOr_mem A a'
    have hmem2 : lastOr A a' ∈ a' :: (A ++ y :: B) := by
      simp only [List.mem_cons, List.mem_append] at hmem ⊢
      tauto
    refine ⟨h1, h2, ?_⟩
    simp only [lastOr]
    have hd := hp'.1 _ hmem2
    rw [read64_write64_disj _ _ _ _ (hb _ (List.mem_cons_of_mem _ hmem2)) ha (by omega)]
    exact ih


/-! ## Blocks that tile the arena -/

theorem tiles_congr {m m' : Mem} : ∀ {xs : List Nat} {a e : Nat},
    (∀ x ∈ xs, GET_SIZE m' x = GET_SIZE m x) → tiles m a xs e → tiles m' a xs e
  | [], _, _, _, h => h
  | x :: xs, _, _, hc, h => by
    refine ⟨h.1, ?_⟩
    rw [hc x (List.mem_cons_self _ _)]
    exact tiles_congr (fun y hy => hc y (List.mem_cons_of_mem _ hy)) h.2

theorem tiles_mid {m : Mem} {x : Nat} {C2 : List Nat} {e : Nat} : ∀ {C1 : List Nat} {a : Nat},
    tiles m a (C1 ++ x :: C2) e ↔ tiles m a C1 x ∧ tiles m (x + GET_SIZE m x) C2 e
  | [], a => by
    simp only [List.nil_append, tiles]
  | y :: C1, a => by
    have ih := @tiles_mid m x C2 e C1 (y + GET_SIZE m y)
    constructor
    · intro h
      exact ⟨⟨h.1, (ih.1 h.2).1⟩, (ih.1 h.2).2⟩
    · intro h
      exact ⟨h.1.1, ih.2 ⟨h.1.2, h.2⟩⟩

theorem tiles_snoc {m : Mem} {e : Nat} : ∀ {C : List Nat} {a : Nat},
    tiles m a C e → tiles m a (C ++ [e]) (e + GET_SIZE m e)
  | [], a, h => by
    have e1 : a = e := h
    exact ⟨e1, rfl⟩
  | y :: C, a, h => ⟨h.1, tiles_snoc h.2⟩

/-- Cutting a block in two keeps the tiling. -/
theorem tiles_cut {m m' : Mem} {a e p n : Nat} {chain : List Nat} (ht : tiles m a chain e)
    (hnd : chain.Nodup) (hp : p ∈ chain) (hle : n ≤ GET_SIZE m p)
    (hL : GET_SIZE m' p = n) (hR : GET_SIZE m' (p + n) = GET_SIZE m p - n)
    (hO : ∀ q ∈ chain, q ≠ p → GET_SIZE m' q = GET_SIZE m q) :
    ∃ chain', chain'.Perm ((p + n) :: chain) ∧ tiles m' a chain' e := by
  obtain ⟨C1, C2, rfl⟩ := List.append_of_mem hp
  obtain ⟨h1, h2⟩ := tiles_mid.1 ht
  have hnd' := List.nodup_append.1 hnd
  have hnC1 : ∀ q ∈ C1, q ≠ p := fun q hq e => by
    subst e
    exact hnd'.2.2 hq (List.mem_cons_self _ _)
  have hnC2 : ∀ q ∈ C2, q ≠ p := fun q hq e => by
    subst e
    exact (List.nodup_cons.1 hnd'.2.1).1 hq
  refine ⟨C1 ++ p :: (p + n) :: C2, ?_, ?_⟩
  · have : (C1 ++ p :: (p + n) :: C2) = (C1 ++ [p]) ++ (p + n) :: C2 := by simp
    rw [this]
    refine List.perm_middle.trans ?_
    simp
  · refine tiles_mid.2 ⟨tiles_congr (fun q hq => hO q (by simp [hq]) (hnC1 q hq)) h1, ?_⟩
    rw [hL]
    refine ⟨rfl, ?_⟩
    rw [hR]
    have e1 : p + n + (GET_SIZE m p - n) = p + GET_SIZE m p := by omega
    rw [e1]
    exact tiles_congr (fun q hq => hO q (by simp [hq]) (hnC2 q hq)) h2

/-- A new block at the end extends the tiling. -/
theorem tiles_grow {m m' : Mem} {a e n : Nat} {chain : List Nat} (ht : tiles m a chain e)
    (hN : GET_SIZE m' e = n) (hO : ∀ q ∈ chain, GET_SIZE m' q = GET_SIZE m q) :
    ∃ chain', chain'.Perm (e :: chain) ∧ tiles m' a chain' (e + n) := by
  refine ⟨chain ++ [e], List.perm_append_singleton e chain, ?_⟩
  have := tiles_snoc (tiles_congr hO ht)
  rw [hN] at this
  exact this

/-- A block that absorbs its successor keeps the tiling. -/
theorem tiles_absorb {m m' : Mem} {a e p q : Nat} {chain : List Nat} (ht : tiles m a chain e)
    (hnd : chain.Nodup) (hp : p ∈ chain) (hadj : p + GET_SIZE m p = q) (hpq : p ≠ q)
    (hqe : q ≠ e)
    (hP : GET_SIZE m' p = GET_SIZE m p + GET_SIZE m q)
    (hO : ∀ r ∈ chain, r ≠ p → GET_SIZE m' r = GET_SIZE m r) :
    ∃ chain', chain'.Perm (chain.erase q) ∧ tiles m' a chain' e := by
  obtain ⟨C1, C2, rfl⟩ := List.append_of_mem hp
  obtain ⟨h1, h2⟩ := tiles_mid.1 ht
  have hnd' := List.nodup_append.1 hnd
  have hnC1 : ∀ r ∈ C1, r ≠ p := fun r hr e => by
    subst e
    exact hnd'.2.2 hr (List.mem_cons_self _ _)
  rw [hadj] at h2
  cases C2 with
  | nil => exact absurd h2 hqe
  | cons y C3 =>
    obtain ⟨e1, h3⟩ := h2
    subst e1
    have hnC3 : ∀ r ∈ C3, r ≠ p := fun r hr e => by
      subst e
      exact (List.nodup_cons.1 hnd'.2.1).1 (List.mem_cons_of_mem _ hr)
    have hqC1 : q ∉ C1 := fun hq =>
      hnd'.2.2 hq (List.mem_cons_of_mem _ (List.mem_cons_self _ _))
    have her : (C1 ++ p :: q :: C3).erase q = C1 ++ p :: C3 := by
      rw [List.erase_append_right _ hqC1, List.erase_cons_tail (by simpa using hpq),
        List.erase_cons_head]
    rw [her]
    refine ⟨C1 ++ p :: C3, List.Perm.refl _, ?_⟩
    refine tiles_mid.2 ⟨tiles_congr (fun r hr => hO r (by simp [hr]) (hnC1 r hr)) h1, ?_⟩
    rw [hP, ← Nat.add_assoc, hadj]
    exact tiles_congr (fun r hr => hO r (by simp [hr]) (hnC3 r hr)) h3

/-- Dropping the last block keeps the tiling, up to the start of that block. -/
theorem tiles_discard {m : Mem} {a e q : Nat} {chain : List Nat} (ht : tiles m a chain e)
    (hnd : chain.Nodup) (hq : q ∈ chain) (htop : q + GET_SIZE m q = e)
    (hlt : ∀ r ∈ chain, r ≠ e) :
    ∃ chain', chain'.Perm (chain.erase q) ∧ tiles m a chain' q := by
  obtain ⟨C1, C2, rfl⟩ := List.append_of_mem hq
  obtain ⟨h1, h2⟩ := tiles_mid.1 ht
  have hnd' := List.nodup_append.1 hnd
  rw [htop] at h2
  cases C2 with
  | cons y C3 =>
    exact absurd h2.1.symm (hlt y (by simp))
  | nil =>
    have hqC1 : q ∉ C1 := fun hq => hnd'.2.2 hq (List.mem_cons_self _ _)
    have her : (C1 ++ [q]).erase q = C1 := by
      rw [List.erase_append_right _ hqC1, List.erase_cons_head, List.append_nil]
    rw [her]
    exact ⟨C1, List.Perm.refl _, h1⟩

theorem tiles_start_le {m : Mem} : ∀ {xs : List Nat} {a e : Nat}, tiles m a xs e → a ≤ e
  | [], _, _, h => le_of_eq h
  | x :: xs, a, e, h => by
    have h1 : a = x := h.1
    have h2 := tiles_start_le h.2
    omega

/-- Every block of a tiling ends at or below the end of the tiling. -/
theorem tiles_le {m : Mem} : ∀ {xs : List Nat} {a e : Nat}, tiles m a xs e →
    ∀ x ∈ xs, x + GET_SIZE m x ≤ e
  | [], _, _, _, x, hx => by simp at hx
  | y :: ys, a, e, h, x, hx => by
    rcases List.mem_cons.1 hx with e1 | hm
    · subst e1
      exact tiles_start_le h.2
    · exact tiles_le h.2 x hm

/-! ## Well-formed heaps: basic steps -/

theorem GET_SIZE_lt (m : Mem) (p : Nat) : GET_SIZE m p < 2 ^ 64 := read64_lt _ _

theorem GET_SIZE_congr (m m' : Mem) (p : Nat) (h8 : 8 ≤ p) (hp : p ≤ 2 ^ 64)
    (h : ∀ x, p ≤ x + 8 → x < p → m' x = m x) : GET_SIZE m' p = GET_SIZE m p := by
  unfold GET_SIZE
  have e : (2 ^ 64 + p - 8) % 2 ^ 64 = p - 8 := by omega
  rw [e]
  exact read64_congr _ _ _ (by omega) (fun x h1 h2 => h x (by omega) (by omega))

theorem GET_SIZE_SET_SIZE (m : Mem) (p v : Nat) (h8 : 8 ≤ p) (hp : p ≤ 2 ^ 64) :
    GET_SIZE (SET_SIZE m p v) p = v % 2 ^ 64 := by
  unfold GET_SIZE SET_SIZE
  exact read64_write64_same _ _ _ (by omega)

theorem SET_SIZE_out (m : Mem) (p v x : Nat) (h8 : 8 ≤ p) (hp : p ≤ 2 ^ 64) (hx : x < 2 ^ 64)
    (h : x + 8 < p ∨ p ≤ x) : SET_SIZE m p v x = m x := by
  unfold SET_SIZE
  exact write64_out _ _ _ _ (by omega) hx (by omega)

/-- A state whose blocks are those of a well-formed state, with the same
recorded sizes, is well formed as soon as its free list is laid out. -/
theorem WF.reshape {s s' : State} {base : Nat} {live free live' free' : List Nat}
    (h : WF s base live free)
    (e1 : s'.brk = s.brk) (e2 : s'.brkMin = s.brkMin) (e3 : s'.brkMax = s.brkMax)
    (e4 : s'.emptyAddr = s.emptyAddr)
    (hn : (live' ++ free').Nodup)
    (hsub : ∀ p ∈ live' ++ free', p ∈ live ++ free)
    (hsz : ∀ p ∈ live' ++ free', GET_SIZE s'.mem p = GET_SIZE s.mem p)
    (hl : lseg s'.mem s'.head free')
    (hperm : (live' ++ free').Perm (live ++ free)) : WF s' base live' free' where
  max_lt := by rw [e3]; exact h.max_lt
  brk_le := by rw [e1, e3]; exact h.brk_le
  base_le := by rw [e1]; exact h.base_le
  min_le := by rw [e2]; exact h.min_le
  empty_ne := by rw [e4]; exact h.empty_ne
  empty_lt := by rw [e4]; exact h.empty_lt
  nodup := hn
  blk := by
    intro p hp
    rw [hsz p hp, e1]
    exact h.blk p (hsub p hp)
  disj := by
    intro p hp q hq hne
    rw [hsz p hp, hsz q hq]
    exact h.disj p (hsub p hp) q (hsub q hq) hne
  list := hl
  mult := by
    intro p hp
    rw [hsz p hp]
    exact h.mult p (hsub p hp)
  tile := by
    obtain ⟨chain, hc, ht⟩ := h.tile
    refine ⟨chain, hc.trans hperm.symm, ?_⟩
    rw [e1]
    exact tiles_congr (fun x hx => hsz x (hperm.mem_iff.2 (hc.mem_iff.1 hx))) ht

theorem WF.head_lt {s : State} {base : Nat} {live free : List Nat} (h : WF s base live free) :
    s.head < 2 ^ 64 := by
  have hl := h.list
  have hm := h.max_lt
  have hb := h.brk_le
  cases free with
  | nil =>
    have : s.head = 0 := hl
    omega
  | cons x xs =>
    have e : s.head = x := hl.1
    have := h.blk x (by simp)
    omega

/-- Bytes of a block: header and payload. -/
theorem WF.bounds {s : State} {base : Nat} {live free : List Nat} (h : WF s base live free)
    {p : Nat} (hp : p ∈ live ++ free) :
    8 ≤ p ∧ 16 ≤ GET_SIZE s.mem p ∧ p + GET_SIZE s.mem p ≤ s.brk + 8 ∧ s.brk + 8 < 2 ^ 64 ∧
      base + 8 ≤ p := by
  have := h.blk p hp
  have := h.max_lt
  have := h.brk_le
  omega

/-- Pushing a live block on the free list (`myfree`, lines 167-168). -/
theorem WF.push {s : State} {base : Nat} {live free : List Nat} (h : WF s base live free)
    {p : Nat} (hp : p ∈ live) :
    WF { s with mem := write64 s.mem p s.head, head := p } base (live.erase p) (p :: free) := by
  have hpb := h.bounds (List.mem_append_left _ hp)
  have hperm : (live.erase p ++ p :: free).Perm (live ++ free) := by
    have h1 : (live.erase p ++ p :: free).Perm (p :: (live.erase p ++ free)) :=
      List.perm_middle
    have h2 : (p :: live.erase p).Perm live := (List.perm_cons_erase hp).symm
    exact h1.trans (List.Perm.append_right free h2)
  have hsz : ∀ q ∈ live ++ free, GET_SIZE (write64 s.mem p s.head) q = GET_SIZE s.mem q := by
    intro q hq
    have hqb := h.bounds hq
    apply GET_SIZE_congr _ _ _ (by omega) (by omega)
    intro x h1 h2
    apply write64_out _ _ _ _ (by omega) (by omega)
    by_cases e : q = p
    · subst e; omega
    · have := h.disj q hq p (List.mem_append_left _ hp) e
      omega
  refine h.reshape rfl rfl rfl rfl (hperm.nodup_iff.2 h.nodup) (fun q hq => hperm.mem_iff.1 hq)
    (fun q hq => hsz q (hperm.mem_iff.1 hq)) ?_ hperm
  refine ⟨rfl, by omega, ?_⟩
  show lseg (write64 s.mem p s.head) (read64 (write64 s.mem p s.head) p) free
  rw [read64_write64_same _ _ _ (by omega), Nat.mod_eq_of_lt h.head_lt]
  refine lseg_congr ?_ h.list
  intro x hx
  have hxb := h.bounds (List.mem_append_right _ hx)
  have hne : x ≠ p := by
    intro e
    subst e
    have := h.nodup
    rw [List.nodup_append] at this
    exact this.2.2 hp hx
  have := h.disj x (List.mem_append_right _ hx) p (List.mem_append_left _ hp) hne
  exact read64_write64_disj _ _ _ _ (by omega) (by omega) (by omega)


theorem SameBlock.size {m m' : Mem} {q : Nat} (h : SameBlock m m' q) (h8 : 8 ≤ q)
    (hs : 8 ≤ GET_SIZE m q) (hq : q ≤ 2 ^ 64) : GET_SIZE m' q = GET_SIZE m q :=
  GET_SIZE_congr _ _ _ h8 hq (fun x h1 _ => h x h1 (by omega))

theorem SameBlock.link {m m' : Mem} {q : Nat} (h : SameBlock m m' q)
    (hs : 16 ≤ GET_SIZE m q) (hq : q + 8 ≤ 2 ^ 64) : read64 m' q = read64 m q :=
  read64_congr _ _ _ hq (fun x _ _ => h x (by omega) (by omega))

theorem SameBlock.refl (m : Mem) (q : Nat) : SameBlock m m q := fun _ _ _ => rfl

theorem SameBlock.andThen {m m' m'' : Mem} {q : Nat} (h : SameBlock m m' q)
    (h' : SameBlock m' m'' q) (e : GET_SIZE m' q = GET_SIZE m q) : SameBlock m m'' q := by
  intro x h1 h2
  rw [h' x h1 (by rw [e]; exact h2), h x h1 h2]

/-- A store that stays inside block `r` leaves every other block untouched. -/
theorem WF.sameBlock_of_inside {s : State} {base : Nat} {live free : List Nat}
    (h : WF s base live free) {r q : Nat} {m' : Mem}
    (hr : r ∈ live ++ free) (hq : q ∈ live ++ free) (hne : q ≠ r)
    (hm : ∀ x, x < 2 ^ 64 → ¬ (r ≤ x + 8 ∧ x + 8 < r + GET_SIZE s.mem r) → m' x = s.mem x) :
    SameBlock s.mem m' q := by
  intro x h1 h2
  have hqb := h.bounds hq
  have hrb := h.bounds hr
  have := h.disj q hq r hr hne
  exact hm x (by omega) (by omega)

/-- A store above the break leaves every block untouched. -/
theorem WF.sameBlock_of_above {s : State} {base : Nat} {live free : List Nat}
    (h : WF s base live free) {q : Nat} {m' : Mem} (hq : q ∈ live ++ free)
    (hm : ∀ x, x < s.brk → m' x = s.mem x) : SameBlock s.mem m' q := by
  intro x h1 h2
  have hqb := h.bounds hq
  exact hm x (by omega)

theorem WF.size_lt {s : State} {base : Nat} {live free : List Nat} (h : WF s base live free)
    {p : Nat} (hp : p ∈ live ++ free) : p + 8 ≤ 2 ^ 64 := by
  have := h.bounds hp
  omega

/-- The links of the free list are eight bytes apart. -/
theorem WF.spaced {s : State} {base : Nat} {live free : List Nat} (h : WF s base live free) :
    free.Pairwise (fun a b => a + 8 ≤ b ∨ b + 8 ≤ a) := by
  have hn : free.Nodup := (List.nodup_append.1 h.nodup).2.1
  refine hn.pairwise_of_forall_ne ?_
  intro a ha b hb hne
  have h1 := h.bounds (List.mem_append_right _ ha)
  have h2 := h.bounds (List.mem_append_right _ hb)
  have := h.disj a (List.mem_append_right _ ha) b (List.mem_append_right _ hb) hne
  omega

theorem unlinked_brk (s : State) (A : List Nat) (x : Nat) : (unlinked s A x).brk = s.brk := by
  cases A <;> rfl

theorem unlinked_brkMin (s : State) (A : List Nat) (x : Nat) :
    (unlinked s A x).brkMin = s.brkMin := by
  cases A <;> rfl

theorem unlinked_brkMax (s : State) (A : List Nat) (x : Nat) :
    (unlinked s A x).brkMax = s.brkMax := by
  cases A <;> rfl

theorem unlinked_emptyAddr (s : State) (A : List Nat) (x : Nat) :
    (unlinked s A x).emptyAddr = s.emptyAddr := by
  cases A <;> rfl

/-- Unlinking touches at most the link word of the predecessor. -/
theorem WF.unlinked_same {s : State} {base : Nat} {live A B : List Nat} {x : Nat}
    (h : WF s base live (A ++ x :: B)) {q : Nat} (hq : q ∈ live ++ (A ++ x :: B))
    (hqA : q ∉ A) : SameBlock s.mem (unlinked s A x).mem q := by
  cases A with
  | nil => exact SameBlock.refl _ _
  | cons a A' =>
    have hmem : lastOr A' a ∈ a :: A' := lastOr_mem A' a
    have hr : lastOr A' a ∈ live ++ (a :: A' ++ x :: B) :=
      List.mem_append_right _ (List.mem_append_left _ hmem)
    have hrb := h.bounds hr
    refine h.sameBlock_of_inside hr hq (fun e => hqA (e ▸ hmem)) ?_
    intro y hy hny
    exact write64_out _ _ _ _ (by omega) hy (by omega)

/-- Unlinking keeps every recorded size. -/
theorem WF.unlinked_size {s : State} {base : Nat} {live A B : List Nat} {x : Nat}
    (h : WF s base live (A ++ x :: B)) {q : Nat} (hq : q ∈ live ++ (A ++ x :: B)) :
    GET_SIZE (unlinked s A x).mem q = GET_SIZE s.mem q := by
  cases A with
  | nil => rfl
  | cons a A' =>
    have hmem : lastOr A' a ∈ a :: A' := lastOr_mem A' a
    have hr : lastOr A' a ∈ live ++ (a :: A' ++ x :: B) :=
      List.mem_append_right _ (List.mem_append_left _ hmem)
    have hrb := h.bounds hr
    have hqb := h.bounds hq
    apply GET_SIZE_congr _ _ _ (by omega) (by omega)
    intro y h1 h2
    apply write64_out _ _ _ _ (by omega) (by omega)
    by_cases e : q = lastOr A' a
    · rw [← e]; omega
    · have := h.disj q hq _ hr e
      omega

/-- Unlinking a block of the free list (it becomes a live block). -/
theorem WF.unlink {s : State} {base : Nat} {live A B : List Nat} {x : Nat}
    (h : WF s base live (A ++ x :: B)) : WF (unlinked s A x) base (x :: live) (A ++ B) := by
  have hperm : (x :: live ++ (A ++ B)).Perm (live ++ (A ++ x :: B)) := by
    have h1 : (live ++ (A ++ x :: B)).Perm (live ++ x :: (A ++ B)) :=
      List.Perm.append_left live List.perm_middle
    have h2 : (live ++ x :: (A ++ B)).Perm (x :: (live ++ (A ++ B))) := List.perm_middle
    exact (h1.trans h2).symm
  refine h.reshape (unlinked_brk _ _ _) (unlinked_brkMin _ _ _) (unlinked_brkMax _ _ _)
    (unlinked_emptyAddr _ _ _) (hperm.nodup_iff.2 h.nodup) (fun q hq => hperm.mem_iff.1 hq)
    (fun q hq => h.unlinked_size (hperm.mem_iff.1 hq)) ?_ hperm
  cases A with
  | nil =>
    exact h.list.2.2
  | cons a A' =>
    have hl := h.list
    have e : s.head = a := hl.1
    refine lseg_unlink x B A' _ a hl ?_ h.spaced
    intro y hy
    exact h.size_lt (List.mem_append_right _ hy)


theorem split_small (s : State) (p n : Nat) (hle : n ≤ GET_SIZE s.mem p)
    (h : GET_SIZE s.mem p < n + 16) : split s p n = (p, s) := by
  have := GET_SIZE_lt s.mem p
  unfold split OVER_HEAD
  rw [if_pos (by omega)]

theorem split_big (s : State) (p n : Nat) (h8 : 8 ≤ p) (hn : 8 ≤ n)
    (h : n + 16 ≤ GET_SIZE s.mem p) (hp : p + GET_SIZE s.mem p ≤ 2 ^ 64) :
    split s p n = (p, splitAt s p n) := by
  have hlt := GET_SIZE_lt s.mem p
  unfold split OVER_HEAD splitAt
  rw [if_neg (by omega)]
  have e1 : (p + n) % 2 ^ 64 = p + n := by omega
  have e2 : (2 ^ 64 + GET_SIZE s.mem p - n) % 2 ^ 64 = GET_SIZE s.mem p - n := by omega
  simp only [e1, e2]
  have e3 : GET_SIZE (SET_SIZE s.mem (p + n) (GET_SIZE s.mem p - n)) p = GET_SIZE s.mem p := by
    apply GET_SIZE_congr _ _ _ h8 (by omega)
    intro x h1 h2
    exact SET_SIZE_out _ _ _ _ (by omega) (by omega) (by omega) (by omega)
  have e4 : GET_SIZE (SET_SIZE s.mem (p + n) (GET_SIZE s.mem p - n)) (p + n)
      = GET_SIZE s.mem p - n := by
    rw [GET_SIZE_SET_SIZE _ _ _ (by omega) (by omega)]
    omega
  rw [e3, e4]
  have e5 : (2 ^ 64 + GET_SIZE s.mem p - (GET_SIZE s.mem p - n)) % 2 ^ 64 = n := by omega
  rw [e5]

/-- Bytes that `split` leaves alone: everything but the header of `p` and the
header and link of the remainder. -/
theorem splitAt_out (s : State) (p n x : Nat) (h8 : 8 ≤ p) (hn : 8 ≤ n) (hp : p + n + 8 ≤ 2 ^ 64)
    (hx : x < 2 ^ 64) (h : x + 8 < p ∨ (p ≤ x ∧ x + 8 < p + n) ∨ p + n + 8 ≤ x) :
    (splitAt s p n).mem x = s.mem x := by
  show write64 (SET_SIZE (SET_SIZE s.mem (p + n) (GET_SIZE s.mem p - n)) p n) (p + n) s.head x = _
  rw [write64_out _ _ _ _ (by omega) hx (by omega),
    SET_SIZE_out _ _ _ _ (by omega) (by omega) hx (by omega),
    SET_SIZE_out _ _ _ _ (by omega) (by omega) hx (by omega)]

theorem splitAt_size_left (s : State) (p n : Nat) (h8 : 8 ≤ p) (hn : 8 ≤ n)
    (hp : p + n + 8 ≤ 2 ^ 64) : GET_SIZE (splitAt s p n).mem p = n := by
  show GET_SIZE (write64 (SET_SIZE (SET_SIZE s.mem (p + n) (GET_SIZE s.mem p - n)) p n)
    (p + n) s.head) p = n
  have : GET_SIZE (write64 (SET_SIZE (SET_SIZE s.mem (p + n) (GET_SIZE s.mem p - n)) p n)
      (p + n) s.head) p = GET_SIZE (SET_SIZE (SET_SIZE s.mem (p + n) (GET_SIZE s.mem p - n)) p n) p := by
    apply GET_SIZE_congr _ _ _ h8 (by omega)
    intro x h1 h2
    exact write64_out _ _ _ _ (by omega) (by omega) (by omega)
  rw [this, GET_SIZE_SET_SIZE _ _ _ h8 (by omega)]
  omega

theorem splitAt_size_right (s : State) (p n : Nat) (h8 : 8 ≤ p) (hn : 8 ≤ n)
    (hp : p + n + 8 ≤ 2 ^ 64) : GET_SIZE (splitAt s p n).mem (p + n) = GET_SIZE s.mem p - n := by
  show GET_SIZE (write64 (SET_SIZE (SET_SIZE s.mem (p + n) (GET_SIZE s.mem p - n)) p n)
    (p + n) s.head) (p + n) = _
  have e1 : GET_SIZE (write64 (SET_SIZE (SET_SIZE s.mem (p + n) (GET_SIZE s.mem p - n)) p n)
      (p + n) s.head) (p + n)
      = GET_SIZE (SET_SIZE (SET_SIZE s.mem (p + n) (GET_SIZE s.mem p - n)) p n) (p + n) := by
    apply GET_SIZE_congr _ _ _ (by omega) (by omega)
    intro x h1 h2
    exact write64_out _ _ _ _ (by omega) (by omega) (by omega)
  have e2 : GET_SIZE (SET_SIZE (SET_SIZE s.mem (p + n) (GET_SIZE s.mem p - n)) p n) (p + n)
      = GET_SIZE (SET_SIZE s.mem (p + n) (GET_SIZE s.mem p - n)) (p + n) := by
    apply GET_SIZE_congr _ _ _ (by omega) (by omega)
    intro x h1 h2
    exact SET_SIZE_out _ _ _ _ (by omega) (by omega) (by omega) (by omega)
  rw [e1, e2, GET_SIZE_SET_SIZE _ _ _ (by omega) (by omega)]
  have := GET_SIZE_lt s.mem p
  omega

theorem splitAt_link (s : State) (p n : Nat) (hp : p + n + 8 ≤ 2 ^ 64) (hh : s.head < 2 ^ 64) :
    read64 (splitAt s p n).mem (p + n) = s.head := by
  show read64 (write64 _ (p + n) s.head) (p + n) = _
  rw [read64_write64_same _ _ _ hp, Nat.mod_eq_of_lt hh]

/-- Cutting a live block in two: the remainder joins the free list. -/
theorem WF.cut {s : State} {base : Nat} {live free : List Nat} (h : WF s base live free)
    {p n : Nat} (hp : p ∈ live) (hn : 16 ≤ n) (hn8 : n % 8 = 0)
    (hsz : n + 16 ≤ GET_SIZE s.mem p) :
    WF (splitAt s p n) base live ((p + n) :: free)
      ∧ (∀ q ∈ live ++ free, q ≠ p → SameBlock s.mem (splitAt s p n).mem q) := by
  have hpm : p ∈ live ++ free := List.mem_append_left _ hp
  have hpb := h.bounds hpm
  have hsame : ∀ q ∈ live ++ free, q ≠ p → SameBlock s.mem (splitAt s p n).mem q := by
    intro q hq hne
    refine h.sameBlock_of_inside hpm hq hne ?_
    intro x hx hnx
    exact splitAt_out s p n x (by omega) (by omega) (by omega) hx (by omega)
  have hL := splitAt_size_left s p n (by omega) (by omega) (by omega)
  have hR := splitAt_size_right s p n (by omega) (by omega) (by omega)
  have hO : ∀ q ∈ live ++ free, q ≠ p →
      GET_SIZE (splitAt s p n).mem q = GET_SIZE s.mem q := by
    intro q hq hne
    have hqb := h.bounds hq
    exact (hsame q hq hne).size (by omega) (by omega) (by omega)
  have hfresh : p + n ∉ live ++ free := by
    intro hq
    have hqb := h.bounds hq
    have := h.disj (p + n) hq p hpm (by omega)
    omega
  have key : ∀ q ∈ live ++ (p + n) :: free,
      (q = p ∧ GET_SIZE (splitAt s p n).mem q = n)
      ∨ (q = p + n ∧ GET_SIZE (splitAt s p n).mem q = GET_SIZE s.mem p - n)
      ∨ (q ∈ live ++ free ∧ q ≠ p ∧ GET_SIZE (splitAt s p n).mem q = GET_SIZE s.mem q) := by
    intro q hq
    by_cases e1 : q = p
    · left; exact ⟨e1, by rw [e1]; exact hL⟩
    · by_cases e2 : q = p + n
      · right; left; exact ⟨e2, by rw [e2]; exact hR⟩
      · right; right
        have hq' : q ∈ live ++ free := by
          simp only [List.mem_append, List.mem_cons] at hq ⊢
          tauto
        exact ⟨hq', e1, hO q hq' e1⟩
  refine ⟨?_, hsame⟩
  have hperm : (live ++ (p + n) :: free).Perm ((p + n) :: (live ++ free)) := List.perm_middle
  refine ⟨h.max_lt, h.brk_le, h.base_le, h.min_le, h.empty_ne, h.empty_lt, ?_, ?_, ?_, ?_, ?_, ?_⟩
  · have : (live ++ (p + n) :: free).Perm ((p + n) :: (live ++ free)) := List.perm_middle
    rw [this.nodup_iff, List.nodup_cons]
    exact ⟨hfresh, h.nodup⟩
  · intro q hq
    show base + 8 ≤ q ∧ 16 ≤ GET_SIZE (splitAt s p n).mem q
      ∧ q + GET_SIZE (splitAt s p n).mem q ≤ s.brk + 8
    rcases key q hq with ⟨e, z⟩ | ⟨e, z⟩ | ⟨m, _, z⟩
    · rw [z]; omega
    · rw [z]; omega
    · rw [z]; exact h.blk q m
  · intro q1 hq1 q2 hq2 hne
    rcases key q1 hq1 with ⟨e1, z1⟩ | ⟨e1, z1⟩ | ⟨m1, n1, z1⟩ <;>
    rcases key q2 hq2 with ⟨e2, z2⟩ | ⟨e2, z2⟩ | ⟨m2, n2, z2⟩ <;> rw [z1, z2]
    · omega
    · omega
    · have := h.disj q2 m2 p hpm n2; omega
    · omega
    · omega
    · have := h.disj q2 m2 p hpm n2; omega
    · have := h.disj q1 m1 p hpm n1; omega
    · have := h.disj q1 m1 p hpm n1; omega
    · exact h.disj q1 m1 q2 m2 hne
  · refine ⟨rfl, by omega, ?_⟩
    rw [splitAt_link s p n (by omega) h.head_lt]
    refine lseg_congr ?_ h.list
    intro x hx
    have hxm : x ∈ live ++ free := List.mem_append_right _ hx
    have hne : x ≠ p := by
      intro e
      subst e
      exact (List.nodup_append.1 h.nodup).2.2 hp hx
    have hxb := h.bounds hxm
    exact (hsame x hxm hne).link (by omega) (by omega)
  · intro q hq
    show GET_SIZE (splitAt s p n).mem q % 8 = 0
    have hmp := h.mult p hpm
    rcases key q hq with ⟨e, z⟩ | ⟨e, z⟩ | ⟨m, _, z⟩
    · rw [z]; exact hn8
    · rw [z]; omega
    · rw [z]; exact h.mult q m
  · obtain ⟨chain, hc, ht⟩ := h.tile
    obtain ⟨chain', hc', ht'⟩ := tiles_cut ht (hc.nodup_iff.2 h.nodup) (hc.mem_iff.2 hpm)
      (by omega : n ≤ GET_SIZE s.mem p) hL hR (fun q hq hne => hO q (hc.mem_iff.1 hq) hne)
    exact ⟨chain', (hc'.trans (List.Perm.cons _ hc)).trans hperm.symm, ht'⟩


/-- Well-formedness of a state whose limits are those of a well-formed one. -/
theorem WF.rebuild {s s' : State} {base : Nat} {live free live' free' : List Nat}
    (h : WF s base live free)
    (e2 : s'.brkMin = s.brkMin) (e3 : s'.brkMax = s.brkMax) (e4 : s'.emptyAddr = s.emptyAddr)
    (h1 : s'.brk ≤ s.brkMax) (h2 : base ≤ s'.brk)
    (hn : (live' ++ free').Nodup)
    (hb : ∀ p ∈ live' ++ free',
      base + 8 ≤ p ∧ 16 ≤ GET_SIZE s'.mem p ∧ p + GET_SIZE s'.mem p ≤ s'.brk + 8)
    (hd : ∀ p ∈ live' ++ free', ∀ q ∈ live' ++ free', p ≠ q →
      p + GET_SIZE s'.mem p ≤ q ∨ q + GET_SIZE s'.mem q ≤ p)
    (hl : lseg s'.mem s'.head free')
    (hm : ∀ p ∈ live' ++ free', GET_SIZE s'.mem p % 8 = 0)
    (ht : ∃ chain, chain.Perm (live' ++ free') ∧ tiles s'.mem (base + 8) chain (s'.brk + 8)) :
    WF s' base live' free' where
  max_lt := by rw [e3]; exact h.max_lt
  brk_le := by rw [e3]; exact h1
  base_le := h2
  min_le := by rw [e2]; exact h.min_le
  empty_ne := by rw [e4]; exact h.empty_ne
  empty_lt := by rw [e4]; exact h.empty_lt
  nodup := hn
  blk := hb
  disj := hd
  list := hl
  mult := hm
  tile := ht

theorem sbrk_ok (s : State) (n : Nat) (h0 : n ≠ 0) (hn : n < 2 ^ 63) (h : s.brk + n ≤ s.brkMax)
    (hm : s.brkMax < 2 ^ 64) : sbrk s n = (s.brk, { s with brk := s.brk + n }) := by
  unfold sbrk
  rw [if_neg h0, if_pos hn, if_pos ⟨h, by omega⟩]

theorem grown_size (s : State) (n : Nat) (hb : s.brk + 8 ≤ 2 ^ 64) (hn : n < 2 ^ 64) :
    GET_SIZE (grown s n).mem (s.brk + 8) = n := by
  simp only [grown]
  rw [GET_SIZE_SET_SIZE _ _ _ (by omega) (by omega)]
  omega

theorem grown_out (s : State) (n x : Nat) (hb : s.brk + 8 ≤ 2 ^ 64) (hx : x < s.brk ∨ (s.brk + 8 ≤ x ∧ x < 2 ^ 64)) :
    (grown s n).mem x = s.mem x := by
  simp only [grown]
  exact SET_SIZE_out _ _ _ _ (by omega) (by omega) (by omega) (by omega)

/-- Growing the arena: the new block at the old break is live. -/
theorem WF.grow {s : State} {base : Nat} {live free : List Nat} (h : WF s base live free)
    {n : Nat} (hn : 16 ≤ n) (hn8 : n % 8 = 0) (hfit : s.brk + n ≤ s.brkMax) :
    WF (grown s n) base ((s.brk + 8) :: live) free
      ∧ (∀ q ∈ live ++ free, SameBlock s.mem (grown s n).mem q) := by
  have hmax := h.max_lt
  have hsame : ∀ q ∈ live ++ free, SameBlock s.mem (grown s n).mem q := by
    intro q hq
    refine h.sameBlock_of_above hq ?_
    intro x hx
    exact grown_out s n x (by omega) (Or.inl hx)
  have hN := grown_size s n (by omega) (by omega)
  have hO : ∀ q ∈ live ++ free, GET_SIZE (grown s n).mem q = GET_SIZE s.mem q := by
    intro q hq
    have hqb := h.bounds hq
    exact (hsame q hq).size (by omega) (by omega) (by omega)
  have hfresh : s.brk + 8 ∉ live ++ free := by
    intro hq
    have hqb := h.bounds hq
    omega
  have key : ∀ q ∈ (s.brk + 8) :: live ++ free,
      (q = s.brk + 8 ∧ GET_SIZE (grown s n).mem q = n)
      ∨ (q ∈ live ++ free ∧ GET_SIZE (grown s n).mem q = GET_SIZE s.mem q) := by
    intro q hq
    rcases List.mem_cons.1 hq with e | m
    · subst e; left; exact ⟨rfl, hN⟩
    · right; exact ⟨m, hO q m⟩
  have eb : (grown s n).brk = s.brk + n := by simp only [grown]
  refine ⟨?_, hsame⟩
  refine h.rebuild (by simp only [grown]) (by simp only [grown]) (by simp only [grown])
    ?_ ?_ ?_ ?_ ?_ ?_ ?_ ?_
  · rw [eb]; exact hfit
  · rw [eb]; exact le_trans h.base_le (Nat.le_add_right _ _)
  · exact List.nodup_cons.2 ⟨hfresh, h.nodup⟩
  · intro q hq
    rw [eb]
    have hb := h.base_le
    rcases key q hq with ⟨e, z⟩ | ⟨m, z⟩
    · rw [z]; omega
    · rw [z]; have := h.blk q m; omega
  · intro q1 hq1 q2 hq2 hne
    rcases key q1 hq1 with ⟨e1, z1⟩ | ⟨m1, z1⟩ <;>
    rcases key q2 hq2 with ⟨e2, z2⟩ | ⟨m2, z2⟩ <;> rw [z1, z2]
    · omega
    · have := h.blk q2 m2; omega
    · have := h.blk q1 m1; omega
    · exact h.disj q1 m1 q2 m2 hne
  · have eh : (grown s n).head = s.head := by simp only [grown]
    rw [eh]
    refine lseg_congr ?_ h.list
    intro x hx
    have hxm : x ∈ live ++ free := List.mem_append_right _ hx
    have hxb := h.bounds hxm
    exact (hsame x hxm).link (by omega) (by omega)
  · intro q hq
    rcases key q hq with ⟨e, z⟩ | ⟨m, z⟩
    · rw [z]; exact hn8
    · rw [z]; exact h.mult q m
  · obtain ⟨chain, hc, ht⟩ := h.tile
    obtain ⟨chain', hc', ht'⟩ := tiles_grow ht hN (fun q hq => hO q (hc.mem_iff.1 hq))
    refine ⟨chain', hc'.trans (List.Perm.cons _ hc), ?_⟩
    rw [eb]
    have e : s.brk + n + 8 = s.brk + 8 + n := by omega
    rw [e]
    exact ht'

/-- Absorbing a detached block `q` into the free block `p` that ends where `q`
starts (`merge`, line 59). -/
theorem WF.absorb {s : State} {base : Nat} {live free : List Nat} (h : WF s base live free)
    {p q : Nat} (hp : p ∈ free) (hq : q ∈ live) (hadj : p + GET_SIZE s.mem p = q) :
    WF { s with mem := SET_SIZE s.mem p (GET_SIZE s.mem p + GET_SIZE s.mem q) } base
        (live.erase q) free
      ∧ (∀ r ∈ live ++ free, r ≠ p →
          SameBlock s.mem (SET_SIZE s.mem p (GET_SIZE s.mem p + GET_SIZE s.mem q)) r)
      ∧ GET_SIZE (SET_SIZE s.mem p (GET_SIZE s.mem p + GET_SIZE s.mem q)) p
          = GET_SIZE s.mem p + GET_SIZE s.mem q
      ∧ (∀ x, p ≤ x → x < 2 ^ 64 →
          SET_SIZE s.mem p (GET_SIZE s.mem p + GET_SIZE s.mem q) x = s.mem x) := by
  have hpm : p ∈ live ++ free := List.mem_append_right _ hp
  have hqm : q ∈ live ++ free := List.mem_append_left _ hq
  have hpb := h.bounds hpm
  have hqb := h.bounds hqm
  generalize hv : GET_SIZE s.mem p + GET_SIZE s.mem q = v
  have hout : ∀ x, x < 2 ^ 64 → (x + 8 < p ∨ p ≤ x) → SET_SIZE s.mem p v x = s.mem x := by
    intro x hx hh
    exact SET_SIZE_out _ _ _ _ (by omega) (by omega) hx hh
  have hsame : ∀ r ∈ live ++ free, r ≠ p → SameBlock s.mem (SET_SIZE s.mem p v) r := by
    intro r hr hne
    refine h.sameBlock_of_inside hpm hr hne ?_
    intro x hx hnx
    exact hout x hx (by omega)
  have hP : GET_SIZE (SET_SIZE s.mem p v) p = v := by
    rw [GET_SIZE_SET_SIZE _ _ _ (by omega) (by omega)]
    omega
  have hO : ∀ r ∈ live ++ free, r ≠ p → GET_SIZE (SET_SIZE s.mem p v) r = GET_SIZE s.mem r := by
    intro r hr hne
    have hrb := h.bounds hr
    exact (hsame r hr hne).size (by omega) (by omega) (by omega)
  have hnd : (live.erase q ++ free).Nodup := by
    have := h.nodup
    rw [List.nodup_append] at this ⊢
    refine ⟨this.1.erase q, this.2.1, ?_⟩
    intro a ha hb
    exact this.2.2 (List.mem_of_mem_erase ha) hb
  have hlive : live.Nodup := (List.nodup_append.1 h.nodup).1
  have hpq : p ≠ q := by omega
  have key : ∀ r ∈ live.erase q ++ free,
      (r = p ∧ GET_SIZE (SET_SIZE s.mem p v) r = v)
      ∨ (r ∈ live ++ free ∧ r ≠ p ∧ r ≠ q ∧ GET_SIZE (SET_SIZE s.mem p v) r = GET_SIZE s.mem r) := by
    intro r hr
    by_cases e : r = p
    · left; exact ⟨e, by rw [e]; exact hP⟩
    · right
      have hr' : r ∈ live ++ free ∧ r ≠ q := by
        rcases List.mem_append.1 hr with m | m
        · exact ⟨List.mem_append_left _ (List.mem_of_mem_erase m),
            ((List.Nodup.mem_erase_iff hlive).1 m).1⟩
        · refine ⟨List.mem_append_right _ m, ?_⟩
          intro e'
          rw [e'] at m
          exact (List.nodup_append.1 h.nodup).2.2 hq m
      exact ⟨hr'.1, e, hr'.2, hO r hr'.1 e⟩
  refine ⟨?_, hsame, hP, fun x h1 h2 => hout x h2 (Or.inr h1)⟩
  refine h.rebuild (by simp only) (by simp only) (by simp only) h.brk_le h.base_le hnd ?_ ?_ ?_
    ?_ ?_
  · intro r hr
    dsimp only
    rcases key r hr with ⟨e, z⟩ | ⟨m, _, _, z⟩
    · rw [z]; omega
    · rw [z]; exact h.blk r m
  · intro r1 hr1 r2 hr2 hne
    dsimp only
    rcases key r1 hr1 with ⟨e1, z1⟩ | ⟨m1, n1, k1, z1⟩ <;>
    rcases key r2 hr2 with ⟨e2, z2⟩ | ⟨m2, n2, k2, z2⟩ <;> rw [z1, z2]
    · omega
    · have := h.disj r2 m2 p hpm n2
      have := h.disj r2 m2 q hqm k2
      omega
    · have := h.disj r1 m1 p hpm n1
      have := h.disj r1 m1 q hqm k1
      omega
    · exact h.disj r1 m1 r2 m2 hne
  · dsimp only
    refine lseg_congr ?_ h.list
    intro x hx
    have hxb := h.bounds (List.mem_append_right _ hx)
    exact read64_congr _ _ _ (by omega) (fun y h1 h2 => hout y (by omega) (by
      by_cases e : x = p
      · subst e; omega
      · have := h.disj x (List.mem_append_right _ hx) p hpm e
        omega))
  · intro r hr
    dsimp only
    have hmp := h.mult p hpm
    have hmq := h.mult q hqm
    rcases key r hr with ⟨e, z⟩ | ⟨m, _, _, z⟩
    · rw [z]; omega
    · rw [z]; exact h.mult r m
  · obtain ⟨chain, hc, ht⟩ := h.tile
    obtain ⟨chain', hc', ht'⟩ := tiles_absorb ht (hc.nodup_iff.2 h.nodup) (hc.mem_iff.2 hpm)
      hadj hpq (by omega : q ≠ s.brk + 8) (hP.trans hv.symm)
      (fun r hr hne => hO r (hc.mem_iff.1 hr) hne)
    refine ⟨chain', hc'.trans ?_, ht'⟩
    have := hc.erase q
    rw [List.erase_append_left _ hq] at this
    exact this

/-- Giving the topmost block, already detached, back to the operating system
(`shrink_heap`, line 89). -/
theorem WF.discard {s : State} {base : Nat} {live free : List Nat} (h : WF s base live free)
    {q : Nat} (hq : q ∈ live) (htop : q + GET_SIZE s.mem q = s.brk + 8) :
    WF { s with brk := q - 8 } base (live.erase q) free := by
  have hqm : q ∈ live ++ free := List.mem_append_left _ hq
  have hqb := h.bounds hqm
  have hlive : live.Nodup := (List.nodup_append.1 h.nodup).1
  have hnd : (live.erase q ++ free).Nodup := by
    have := h.nodup
    rw [List.nodup_append] at this ⊢
    refine ⟨this.1.erase q, this.2.1, ?_⟩
    intro a ha hb
    exact this.2.2 (List.mem_of_mem_erase ha) hb
  have key : ∀ r ∈ live.erase q ++ free, r ∈ live ++ free ∧ r ≠ q := by
    intro r hr
    rcases List.mem_append.1 hr with m | m
    · exact ⟨List.mem_append_left _ (List.mem_of_mem_erase m),
        ((List.Nodup.mem_erase_iff hlive).1 m).1⟩
    · refine ⟨List.mem_append_right _ m, ?_⟩
      intro e'
      rw [e'] at m
      exact (List.nodup_append.1 h.nodup).2.2 hq m
  have hbl := h.brk_le
  refine h.rebuild (by simp only) (by simp only) (by simp only) ?_ ?_ hnd ?_ ?_ h.list ?_ ?_
  · dsimp only
    omega
  · dsimp only
    omega
  · intro r hr
    dsimp only
    obtain ⟨m, ne⟩ := key r hr
    have := h.blk r m
    have := h.disj r m q hqm ne
    omega
  · intro r1 hr1 r2 hr2 hne
    exact h.disj r1 (key r1 hr1).1 r2 (key r2 hr2).1 hne
  · intro r hr
    exact h.mult r (key r hr).1
  · obtain ⟨chain, hc, ht⟩ := h.tile
    obtain ⟨chain', hc', ht'⟩ := tiles_discard ht (hc.nodup_iff.2 h.nodup) (hc.mem_iff.2 hqm)
      htop (fun r hr e => by
        have := h.bounds (hc.mem_iff.1 hr)
        omega)
    refine ⟨chain', hc'.trans ?_, ?_⟩
    · have := hc.erase q
      rw [List.erase_append_left _ hq] at this
      exact this
    · dsimp only
      have e : q - 8 + 8 = q := by omega
      rw [e]
      exact ht'


theorem scanList_first (stop : Nat → Bool) (x : Nat) (B : List Nat) : ∀ (A : List Nat) (prev : Nat),
    (∀ a ∈ A, stop a = false) → stop x = true →
    scanList stop prev (A ++ x :: B) = (lastOr A prev, x)
  | [], prev, _, hx => by simp [scanList, hx, lastOr]
  | a :: A, prev, hA, hx => by
    have ha : stop a = false := hA a (List.mem_cons_self _ _)
    simp only [List.cons_append, scanList, ha, lastOr]
    exact scanList_first stop x B A a (fun b hb => hA b (List.mem_cons_of_mem _ hb)) hx

theorem scanList_miss (stop : Nat → Bool) : ∀ (xs : List Nat) (prev : Nat),
    (∀ x ∈ xs, stop x = false) → scanList stop prev xs = (lastOr xs prev, 0)
  | [], _, _ => rfl
  | x :: xs, prev, h => by
    have hx := h x (List.mem_cons_self _ _)
    simp only [scanList, hx, lastOr]
    exact scanList_miss stop xs x (fun y hy => h y (List.mem_cons_of_mem _ hy))

/-- Cutting a list at the first element that satisfies a property. -/
theorem exists_first (P : Nat → Prop) [DecidablePred P] : ∀ (l : List Nat), (∃ x ∈ l, P x) →
    ∃ A x B, l = A ++ x :: B ∧ (∀ a ∈ A, ¬ P a) ∧ P x
  | [], h => by simp at h
  | y :: l, h => by
    by_cases hy : P y
    · exact ⟨[], y, l, rfl, by simp, hy⟩
    · have h' : ∃ x ∈ l, P x := by
        obtain ⟨x, hx, hp⟩ := h
        rcases List.mem_cons.1 hx with e | e
        · rw [e] at hp; exact absurd hp hy
        · exact ⟨x, e, hp⟩
      obtain ⟨A, x, B, e, hA, hx⟩ := exists_first P l h'
      refine ⟨y :: A, x, B, by rw [e]; rfl, ?_, hx⟩
      intro a ha
      rcases List.mem_cons.1 ha with e | e
      · rw [e]; exact hy
      · exact hA a e

theorem lastOr_ne_zero {A : List Nat} {a : Nat} (h : ∀ x ∈ a :: A, x ≠ 0) : lastOr A a ≠ 0 :=
  h _ (lastOr_mem A a)

/-- The unlinking code of `find_free_block` and `shrink_heap` computes `unlinked`. -/
theorem unlink_code_eq {s : State} {A B : List Nat} {x : Nat} (hl : lseg s.mem s.head (A ++ x :: B)) :
    (if lastOr A 0 = 0 then { s with head := read64 s.mem s.head }
      else { s with mem := write64 s.mem (lastOr A 0) (read64 s.mem x) }) = unlinked s A x := by
  cases A with
  | nil =>
    have e : s.head = x := hl.1
    simp only [lastOr, if_true, unlinked, e]
  | cons a A' =>
    have hne : lastOr A' a ≠ 0 := by
      apply lastOr_ne_zero
      intro y hy
      exact lseg_ne_zero hl y (by
        simp only [List.cons_append, List.mem_cons, List.mem_append] at hy ⊢
        tauto)
    simp only [lastOr, if_neg hne, unlinked]

theorem WF.head_ne_zero {s : State} {base : Nat} {live free : List Nat} (h : WF s base live free)
    (hne : free ≠ []) : s.head ≠ 0 := by
  cases free with
  | nil => exact absurd rfl hne
  | cons x xs =>
    have hl := h.list
    rw [hl.1]
    exact hl.2.1

theorem WF.head_eq_zero {s : State} {base : Nat} {live : List Nat} (h : WF s base live []) :
    s.head = 0 := h.list

theorem find_free_block_miss {s : State} {base : Nat} {live free : List Nat}
    (h : WF s base live free) (size fuel : Nat) (hm : ∀ x ∈ free, GET_SIZE s.mem x < size)
    (hf : free.length < fuel) : find_free_block fuel s size = some (0, s) := by
  unfold find_free_block
  by_cases h0 : s.head = 0
  · rw [if_pos h0]
  · rw [if_neg h0, scan_eq _ fuel 0 h.list hf, scanList_miss]
    · simp
    · intro x hx
      have := hm x hx
      simp only [decide_eq_false_iff_not]
      omega

theorem find_free_block_hit {s : State} {base : Nat} {live A B : List Nat} {x : Nat}
    (h : WF s base live (A ++ x :: B)) (size fuel : Nat)
    (hA : ∀ a ∈ A, GET_SIZE s.mem a < size) (hx : size ≤ GET_SIZE s.mem x)
    (hf : (A ++ x :: B).length < fuel) :
    find_free_block fuel s size = some (split (unlinked s A x) x size) := by
  unfold find_free_block
  have h0 : s.head ≠ 0 := h.head_ne_zero (by simp)
  have hx0 : x ≠ 0 := (lseg_split h.list).1
  rw [if_neg h0, scan_eq _ fuel 0 h.list hf, scanList_first]
  · simp only [if_neg hx0]
    rw [unlink_code_eq h.list]
  · intro a ha
    have := hA a ha
    simp only [decide_eq_false_iff_not]
    omega
  · simpa using hx

theorem req_inc_size_batch (s : State) (t : Nat) (ht : t < 992) (hroom : s.brk + 992 ≤ s.brkMax)
    (hm : s.brkMax + 8 < 2 ^ 64) :
    req_inc_size s t = split (grown s 992) (s.brk + 8) t := by
  unfold req_inc_size BATCH_SIZE ALLOC_SIZE OVER_HEAD
  rw [if_pos ht, sbrk_ok s (8 * 124) (by norm_num) (by norm_num) (by omega) (by omega)]
  have e : (s.brk + 4 * 2) % 2 ^ 64 = s.brk + 8 := by omega
  simp only [e]
  rfl

theorem req_inc_size_large (s : State) (t : Nat) (ht : 992 ≤ t) (ht' : t < 2 ^ 63)
    (hroom : s.brk + t ≤ s.brkMax) (hm : s.brkMax + 8 < 2 ^ 64) :
    req_inc_size s t = (s.brk + 8, grown s t) := by
  unfold req_inc_size BATCH_SIZE ALLOC_SIZE OVER_HEAD
  rw [if_neg (by omega), sbrk_ok s t (by omega) ht' hroom (by omega)]
  have e : (s.brk + 4 * 2) % 2 ^ 64 = s.brk + 8 := by omega
  simp only [e]
  rfl


theorem split_fst (s : State) (p n : Nat) : (split s p n).1 = p := by
  unfold split
  split_ifs <;> rfl

theorem split_brkMax (s : State) (p n : Nat) : (split s p n).2.brkMax = s.brkMax := by
  unfold split
  split_ifs <;> rfl

/-- The request size `align(n) + OVER_HEAD` when nothing wraps. -/
theorem target_bounds (n : Nat) (h0 : 0 < n) (hn : n + 16 ≤ 2 ^ 64) :
    (ALIGN_SIZE n + OVER_HEAD) % 2 ^ 64 = ALIGN_SIZE n + 8 ∧ n ≤ ALIGN_SIZE n ∧
      8 ≤ ALIGN_SIZE n ∧ ALIGN_SIZE n ≤ n + 7 ∧ ALIGN_SIZE n % 8 = 0 := by
  rw [ALIGN_SIZE_eq]
  unfold OVER_HEAD
  omega

theorem mymalloc_hit {s : State} {base : Nat} {live A B : List Nat} {x : Nat}
    (h : WF s base live (A ++ x :: B)) (n fuel : Nat) (h0 : n ≠ 0)
    (hA : ∀ a ∈ A, GET_SIZE s.mem a < (ALIGN_SIZE n + OVER_HEAD) % 2 ^ 64)
    (hx : (ALIGN_SIZE n + OVER_HEAD) % 2 ^ 64 ≤ GET_SIZE s.mem x)
    (hf : (A ++ x :: B).length < fuel) :
    mymalloc fuel s n
      = some (split (unlinked s A x) x ((ALIGN_SIZE n + OVER_HEAD) % 2 ^ 64)) := by
  unfold mymalloc
  have hh : s.head ≠ 0 := h.head_ne_zero (by simp)
  have hx0 : x ≠ 0 := (lseg_split h.list).1
  simp only [if_neg h0, if_neg hh]
  rw [find_free_block_hit h _ fuel hA hx hf]
  have e := split_fst (unlinked s A x) x ((ALIGN_SIZE n + OVER_HEAD) % 2 ^ 64)
  generalize split (unlinked s A x) x ((ALIGN_SIZE n + OVER_HEAD) % 2 ^ 64) = r at e
  obtain ⟨r1, r2⟩ := r
  simp only at e
  subst e
  simp only [if_neg hx0]

theorem mymalloc_miss {s : State} {base : Nat} {live free : List Nat}
    (h : WF s base live free) (n fuel : Nat) (h0 : n ≠ 0)
    (hm : ∀ x ∈ free, GET_SIZE s.mem x < (ALIGN_SIZE n + OVER_HEAD) % 2 ^ 64)
    (hf : free.length < fuel) :
    mymalloc fuel s n = some (req_inc_size s ((ALIGN_SIZE n + OVER_HEAD) % 2 ^ 64)) := by
  unfold mymalloc
  simp only [if_neg h0]
  by_cases hh : s.head = 0
  · simp only [if_pos hh]
  · simp only [if_neg hh]
    rw [find_free_block_miss h _ fuel hm hf]
    simp

/-- Serving `t` bytes from a live block with `split`. -/
theorem WF.serve {s : State} {base : Nat} {live free : List Nat} (h : WF s base live free)
    {p t : Nat} (hp : p ∈ live) (ht : 16 ≤ t) (ht8 : t % 8 = 0) (hle : t ≤ GET_SIZE s.mem p) :
    WF (split s p t).2 base live (splitFree (GET_SIZE s.mem p) t p free)
      ∧ (∀ q ∈ live ++ free, q ≠ p → SameBlock s.mem (split s p t).2.mem q)
      ∧ t ≤ GET_SIZE (split s p t).2.mem p
      ∧ GET_SIZE (split s p t).2.mem p ≤ GET_SIZE s.mem p
      ∧ (split s p t).2.brk = s.brk
      ∧ (GET_SIZE s.mem p < t + 16 → GET_SIZE (split s p t).2.mem p = GET_SIZE s.mem p)
      ∧ (t + 16 ≤ GET_SIZE s.mem p → GET_SIZE (split s p t).2.mem p = t
          ∧ GET_SIZE (split s p t).2.mem (p + t) = GET_SIZE s.mem p - t) := by
  have hpb := h.bounds (List.mem_append_left _ hp)
  by_cases hs : GET_SIZE s.mem p < t + 16
  · rw [split_small s p t hle hs]
    simp only [splitFree, if_pos hs]
    refine ⟨h, fun q _ _ => SameBlock.refl _ _, hle, le_refl _, ?_, ?_, ?_⟩
    · trivial
    · intro _; trivial
    · intro h'; omega
  · have hs' : t + 16 ≤ GET_SIZE s.mem p := by omega
    rw [split_big s p t (by omega) (by omega) hs' (by omega)]
    simp only [splitFree, if_neg hs]
    obtain ⟨hw, hsame⟩ := h.cut hp ht ht8 hs'
    have hL := splitAt_size_left s p t (by omega) (by omega) (by omega)
    have hR := splitAt_size_right s p t (by omega) (by omega) (by omega)
    refine ⟨hw, hsame, by rw [hL], by rw [hL]; omega, rfl, fun h' => absurd h' hs,
      fun _ => ⟨hL, hR⟩⟩

theorem WF.mem_live_not_free {s : State} {base : Nat} {live free : List Nat}
    (h : WF s base live free) {q : Nat} (hq : q ∈ live) : q ∉ free :=
  fun hf => (List.nodup_append.1 h.nodup).2.2 hq hf

/-- Serving the first block of the free list that fits: `find_free_block`
unlinks it and `split` cuts it. -/
theorem WF.take {s : State} {base : Nat} {live A B : List Nat} {x : Nat}
    (h : WF s base live (A ++ x :: B)) (t : Nat) (ht : 16 ≤ t) (ht8 : t % 8 = 0)
    (hx : t ≤ GET_SIZE s.mem x) :
    WF (split (unlinked s A x) x t).2 base (x :: live) (splitFree (GET_SIZE s.mem x) t x (A ++ B))
      ∧ (∀ q ∈ live, SameBlock s.mem (split (unlinked s A x) x t).2.mem q)
      ∧ (∀ q ∈ live ++ (A ++ B),
          GET_SIZE (split (unlinked s A x) x t).2.mem q = GET_SIZE s.mem q)
      ∧ t ≤ GET_SIZE (split (unlinked s A x) x t).2.mem x
      ∧ (split (unlinked s A x) x t).2.brk = s.brk
      ∧ (GET_SIZE s.mem x < t + 16 →
          GET_SIZE (split (unlinked s A x) x t).2.mem x = GET_SIZE s.mem x)
      ∧ (t + 16 ≤ GET_SIZE s.mem x →
          GET_SIZE (split (unlinked s A x) x t).2.mem x = t
          ∧ GET_SIZE (split (unlinked s A x) x t).2.mem (x + t) = GET_SIZE s.mem x - t) := by
  have hxm : x ∈ live ++ (A ++ x :: B) := by simp
  have hu := h.unlink
  have hszx : GET_SIZE (unlinked s A x).mem x = GET_SIZE s.mem x := h.unlinked_size hxm
  have hbrk1 : (unlinked s A x).brk = s.brk := unlinked_brk _ _ _
  have hmem : ∀ q ∈ live ++ (A ++ B), q ∈ live ++ (A ++ x :: B) ∧ q ≠ x := by
    intro q hq
    have hq' : q ∈ live ++ (A ++ x :: B) := by
      simp only [List.mem_append, List.mem_cons] at hq ⊢
      tauto
    have hqx : q ≠ x := by
      intro e
      subst e
      have hnd := hu.nodup
      simp only [List.cons_append, List.nodup_cons] at hnd
      exact hnd.1 hq
    exact ⟨hq', hqx⟩
  have hlA : ∀ q ∈ live, q ∉ A := by
    intro q hq hqA
    exact h.mem_live_not_free hq (List.mem_append_left _ hqA)
  have hsz1 : ∀ q ∈ live ++ (A ++ x :: B), GET_SIZE (unlinked s A x).mem q = GET_SIZE s.mem q :=
    fun q hq => h.unlinked_size hq
  have hsame1 : ∀ q ∈ live ++ (A ++ x :: B), q ∉ A → SameBlock s.mem (unlinked s A x).mem q :=
    fun q hq hqA => h.unlinked_same hq hqA
  -- the bytes of a free block other than its link are kept as well
  have hbnd : ∀ q ∈ live ++ (A ++ x :: B), 8 ≤ q ∧ 16 ≤ GET_SIZE s.mem q ∧ q + GET_SIZE s.mem q ≤ 2 ^ 64 := by
    intro q hq
    have := h.bounds hq
    omega
  generalize unlinked s A x = s1 at hu hszx hbrk1 hsz1 hsame1 ⊢
  obtain ⟨hw, hsame, hge, hle, hbrk, hsmall, hbig⟩ :=
    hu.serve (List.mem_cons_self x live) ht ht8 (by rw [hszx]; exact hx)
  generalize split s1 x t = r at hw hsame hge hle hbrk hsmall hbig ⊢
  rw [hszx] at hw hsmall hbig
  have hsize : ∀ q ∈ live ++ (A ++ B), GET_SIZE r.2.mem q = GET_SIZE s.mem q := by
    intro q hq
    obtain ⟨hq', hqx⟩ := hmem q hq
    have hq2 : q ∈ x :: live ++ (A ++ B) := by
      simp only [List.cons_append, List.mem_cons, List.mem_append] at hq ⊢
      tauto
    have hb := hbnd q hq'
    have e1 := hsz1 q hq'
    have e2 := (hsame q hq2 hqx).size (by omega) (by rw [e1]; omega) (by omega)
    rw [e2, e1]
  refine ⟨hw, ?_, hsize, hge, by rw [hbrk, hbrk1], hsmall, hbig⟩
  intro q hq
  have hqm : q ∈ live ++ (A ++ B) := List.mem_append_left _ hq
  obtain ⟨hq', hqx⟩ := hmem q hqm
  have hq2 : q ∈ x :: live ++ (A ++ B) := by
    simp only [List.cons_append, List.mem_cons, List.mem_append]
    tauto
  exact (hsame1 q hq' (hlA q hq)).andThen (hsame q hq2 hqx) (hsz1 q hq')

/-- Serving a request from a fresh batch: `req_inc_size` grows the arena by
`BATCH_SIZE` bytes and `split` cuts the new block. -/
theorem WF.batch {s : State} {base : Nat} {live free : List Nat} (h : WF s base live free)
    (t : Nat) (ht : 16 ≤ t) (ht8 : t % 8 = 0) (ht' : t < 992)
    (hroom : s.brk + 992 ≤ s.brkMax) :
    WF (split (grown s 992) (s.brk + 8) t).2 base ((s.brk + 8) :: live)
        (splitFree 992 t (s.brk + 8) free)
      ∧ (∀ q ∈ live, SameBlock s.mem (split (grown s 992) (s.brk + 8) t).2.mem q)
      ∧ (∀ q ∈ live ++ free,
          GET_SIZE (split (grown s 992) (s.brk + 8) t).2.mem q = GET_SIZE s.mem q)
      ∧ t ≤ GET_SIZE (split (grown s 992) (s.brk + 8) t).2.mem (s.brk + 8)
      ∧ (split (grown s 992) (s.brk + 8) t).2.brk = s.brk + 992
      ∧ (992 < t + 16 → GET_SIZE (split (grown s 992) (s.brk + 8) t).2.mem (s.brk + 8) = 992)
      ∧ (t + 16 ≤ 992 →
          GET_SIZE (split (grown s 992) (s.brk + 8) t).2.mem (s.brk + 8) = t
          ∧ GET_SIZE (split (grown s 992) (s.brk + 8) t).2.mem (s.brk + 8 + t) = 992 - t) := by
  have hmax := h.max_lt
  have hble := h.brk_le
  obtain ⟨hg, hsame1⟩ := h.grow (by norm_num : 16 ≤ 992) (by norm_num : 992 % 8 = 0) hroom
  have hszx : GET_SIZE (grown s 992).mem (s.brk + 8) = 992 :=
    grown_size s 992 (by omega) (by norm_num)
  have hbrk1 : (grown s 992).brk = s.brk + 992 := by simp only [grown]
  have hbnd : ∀ q ∈ live ++ free,
      8 ≤ q ∧ 16 ≤ GET_SIZE s.mem q ∧ q + GET_SIZE s.mem q ≤ s.brk + 8 := by
    intro q hq
    have := h.bounds hq
    omega
  have hsz1 : ∀ q ∈ live ++ free, GET_SIZE (grown s 992).mem q = GET_SIZE s.mem q := by
    intro q hq
    have := hbnd q hq
    exact (hsame1 q hq).size (by omega) (by omega) (by omega)
  generalize grown s 992 = s1 at hg hszx hbrk1 hsz1 hsame1 ⊢
  obtain ⟨hw, hsame, hge, hle, hbrk, hsmall, hbig⟩ :=
    hg.serve (List.mem_cons_self (s.brk + 8) live) ht ht8 (by rw [hszx]; omega)
  generalize split s1 (s.brk + 8) t = r at hw hsame hge hle hbrk hsmall hbig ⊢
  rw [hszx] at hw hsmall hbig
  have hne : ∀ q ∈ live ++ free, q ≠ s.brk + 8 := by
    intro q hq e
    have := hbnd q hq
    omega
  have hsize : ∀ q ∈ live ++ free, GET_SIZE r.2.mem q = GET_SIZE s.mem q := by
    intro q hq
    have hb := hbnd q hq
    have e1 := hsz1 q hq
    have e2 := (hsame q (List.mem_cons_of_mem _ hq) (hne q hq)).size (by omega)
      (by rw [e1]; omega) (by omega)
    rw [e2, e1]
  refine ⟨hw, ?_, hsize, hge, by rw [hbrk, hbrk1], hsmall, hbig⟩
  intro q hq
  have hqm : q ∈ live ++ free := List.mem_append_left _ hq
  exact (hsame1 q hqm).andThen (hsame q (List.mem_cons_of_mem _ hqm) (hne q hqm)) (hsz1 q hqm)

/-- Serving from the free list keeps the free list without adjacent blocks. -/
theorem NoAdj_take {s s' : State} {base : Nat} {live A B : List Nat} {x t : Nat}
    (h : WF s base live (A ++ x :: B)) (hna : NoAdj s.mem (A ++ x :: B))
    (ht : 16 ≤ t)
    (hsize : ∀ q ∈ live ++ (A ++ B), GET_SIZE s'.mem q = GET_SIZE s.mem q)
    (hbig : t + 16 ≤ GET_SIZE s.mem x → GET_SIZE s'.mem (x + t) = GET_SIZE s.mem x - t) :
    NoAdj s'.mem (splitFree (GET_SIZE s.mem x) t x (A ++ B)) := by
  have hsub : ∀ q ∈ A ++ B, q ∈ A ++ x :: B := by
    intro q hq
    simp only [List.mem_append, List.mem_cons] at hq ⊢
    tauto
  have hold : ∀ a ∈ A ++ B, ∀ b ∈ A ++ B, a + GET_SIZE s'.mem a ≠ b := by
    intro a ha b hb
    rw [hsize a (List.mem_append_right _ ha)]
    exact hna a (hsub a ha) b (hsub b hb)
  unfold splitFree
  by_cases hs : GET_SIZE s.mem x < t + 16
  · rw [if_pos hs]
    exact hold
  · rw [if_neg hs]
    have hR := hbig (by omega)
    have hxm : x ∈ live ++ (A ++ x :: B) := by simp
    have hxb := h.bounds hxm
    intro a ha b hb
    rcases List.mem_cons.1 ha with ea | ma <;> rcases List.mem_cons.1 hb with eb | mb
    · rw [ea, hR]; omega
    · rw [ea, hR]
      have := hna x (by simp) b (hsub b mb)
      omega
    · rw [eb, hsize a (List.mem_append_right _ ma)]
      have ham : a ∈ live ++ (A ++ x :: B) := List.mem_append_right _ (hsub a ma)
      have hax : a ≠ x := by
        intro e
        subst e
        have hnd := h.unlink.nodup
        simp only [List.cons_append, List.nodup_cons, List.mem_append] at hnd
        exact hnd.1 (Or.inr (List.mem_append.1 ma))
      have := h.disj a ham x hxm hax
      have hab := h.bounds ham
      omega
    · exact hold a ma b mb

/-- Serving from a fresh batch keeps the free list without adjacent blocks. -/
theorem NoAdj_batch {s s' : State} {base : Nat} {live free : List Nat} {t : Nat}
    (h : WF s base live free) (hna : NoAdj s.mem free) (ht : 16 ≤ t)
    (hsize : ∀ q ∈ live ++ free, GET_SIZE s'.mem q = GET_SIZE s.mem q)
    (hbig : t + 16 ≤ 992 → GET_SIZE s'.mem (s.brk + 8 + t) = 992 - t) :
    NoAdj s'.mem (splitFree 992 t (s.brk + 8) free) := by
  have hold : ∀ a ∈ free, ∀ b ∈ free, a + GET_SIZE s'.mem a ≠ b := by
    intro a ha b hb
    rw [hsize a (List.mem_append_right _ ha)]
    exact hna a ha b hb
  unfold splitFree
  by_cases hs : 992 < t + 16
  · rw [if_pos hs]
    exact hold
  · rw [if_neg hs]
    have hR := hbig (by omega)
    intro a ha b hb
    rcases List.mem_cons.1 ha with ea | ma <;> rcases List.mem_cons.1 hb with eb | mb
    · rw [ea, hR]; omega
    · rw [ea, hR]
      have := h.bounds (List.mem_append_right live mb)
      omega
    · rw [eb, hsize a (List.mem_append_right _ ma)]
      have := h.bounds (List.mem_append_right live ma)
      omega
    · exact hold a ma b mb

/-- Serving from the free list never leaves a large block at the top. -/
theorem NoTop_take {s s' : State} {live A B : List Nat} {x t : Nat}
    (hnt : NoTop s (A ++ x :: B)) (hbrk : s'.brk = s.brk)
    (hsize : ∀ q ∈ live ++ (A ++ B), GET_SIZE s'.mem q = GET_SIZE s.mem q)
    (hbig : t + 16 ≤ GET_SIZE s.mem x → GET_SIZE s'.mem (x + t) = GET_SIZE s.mem x - t) :
    NoTop s' (splitFree (GET_SIZE s.mem x) t x (A ++ B)) := by
  have hsub : ∀ q ∈ A ++ B, q ∈ A ++ x :: B := by
    intro q hq
    simp only [List.mem_append, List.mem_cons] at hq ⊢
    tauto
  have hold : ∀ a ∈ A ++ B,
      ¬ (MIN_UNMAP_SIZE ≤ GET_SIZE s'.mem a ∧ a + GET_SIZE s'.mem a = s'.brk + 8) := by
    intro a ha
    rw [hsize a (List.mem_append_right _ ha), hbrk]
    exact hnt a (hsub a ha)
  unfold splitFree
  by_cases hs : GET_SIZE s.mem x < t + 16
  · rw [if_pos hs]
    exact hold
  · rw [if_neg hs]
    have hR := hbig (by omega)
    intro a ha
    rcases List.mem_cons.1 ha with ea | ma
    · rw [ea, hR, hbrk]
      have := hnt x (by simp)
      unfold MIN_UNMAP_SIZE at this ⊢
      omega
    · exact hold a ma

/-- Serving from a fresh batch never leaves a large block at the top. -/
theorem NoTop_batch {s s' : State} {base : Nat} {live free : List Nat} {t : Nat}
    (h : WF s base live free) (ht : 16 ≤ t) (hbrk : s'.brk = s.brk + 992)
    (hsize : ∀ q ∈ live ++ free, GET_SIZE s'.mem q = GET_SIZE s.mem q)
    (hbig : t + 16 ≤ 992 → GET_SIZE s'.mem (s.brk + 8 + t) = 992 - t) :
    NoTop s' (splitFree 992 t (s.brk + 8) free) := by
  have hold : ∀ a ∈ free,
      ¬ (MIN_UNMAP_SIZE ≤ GET_SIZE s'.mem a ∧ a + GET_SIZE s'.mem a = s'.brk + 8) := by
    intro a ha
    rw [hsize a (List.mem_append_right _ ha), hbrk]
    have := h.bounds (List.mem_append_right live ha)
    omega
  unfold splitFree
  by_cases hs : 992 < t + 16
  · rw [if_pos hs]
    exact hold
  · rw [if_neg hs]
    have hR := hbig (by omega)
    intro a ha
    rcases List.mem_cons.1 ha with ea | ma
    · rw [ea, hR]
      unfold MIN_UNMAP_SIZE
      omega
    · exact hold a ma

theorem splitFree_length (sz t p : Nat) (free : List Nat) :
    (splitFree sz t p free).length ≤ free.length + 1 := by
  unfold splitFree
  split_ifs
  · omega
  · simp

/-- What `mymalloc` does on a well-formed heap, for a request that does not
wrap and that the free list or the boundary primitive can satisfy. -/
theorem mymalloc_spec {s : State} {base : Nat} {live free : List Nat} (h : WF s base live free)
    (n : Nat) (h0 : 0 < n) (hn : n + 16 ≤ 2 ^ 64)
    (hroom : (∃ x ∈ free, ALIGN_SIZE n + 8 ≤ GET_SIZE s.mem x) ∨ Room s (ALIGN_SIZE n + 8)) :
    ∃ p s' free', (∀ fuel, free.length < fuel → mymalloc fuel s n = some (p, s'))
      ∧ WF s' base (p :: live) free'
      ∧ ALIGN_SIZE n + 8 ≤ GET_SIZE s'.mem p
      ∧ (∀ q ∈ live, SameBlock s.mem s'.mem q)
      ∧ (NoAdj s.mem free → NoAdj s'.mem free')
      ∧ s.brk ≤ s'.brk
      ∧ (NoTop s free → NoTop s' free')
      ∧ ((∀ x ∈ free, GET_SIZE s.mem x < ALIGN_SIZE n + 8) → p = s.brk + 8)
      ∧ (∀ x B, free = x :: B → ALIGN_SIZE n + 8 ≤ GET_SIZE s.mem x → p = x ∧ s'.brk = s.brk)
      ∧ free'.length ≤ free.length + 1
      ∧ s'.brkMax = s.brkMax
      ∧ s'.brk ≤ s.brk + max 992 (ALIGN_SIZE n + 8) := by
  obtain ⟨ht, h1, h2, h3, h4⟩ := target_bounds n h0 hn
  have h16 : 16 ≤ ALIGN_SIZE n + 8 := by omega
  have h8 : (ALIGN_SIZE n + 8) % 8 = 0 := by omega
  by_cases hfit : ∃ x ∈ free, ALIGN_SIZE n + 8 ≤ GET_SIZE s.mem x
  · obtain ⟨A, x, B, e, hA, hx⟩ := exists_first (fun x => ALIGN_SIZE n + 8 ≤ GET_SIZE s.mem x) free hfit
    subst e
    obtain ⟨hw, hsame, hsize, hge, hbrk, hsmall, hbig⟩ := h.take (ALIGN_SIZE n + 8) h16 h8 hx
    refine ⟨x, (split (unlinked s A x) x (ALIGN_SIZE n + 8)).2, _, ?_, hw, hge, hsame, ?_, ?_,
      fun hnt => NoTop_take hnt hbrk hsize (fun hb => (hbig hb).2), ?_, ?_, ?_, ?_, ?_⟩
    · intro fuel hf
      have := mymalloc_hit h n fuel (by omega) (by
        rw [ht]
        intro a ha
        have := hA a ha
        omega) (by rw [ht]; exact hx) hf
      rw [ht] at this
      rw [this]
      have e := split_fst (unlinked s A x) x (ALIGN_SIZE n + 8)
      generalize split (unlinked s A x) x (ALIGN_SIZE n + 8) = r at e
      obtain ⟨r1, r2⟩ := r
      simp only at e
      subst e
      simp only
    · intro hna
      exact NoAdj_take h hna h16 hsize (fun hb => (hbig hb).2)
    · rw [hbrk]
    · intro hall
      have := hall x (by simp)
      omega
    · intro y C hyC hy
      cases A with
      | nil =>
        simp only [List.nil_append, List.cons.injEq] at hyC
        exact ⟨hyC.1, hbrk⟩
      | cons a A' =>
        simp only [List.cons_append, List.cons.injEq] at hyC
        have := hA a (List.mem_cons_self _ _)
        rw [hyC.1] at this
        exact absurd hy this
    · have := splitFree_length (GET_SIZE s.mem x) (ALIGN_SIZE n + 8) x (A ++ B)
      simp only [List.length_append, List.length_cons] at this ⊢
      omega
    · rw [split_brkMax, unlinked_brkMax]
    · rw [hbrk]
      omega
  · have hmiss : ∀ x ∈ free, GET_SIZE s.mem x < ALIGN_SIZE n + 8 := by
      intro x hx
      by_contra hc
      exact hfit ⟨x, hx, by omega⟩
    have hR : Room s (ALIGN_SIZE n + 8) := by
      rcases hroom with hf | hr
      · exact absurd hf hfit
      · exact hr
    have hM : ∀ fuel, free.length < fuel →
        mymalloc fuel s n = some (req_inc_size s (ALIGN_SIZE n + 8)) := by
      intro fuel hf
      have := mymalloc_miss h n fuel (by omega) (by rw [ht]; exact hmiss) hf
      rw [ht] at this
      exact this
    unfold Room BATCH_SIZE ALLOC_SIZE at hR
    by_cases hb : ALIGN_SIZE n + 8 < 992
    · rw [if_pos (by omega)] at hR
      obtain ⟨hw, hsame, hsize, hge, hbrk, hsmall, hbig⟩ := h.batch (ALIGN_SIZE n + 8) h16 h8 hb (by omega)
      refine ⟨s.brk + 8, (split (grown s 992) (s.brk + 8) (ALIGN_SIZE n + 8)).2, _, ?_, hw, hge,
        hsame, ?_, ?_, fun _ => NoTop_batch h h16 hbrk hsize (fun hb => (hbig hb).2),
        fun _ => rfl, ?_, splitFree_length _ _ _ _, ?_, ?_⟩
      · intro fuel hf
        rw [hM fuel hf, req_inc_size_batch s _ hb (by omega) h.max_lt]
        have e := split_fst (grown s 992) (s.brk + 8) (ALIGN_SIZE n + 8)
        generalize split (grown s 992) (s.brk + 8) (ALIGN_SIZE n + 8) = r at e
        obtain ⟨r1, r2⟩ := r
        simp only at e
        subst e
        simp only
      · intro hna
        exact NoAdj_batch h hna h16 hsize (fun hb => (hbig hb).2)
      · rw [hbrk]; omega
      · intro y C hyC hy
        have := hmiss y (by rw [hyC]; exact List.mem_cons_self _ _)
        omega
      · rw [split_brkMax]
        simp only [grown]
      · rw [hbrk]
        omega
    · rw [if_neg (by omega)] at hR
      obtain ⟨hg, hsame1⟩ := h.grow h16 h8 hR.2
      have hmax := h.max_lt
      have hble := h.brk_le
      refine ⟨s.brk + 8, grown s (ALIGN_SIZE n + 8), free, ?_, hg, ?_, ?_, ?_, ?_, ?_,
        fun _ => rfl, ?_, Nat.le_succ _, by simp only [grown], ?_⟩
      · intro fuel hf
        rw [hM fuel hf, req_inc_size_large s _ (by omega) hR.1 hR.2 h.max_lt]
      · rw [grown_size s _ (by omega) (by omega)]
      · intro q hq
        exact hsame1 q (List.mem_append_left _ hq)
      · intro hna a ha b hb
        have hab := h.bounds (List.mem_append_right live ha)
        rw [(hsame1 a (List.mem_append_right _ ha)).size (by omega) (by omega) (by omega)]
        exact hna a ha b hb
      · simp only [grown]; omega
      · intro _ a ha
        have hab := h.bounds (List.mem_append_right live ha)
        rw [(hsame1 a (List.mem_append_right _ ha)).size (by omega) (by omega) (by omega)]
        have eb : (grown s (ALIGN_SIZE n + 8)).brk = s.brk + (ALIGN_SIZE n + 8) := by
          simp only [grown]
        rw [eb]
        omega
      · intro y C hyC hy
        have := hmiss y (by rw [hyC]; exact List.mem_cons_self _ _)
        omega
      · simp only [grown]
        omega


/-! ## The coalescer -/

theorem write64_comm (m : Mem) (a b v w : Nat) (ha : a + 8 ≤ 2 ^ 64) (hb : b + 8 ≤ 2 ^ 64)
    (h : a + 8 ≤ b ∨ b + 8 ≤ a) :
    write64 (write64 m a v) b w = write64 (write64 m b w) a v := by
  funext x
  unfold write64
  by_cases h1 : (2 ^ 64 + x - a) % 2 ^ 64 < 8 <;> by_cases h2 : (2 ^ 64 + x - b) % 2 ^ 64 < 8
  · exfalso; omega
  · simp only [if_pos h1, if_neg h2]
  · simp only [if_neg h1, if_pos h2]
  · simp only [if_neg h1, if_neg h2]

/-- The code of one merging step computes `merged`. -/
theorem merge_code_eq {s : State} {base : Nat} {live A B : List Nat} {x y : Nat}
    (h : WF s base live (A ++ y :: B)) (hx : x ∈ A ++ B) :
    (if lastOr A 0 = 0 then
        { s with
          mem := SET_SIZE s.mem x ((GET_SIZE s.mem x + GET_SIZE s.mem y) % 2 ^ 64)
          head := read64 (SET_SIZE s.mem x ((GET_SIZE s.mem x + GET_SIZE s.mem y) % 2 ^ 64)) y }
      else
        { s with
          mem := write64 (SET_SIZE s.mem x ((GET_SIZE s.mem x + GET_SIZE s.mem y) % 2 ^ 64))
            (lastOr A 0)
            (read64 (SET_SIZE s.mem x ((GET_SIZE s.mem x + GET_SIZE s.mem y) % 2 ^ 64)) y) })
      = merged s A x y := by
  have hxm : x ∈ live ++ (A ++ y :: B) := by
    simp only [List.mem_append, List.mem_cons] at hx ⊢
    tauto
  have hym : y ∈ live ++ (A ++ y :: B) := by simp
  have hxb := h.bounds hxm
  have hyb := h.bounds hym
  have hxy : x ≠ y := by
    intro e
    subst e
    have hnd := h.unlink.nodup
    simp only [List.cons_append, List.nodup_cons, List.mem_append] at hnd
    exact hnd.1 (Or.inr (List.mem_append.1 hx))
  have hd := h.disj x hxm y hym hxy
  have hv : (GET_SIZE s.mem x + GET_SIZE s.mem y) % 2 ^ 64 = GET_SIZE s.mem x + GET_SIZE s.mem y := by
    omega
  rw [hv]
  unfold merged
  generalize GET_SIZE s.mem x + GET_SIZE s.mem y = v
  have hr : read64 (SET_SIZE s.mem x v) y = read64 s.mem y := by
    apply read64_congr _ _ _ (by omega)
    intro z h1 h2
    exact SET_SIZE_out _ _ _ _ (by omega) (by omega) (by omega) (by omega)
  rw [hr]
  cases A with
  | nil =>
    simp only [lastOr, if_true, unlinked]
  | cons a A' =>
    have hne : lastOr A' a ≠ 0 := by
      apply lastOr_ne_zero
      intro z hz
      exact lseg_ne_zero h.list z (by
        simp only [List.cons_append, List.mem_cons, List.mem_append] at hz ⊢
        tauto)
    have hpm : lastOr A' a ∈ live ++ (a :: A' ++ y :: B) :=
      List.mem_append_right _ (List.mem_append_left _ (lastOr_mem A' a))
    have hpb := h.bounds hpm
    simp only [lastOr, if_neg hne, unlinked]
    congr 1
    unfold SET_SIZE
    have e : (2 ^ 64 + x - 8) % 2 ^ 64 = x - 8 := by omega
    rw [e]
    apply write64_comm _ _ _ _ _ (by omega) (by omega)
    by_cases e' : lastOr A' a = x
    · rw [e']; omega
    · have := h.disj _ hpm x hxm e'
      omega

/-- One merging step keeps the heap well formed. -/
theorem WF.merged {s : State} {base : Nat} {live A B : List Nat} {x y : Nat}
    (h : WF s base live (A ++ y :: B)) (hx : x ∈ A ++ B) (hadj : x + GET_SIZE s.mem x = y) :
    WF (merged s A x y) base live (A ++ B)
      ∧ GET_SIZE (merged s A x y).mem x = GET_SIZE s.mem x + GET_SIZE s.mem y
      ∧ (∀ q ∈ live ++ (A ++ B), q ≠ x → GET_SIZE (merged s A x y).mem q = GET_SIZE s.mem q)
      ∧ (∀ q ∈ live, SameBlock s.mem (merged s A x y).mem q)
      ∧ (merged s A x y).brk = s.brk := by
  have hxm : x ∈ live ++ (A ++ y :: B) := by
    simp only [List.mem_append, List.mem_cons] at hx ⊢
    tauto
  have hym : y ∈ live ++ (A ++ y :: B) := by simp
  have hu := h.unlink
  have hbrk1 : (unlinked s A y).brk = s.brk := unlinked_brk _ _ _
  have hsz1 : ∀ q ∈ live ++ (A ++ y :: B), GET_SIZE (unlinked s A y).mem q = GET_SIZE s.mem q :=
    fun q hq => h.unlinked_size hq
  have hsame1 : ∀ q ∈ live ++ (A ++ y :: B), q ∉ A → SameBlock s.mem (unlinked s A y).mem q :=
    fun q hq hqA => h.unlinked_same hq hqA
  have hbnd : ∀ q ∈ live ++ (A ++ y :: B),
      8 ≤ q ∧ 16 ≤ GET_SIZE s.mem q ∧ q + GET_SIZE s.mem q ≤ 2 ^ 64 := by
    intro q hq
    have := h.bounds hq
    omega
  have hlA : ∀ q ∈ live, q ∉ A := by
    intro q hq hqA
    exact h.mem_live_not_free hq (List.mem_append_left _ hqA)
  have hsub : ∀ q ∈ live ++ (A ++ B), q ∈ live ++ (A ++ y :: B) := by
    intro q hq
    simp only [List.mem_append, List.mem_cons] at hq ⊢
    tauto
  unfold Alloc.merged
  rw [← hsz1 x hxm, ← hsz1 y hym]
  generalize unlinked s A y = s1 at hu hbrk1 hsz1 hsame1 ⊢
  obtain ⟨hw, hsame, hP, _⟩ := hu.absorb hx (List.mem_cons_self y live) (by
    rw [hsz1 x hxm]; exact hadj)
  rw [List.erase_cons_head] at hw
  refine ⟨hw, hP, ?_, ?_, hbrk1⟩
  · intro q hq hne
    have hq' := hsub q hq
    have hb := hbnd q hq'
    have e1 := hsz1 q hq'
    have hq2 : q ∈ y :: live ++ (A ++ B) := by
      simp only [List.cons_append, List.mem_cons, List.mem_append] at hq ⊢
      tauto
    have e2 := (hsame q hq2 hne).size (by omega) (by rw [e1]; omega) (by omega)
    dsimp only
    rw [e2, e1]
  · intro q hq
    have hqm : q ∈ live ++ (A ++ B) := List.mem_append_left _ hq
    have hq' := hsub q hqm
    have hq2 : q ∈ y :: live ++ (A ++ B) := by
      simp only [List.cons_append, List.mem_cons, List.mem_append]
      tauto
    have hne : q ≠ x := by
      intro e
      subst e
      exact h.mem_live_not_free hq (by
        simp only [List.mem_append, List.mem_cons] at hx ⊢
        tauto)
    exact (hsame1 q hq' (hlA q hq)).andThen (hsame q hq2 hne) (hsz1 q hq')

theorem mergeLoop_zero (fuel : Nat) (s : State) : mergeLoop (fuel + 1) s 0 = some s := by
  simp [mergeLoop]

/-- An iteration of `merge` on a block that no free block follows. -/
theorem mergeLoop_miss {s : State} {base : Nat} {live free : List Nat} (h : WF s base live free)
    {x : Nat} (hx : x ∈ free) (hm : ∀ y ∈ free, x + GET_SIZE s.mem x ≠ y) (fuel : Nat)
    (hf : free.length < fuel) :
    mergeLoop (fuel + 1) s x = mergeLoop fuel s (read64 s.mem x) := by
  have hxb := h.bounds (List.mem_append_right live hx)
  have hx0 : x ≠ 0 := by omega
  have e : (x + GET_SIZE s.mem x) % 2 ^ 64 = x + GET_SIZE s.mem x := by omega
  rw [mergeLoop]
  simp only [if_neg hx0, e, scan_eq _ fuel 0 h.list hf]
  rw [scanList_miss]
  · simp
  · intro y hy
    simpa using hm y hy

/-- An iteration of `merge` on a block that a free block follows. -/
theorem mergeLoop_hit {s : State} {base : Nat} {live A B : List Nat} {x y : Nat}
    (h : WF s base live (A ++ y :: B)) (hx : x ∈ A ++ B) (hadj : x + GET_SIZE s.mem x = y)
    (fuel : Nat) (hf : (A ++ y :: B).length < fuel) :
    mergeLoop (fuel + 1) s x
      = mergeLoop fuel (merged s A x y) (read64 (merged s A x y).mem x) := by
  have hxm : x ∈ live ++ (A ++ y :: B) := by
    simp only [List.mem_append, List.mem_cons] at hx ⊢
    tauto
  have hxb := h.bounds hxm
  have hx0 : x ≠ 0 := by omega
  have hy0 : y ≠ 0 := (lseg_split h.list).1
  have e : (x + GET_SIZE s.mem x) % 2 ^ 64 = y := by omega
  have hnd : (A ++ y :: B).Nodup := (List.nodup_append.1 h.nodup).2.1
  rw [mergeLoop]
  simp only [if_neg hx0, e, scan_eq _ fuel 0 h.list hf]
  rw [scanList_first]
  · simp only [ne_eq, hy0, not_false_eq_true, if_true]
    rw [merge_code_eq h hx]
  · intro a ha
    simp only [decide_eq_false_iff_not]
    intro e'
    subst e'
    have : (A ++ y :: B).Nodup := hnd
    rw [List.nodup_append] at this
    exact this.2.2 ha (List.mem_cons_self _ _)
  · simp

/-- `merge` changes nothing from a point of the free list on when no block
from there on is followed by a free block. -/
theorem mergeLoop_quiet {s : State} {base : Nat} {live free : List Nat}
    (h : WF s base live free) : ∀ (T : List Nat) (ptr fuel : Nat), lseg s.mem ptr T →
    (∀ x ∈ T, x ∈ free) → (∀ x ∈ T, ∀ y ∈ free, x + GET_SIZE s.mem x ≠ y) →
    free.length + T.length < fuel → mergeLoop fuel s ptr = some s
  | [], ptr, fuel, hl, _, _, hf => by
    have e : ptr = 0 := hl
    subst e
    cases fuel with
    | zero => simp at hf
    | succ f => exact mergeLoop_zero f s
  | x :: T, ptr, fuel, hl, hsub, hm, hf => by
    obtain ⟨e, _, hl'⟩ := hl
    subst e
    cases fuel with
    | zero => simp at hf
    | succ f =>
      simp only [List.length_cons] at hf
      rw [mergeLoop_miss h (hsub ptr (List.mem_cons_self _ _)) (hm ptr (List.mem_cons_self _ _)) f
        (by omega)]
      exact mergeLoop_quiet h T _ f hl' (fun y hy => hsub y (List.mem_cons_of_mem _ hy))
        (fun y hy => hm y (List.mem_cons_of_mem _ hy)) (by omega)

theorem lseg_suffix {m : Mem} : ∀ {D : List Nat} {x : Nat} {T : List Nat} {h : Nat},
    lseg m h (D ++ x :: T) → lseg m (read64 m x) T :=
  fun hl => (lseg_split hl).2

/-- The second phase of `merge`: the first block `P` of the free list has
absorbed its successor, and the walk goes on through the rest `R` of the
list, where at most one block, the predecessor of `P`, absorbs `P`. -/
theorem mergeLoop_pred {s : State} {base : Nat} {live R : List Nat} {P : Nat}
    (h : WF s base live (P :: R)) (hP : ∀ y ∈ P :: R, P + GET_SIZE s.mem P ≠ y)
    (hR : NoAdj s.mem R) : ∀ (T D : List Nat) (ptr : Nat), R = D ++ T →
    (∀ d ∈ D, d + GET_SIZE s.mem d ≠ P) → lseg s.mem ptr T →
    ∃ s' free', (∀ fuel, R.length + 1 + T.length < fuel → mergeLoop fuel s ptr = some s')
      ∧ WF s' base live free' ∧ NoAdj s'.mem free'
      ∧ (∀ q ∈ live, SameBlock s.mem s'.mem q)
      ∧ s'.brk = s.brk
      ∧ (∀ r ∈ free', r ∈ P :: R ∧ GET_SIZE s.mem r ≤ GET_SIZE s'.mem r)
      ∧ Covers s.mem s'.mem (P :: R) free'
      ∧ ((∀ q ∈ R, q + GET_SIZE s.mem q ≠ P) → free' = P :: R ∧ s' = s)
      ∧ (∀ r ∈ free', (r ∈ R ∧ GET_SIZE s'.mem r = GET_SIZE s.mem r)
          ∨ ((r = P ∨ (r ∈ R ∧ r + GET_SIZE s.mem r = P))
              ∧ r + GET_SIZE s'.mem r = P + GET_SIZE s.mem P))
  | [], D, ptr, hD, hDP, hl => by
    have e : ptr = 0 := hl
    subst e
    have hRD : R = D := by simpa using hD
    refine ⟨s, P :: R, ?_, h, ?_, fun q _ => SameBlock.refl _ _, rfl,
      fun r hr => ⟨hr, le_refl _⟩, fun q hq => ⟨q, hq, le_refl _, le_refl _⟩, fun _ => ⟨rfl, rfl⟩,
      ?_⟩
    · intro fuel hf
      cases fuel with
      | zero => simp at hf
      | succ f => exact mergeLoop_zero f s
    · intro a ha b hb
      rcases List.mem_cons.1 ha with ea | ma
      · rw [ea]; exact hP b hb
      · rcases List.mem_cons.1 hb with eb | mb
        · rw [eb]; exact hDP a (hRD ▸ ma)
        · exact hR a ma b mb
    · intro r hr
      rcases List.mem_cons.1 hr with e | m
      · right; exact ⟨Or.inl e, by rw [e]⟩
      · left; exact ⟨m, rfl⟩
  | x :: T, D, ptr, hD, hDP, hl => by
    obtain ⟨e, _, hl'⟩ := hl
    subst e
    have hxR : ptr ∈ R := by rw [hD]; simp
    have hxF : ptr ∈ P :: R := List.mem_cons_of_mem _ hxR
    have hTR : ∀ z ∈ T, z ∈ R := by
      intro z hz
      rw [hD]
      simp [hz]
    have hlen : T.length < R.length := by
      rw [hD]
      simp only [List.length_append, List.length_cons]
      omega
    by_cases hadj : ptr + GET_SIZE s.mem ptr = P
    · -- the predecessor of `P` absorbs it
      have hxR' : ptr ∈ [] ++ R := hxR
      have h' : WF s base live ([] ++ P :: R) := h
      have hw := WF.merged h' hxR' hadj
      obtain ⟨hw2, hsz, hoth, hsame, hbrk⟩ := hw
      have hw2' : WF (merged s [] ptr P) base live R := hw2
      have hl2 : lseg (merged s [] ptr P).mem (read64 (merged s [] ptr P).mem ptr) T := by
        have := hw2'.list
        rw [hD] at this
        exact lseg_suffix this
      have hnd : R.Nodup := (List.nodup_append.1 hw2'.nodup).2.1
      have hxT : ∀ z ∈ T, z ≠ ptr := by
        intro z hz e
        subst e
        rw [hD] at hnd
        have := (List.nodup_append.1 hnd).2.1
        exact (List.nodup_cons.1 this).1 hz
      have hoth' : ∀ q ∈ R, q ≠ ptr → GET_SIZE (merged s [] ptr P).mem q = GET_SIZE s.mem q :=
        fun q hq hne => hoth q (List.mem_append_right _ hq) hne
      have hquiet := mergeLoop_quiet hw2' T (read64 (merged s [] ptr P).mem ptr)
      refine ⟨merged s [] ptr P, R, ?_, hw2', ?_, hsame, hbrk, ?_, ?_, ?_, ?_⟩
      · intro fuel hf
        cases fuel with
        | zero => simp at hf
        | succ f =>
          simp only [List.length_cons] at hf
          rw [mergeLoop_hit h' hxR' hadj f (by
            simp only [List.nil_append, List.length_cons]; omega)]
          refine hquiet f hl2 hTR ?_ (by omega)
          intro z hz y hy
          rw [hoth' z (hTR z hz) (hxT z hz)]
          exact hR z (hTR z hz) y hy
      · intro a ha b hb
        by_cases e : a = ptr
        · rw [e, hsz, ← Nat.add_assoc, hadj]
          exact hP b (List.mem_cons_of_mem _ hb)
        · rw [hoth' a ha e]
          exact hR a ha b hb
      · intro r hr
        refine ⟨List.mem_cons_of_mem _ hr, ?_⟩
        by_cases e : r = ptr
        · rw [e, hsz]; omega
        · rw [hoth' r hr e]
      · intro q hq
        rcases List.mem_cons.1 hq with eq | mq
        · refine ⟨ptr, hxR, ?_, ?_⟩
          · have := h.bounds (List.mem_append_right live hxF); omega
          · rw [eq, hsz]; omega
        · refine ⟨q, mq, le_refl _, ?_⟩
          by_cases e : q = ptr
          · rw [e, hsz]; omega
          · rw [hoth' q mq e]
      · intro hno
        exact absurd hadj (hno ptr hxR)
      · intro r hr
        by_cases e : r = ptr
        · right
          refine ⟨Or.inr ⟨hr, by rw [e]; exact hadj⟩, ?_⟩
          rw [e, hsz, ← Nat.add_assoc, hadj]
        · left; exact ⟨hr, hoth' r hr e⟩
    · -- nothing follows this block
      have hmiss : ∀ y ∈ P :: R, ptr + GET_SIZE s.mem ptr ≠ y := by
        intro y hy
        rcases List.mem_cons.1 hy with e | m
        · rw [e]; exact hadj
        · exact hR ptr hxR y m
      obtain ⟨s', free', hrun, rest⟩ := mergeLoop_pred h hP hR T (D ++ [ptr]) (read64 s.mem ptr)
        (by rw [hD]; simp) (by
          intro d hd
          rcases List.mem_append.1 hd with m | m
          · exact hDP d m
          · rw [List.mem_singleton.1 m]; exact hadj) hl'
      refine ⟨s', free', ?_, rest⟩
      intro fuel hf
      cases fuel with
      | zero => simp at hf
      | succ f =>
        simp only [List.length_cons] at hf
        rw [mergeLoop_miss h hxF hmiss f (by simp only [List.length_cons]; omega)]
        exact hrun f (by omega)

theorem Covers.chain {m m' m'' : Mem} {F F' F'' : List Nat} (h : Covers m m' F F')
    (h' : Covers m' m'' F' F'') : Covers m m'' F F'' := by
  intro q hq
  obtain ⟨r, hr, h1, h2⟩ := h q hq
  obtain ⟨r', hr', h3, h4⟩ := h' r hr
  exact ⟨r', hr', by omega, by omega⟩

/-- What `merge` does when the first block `P` of the free list has just
been pushed and the rest `R` of the list has no two adjacent blocks. -/
theorem merge_spec {s : State} {base : Nat} {live R : List Nat} {P : Nat}
    (h : WF s base live (P :: R)) (hR : NoAdj s.mem R) :
    ∃ s' free', (∀ fuel, 2 * R.length + 4 ≤ fuel → merge fuel s = some s')
      ∧ WF s' base live free' ∧ NoAdj s'.mem free'
      ∧ (∀ q ∈ live, SameBlock s.mem s'.mem q)
      ∧ s'.brk = s.brk
      ∧ (∀ r ∈ free', r ∈ P :: R ∧ GET_SIZE s.mem r ≤ GET_SIZE s'.mem r)
      ∧ Covers s.mem s'.mem (P :: R) free'
      ∧ ((∀ q ∈ R, q + GET_SIZE s.mem q ≠ P) → ∃ t, free' = P :: t)
      ∧ (∀ r ∈ free', (r ∈ R ∧ GET_SIZE s'.mem r = GET_SIZE s.mem r)
          ∨ ((r = P ∨ (r ∈ R ∧ r + GET_SIZE s.mem r = P))
              ∧ r + GET_SIZE s'.mem r = P + GET_SIZE s.mem P
                + (if P + GET_SIZE s.mem P ∈ R then GET_SIZE s.mem (P + GET_SIZE s.mem P) else 0))) := by
  have hhead : s.head = P := h.list.1
  have hPm : P ∈ live ++ P :: R := by simp
  have hPb := h.bounds hPm
  have hPR : P ∉ R := by
    have := (List.nodup_append.1 h.nodup).2.1
    exact (List.nodup_cons.1 this).1
  by_cases hN : P + GET_SIZE s.mem P ∈ R
  · obtain ⟨A, B, hAB⟩ := List.append_of_mem hN
    rw [if_pos hN]
    generalize hNe : P + GET_SIZE s.mem P = N at hN hAB ⊢
    subst hAB
    have hNe2 := hNe
    have h' : WF s base live ((P :: A) ++ N :: B) := h
    have hPx : P ∈ (P :: A) ++ B := by simp
    obtain ⟨hw1, hsz, hoth, hsame1, hbrk1⟩ := WF.merged h' hPx hNe
    have hw1' : WF (merged s (P :: A) P N) base live (P :: (A ++ B)) := hw1
    have hsub : ∀ q ∈ A ++ B, q ∈ A ++ N :: B := by
      intro q hq
      simp only [List.mem_append, List.mem_cons] at hq ⊢
      tauto
    have hoth' : ∀ q ∈ A ++ B, GET_SIZE (merged s (P :: A) P N).mem q = GET_SIZE s.mem q := by
      intro q hq
      refine hoth q (by
        simp only [List.cons_append, List.mem_append, List.mem_cons] at hq ⊢
        tauto) ?_
      intro e
      subst e
      exact hPR (hsub _ hq)
    have hNb := h.bounds (List.mem_append_right live (List.mem_cons_of_mem P hN))
    have hP1 : ∀ y ∈ P :: (A ++ B),
        P + GET_SIZE (merged s (P :: A) P N).mem P ≠ y := by
      intro y hy
      rw [hsz, ← Nat.add_assoc, hNe]
      rcases List.mem_cons.1 hy with e | m
      · omega
      · exact hR N hN y (hsub y m)
    have hR1 : NoAdj (merged s (P :: A) P N).mem (A ++ B) := by
      intro a ha b hb
      rw [hoth' a ha]
      exact hR a (hsub a ha) b (hsub b hb)
    obtain ⟨s', free', hrun, hw', hna', hsame', hbrk', hsubs, hcov, hhd, hpre⟩ :=
      mergeLoop_pred hw1' hP1 hR1 (A ++ B) [] (read64 (merged s (P :: A) P N).mem P) rfl
        (by simp) hw1'.list.2.2
    refine ⟨s', free', ?_, hw', hna', ?_, by rw [hbrk', hbrk1], ?_, ?_, ?_, ?_⟩
    · intro fuel hf
      unfold merge
      rw [hhead]
      cases fuel with
      | zero => omega
      | succ f =>
        simp only [List.length_append, List.length_cons] at hf
        rw [mergeLoop_hit h' hPx hNe f (by
          simp only [List.cons_append, List.length_cons, List.length_append]; omega)]
        exact hrun f (by simp only [List.length_append]; omega)
    · intro q hq
      have hqP : q ≠ P := by
        intro e
        subst e
        exact h.mem_live_not_free hq (List.mem_cons_self _ _)
      exact (hsame1 q hq).andThen (hsame' q hq) (hoth q (List.mem_append_left _ hq) hqP)
    · intro r hr
      obtain ⟨hr1, hr2⟩ := hsubs r hr
      rcases List.mem_cons.1 hr1 with e | m
      · refine ⟨by rw [e]; exact List.mem_cons_self _ _, ?_⟩
        rw [e] at hr2 ⊢
        rw [hsz] at hr2
        omega
      · refine ⟨List.mem_cons_of_mem _ (hsub r m), ?_⟩
        rw [hoth' r m] at hr2
        exact hr2
    · refine Covers.chain ?_ hcov
      intro q hq
      rcases List.mem_cons.1 hq with e | m
      · exact ⟨P, List.mem_cons_self _ _, by omega, by rw [e, hsz]; omega⟩
      · by_cases eN : q = N
        · exact ⟨P, List.mem_cons_self _ _, by omega, by rw [eN, hsz]; omega⟩
        · have hq' : q ∈ A ++ B := by
            simp only [List.mem_append, List.mem_cons] at m ⊢
            tauto
          exact ⟨q, List.mem_cons_of_mem _ hq', le_refl _, by rw [hoth' q hq']⟩
    · intro hno
      have := hhd (by
        intro q hq
        rw [hoth' q hq]
        exact hno q (hsub q hq))
      exact ⟨A ++ B, this.1⟩
    · intro r hr
      rcases hpre r hr with ⟨m, e⟩ | ⟨hc, e⟩
      · left; exact ⟨hsub r m, by rw [e, hoth' r m]⟩
      · right
        refine ⟨?_, by rw [e, hsz]; omega⟩
        rcases hc with e' | ⟨m, e'⟩
        · exact Or.inl e'
        · exact Or.inr ⟨hsub r m, by rw [← hoth' r m]; exact e'⟩
  · have hP0 : ∀ y ∈ P :: R, P + GET_SIZE s.mem P ≠ y := by
      intro y hy
      rcases List.mem_cons.1 hy with e | m
      · omega
      · intro e
        exact hN (e ▸ m)
    obtain ⟨s', free', hrun, hw', hna', hsame', hbrk', hsubs, hcov, hhd, hpre⟩ :=
      mergeLoop_pred h hP0 hR R [] (read64 s.mem P) rfl (by simp) h.list.2.2
    rw [if_neg hN]
    refine ⟨s', free', ?_, hw', hna', hsame', hbrk', hsubs, hcov, ?_, hpre⟩
    · intro fuel hf
      unfold merge
      rw [hhead]
      cases fuel with
      | zero => omega
      | succ f =>
        rw [mergeLoop_miss h (List.mem_cons_self _ _) hP0 f (by
          simp only [List.length_cons]; omega)]
        exact hrun f (by omega)
    · intro hno
      exact ⟨R, (hhd hno).1⟩


/-! ## The shrinker and `myfree` -/

theorem brk_ok (s : State) (a : Nat) (h1 : s.brkMin ≤ a) (h2 : a ≤ s.brkMax) :
    brk s a = (0, { s with brk := a }) := by
  unfold brk
  rw [if_pos ⟨h1, h2⟩]

/-- The loop condition of `shrink_heap` on a block of a well-formed heap. -/
theorem shrink_stop {s : State} {base : Nat} {live free : List Nat} (h : WF s base live free)
    {x : Nat} (hx : x ∈ free) :
    (decide (MIN_UNMAP_SIZE ≤ GET_SIZE s.mem x)
      && decide ((2 ^ 64 + GET_NEXT s.mem x - OVER_HEAD) % 2 ^ 64 = (sbrk s 0).1)) = true
      ↔ 1024 ≤ GET_SIZE s.mem x ∧ x + GET_SIZE s.mem x = s.brk + 8 := by
  have hb := h.bounds (List.mem_append_right live hx)
  have e : (sbrk s 0).1 = s.brk := by simp [sbrk]
  unfold GET_NEXT MIN_UNMAP_SIZE OVER_HEAD
  rw [e]
  simp only [Bool.and_eq_true, decide_eq_true_eq]
  constructor
  · rintro ⟨h1, h2⟩
    exact ⟨h1, by omega⟩
  · rintro ⟨h1, h2⟩
    exact ⟨h1, by omega⟩

theorem shrink_heap_miss {s : State} {base : Nat} {live free : List Nat}
    (h : WF s base live free)
    (hm : ∀ x ∈ free, ¬ (1024 ≤ GET_SIZE s.mem x ∧ x + GET_SIZE s.mem x = s.brk + 8))
    (fuel : Nat) (hf : free.length < fuel) : shrink_heap fuel s = some s := by
  unfold shrink_heap
  simp only [scan_eq _ fuel 0 h.list hf]
  rw [scanList_miss]
  · simp
  · intro x hx
    have := (shrink_stop h hx).not.2 (hm x hx)
    simpa using this

theorem shrink_heap_hit {s : State} {base : Nat} {live A B : List Nat} {x : Nat}
    (h : WF s base live (A ++ x :: B)) (h1 : 1024 ≤ GET_SIZE s.mem x)
    (h2 : x + GET_SIZE s.mem x = s.brk + 8) (fuel : Nat) (hf : (A ++ x :: B).length < fuel) :
    shrink_heap fuel s = some { unlinked s A x with brk := x - 8 }
      ∧ WF { unlinked s A x with brk := x - 8 } base live (A ++ B)
      ∧ (∀ q ∈ live, SameBlock s.mem (unlinked s A x).mem q)
      ∧ (∀ q ∈ live ++ (A ++ B), GET_SIZE (unlinked s A x).mem q = GET_SIZE s.mem q) := by
  have hxm : x ∈ live ++ (A ++ x :: B) := by simp
  have hxb := h.bounds hxm
  have hx0 : x ≠ 0 := by omega
  have hu := h.unlink
  have hsub : ∀ q ∈ live ++ (A ++ B), q ∈ live ++ (A ++ x :: B) := by
    intro q hq
    simp only [List.mem_append, List.mem_cons] at hq ⊢
    tauto
  have hszx : GET_SIZE (unlinked s A x).mem x = GET_SIZE s.mem x := h.unlinked_size hxm
  have hd := hu.discard (List.mem_cons_self x live) (by rw [hszx, unlinked_brk]; exact h2)
  rw [List.erase_cons_head] at hd
  refine ⟨?_, hd, ?_, fun q hq => h.unlinked_size (hsub q hq)⟩
  · unfold shrink_heap
    simp only [scan_eq _ fuel 0 h.list hf]
    rw [scanList_first]
    · simp only [if_neg hx0]
      have e : (2 ^ 64 + x - OVER_HEAD) % 2 ^ 64 = x - 8 := by unfold OVER_HEAD; omega
      rw [unlink_code_eq h.list, e, brk_ok _ _ (by
        rw [unlinked_brkMin]; have := h.min_le; omega) (by
        rw [unlinked_brkMax]; have := h.brk_le; omega)]
    · intro a ha
      have ham : a ∈ A ++ x :: B := List.mem_append_left _ ha
      have hab := h.bounds (List.mem_append_right live ham)
      have hne : a ≠ x := by
        intro e
        subst e
        have hnd : (A ++ a :: B).Nodup := (List.nodup_append.1 h.nodup).2.1
        exact (List.nodup_append.1 hnd).2.2 ha (List.mem_cons_self _ _)
      have hdj := h.disj a (List.mem_append_right live ham) x hxm hne
      have := (shrink_stop h ham).not.2 (by omega)
      simpa using this
    · exact (shrink_stop h (by simp)).2 ⟨h1, h2⟩
  · intro q hq
    refine h.unlinked_same (List.mem_append_left _ hq) ?_
    intro hqA
    exact h.mem_live_not_free hq (List.mem_append_left _ hqA)

/-- What `shrink_heap` does on a well-formed heap. -/
theorem shrink_heap_spec {s : State} {base : Nat} {live free : List Nat}
    (h : WF s base live free) (hna : NoAdj s.mem free) :
    ∃ s' free', (∀ fuel, free.length < fuel → shrink_heap fuel s = some s')
      ∧ WF s' base live free' ∧ NoAdj s'.mem free' ∧ NoTop s' free'
      ∧ (∀ q ∈ live, SameBlock s.mem s'.mem q)
      ∧ s'.brk ≤ s.brk
      ∧ (∀ r ∈ free', r ∈ free ∧ GET_SIZE s'.mem r = GET_SIZE s.mem r)
      ∧ (∀ q ∈ free, q ∈ free' ∨ s'.brk + 8 ≤ q)
      ∧ (NoTop s free → s' = s ∧ free' = free)
      ∧ (∀ y t, free = y :: t → y + GET_SIZE s.mem y ≠ s.brk + 8 → ∃ t', free' = y :: t') := by
  by_cases hex : ∃ x ∈ free, 1024 ≤ GET_SIZE s.mem x ∧ x + GET_SIZE s.mem x = s.brk + 8
  · obtain ⟨x, hx, h1, h2⟩ := hex
    obtain ⟨A, B, hAB⟩ := List.append_of_mem hx
    subst hAB
    have hxm : x ∈ live ++ (A ++ x :: B) := by simp
    have hxb := h.bounds hxm
    have hsub : ∀ q ∈ A ++ B, q ∈ A ++ x :: B := by
      intro q hq
      simp only [List.mem_append, List.mem_cons] at hq ⊢
      tauto
    have hnd : (A ++ x :: B).Nodup := (List.nodup_append.1 h.nodup).2.1
    have hxAB : x ∉ A ++ B := by
      have := h.unlink.nodup
      simp only [List.cons_append, List.nodup_cons, List.mem_append] at this
      intro hq
      exact this.1 (Or.inr (List.mem_append.1 hq))
    have hrun : ∀ fuel, (A ++ x :: B).length < fuel → _ := fun fuel hf => shrink_heap_hit h h1 h2 fuel hf
    obtain ⟨_, hw, hsame, hsz⟩ := hrun ((A ++ x :: B).length + 1) (by omega)
    have hsz' : ∀ q ∈ A ++ B, GET_SIZE (unlinked s A x).mem q = GET_SIZE s.mem q :=
      fun q hq => hsz q (List.mem_append_right _ hq)
    refine ⟨{ unlinked s A x with brk := x - 8 }, A ++ B, fun fuel hf => (hrun fuel hf).1, hw, ?_, ?_,
      hsame, ?_, fun r hr => ⟨hsub r hr, hsz' r hr⟩, ?_, ?_, ?_⟩
    · intro a ha b hb
      dsimp only
      rw [hsz' a ha]
      exact hna a (hsub a ha) b (hsub b hb)
    · intro a ha
      dsimp only
      rw [hsz' a ha]
      intro hc
      have e : a + GET_SIZE s.mem a = x := by omega
      exact hna a (hsub a ha) x (by simp) e
    · dsimp only
      omega
    · intro q hq
      by_cases e : q = x
      · right
        dsimp only
        omega
      · left
        simp only [List.mem_append, List.mem_cons] at hq ⊢
        tauto
    · intro hnt
      exact absurd ⟨h1, h2⟩ (hnt x (by simp))
    · intro y t hyt hy
      cases A with
      | nil =>
        simp only [List.nil_append, List.cons.injEq] at hyt
        rw [hyt.1] at h2
        exact absurd h2 hy
      | cons a A' =>
        simp only [List.cons_append, List.cons.injEq] at hyt
        exact ⟨A' ++ B, by rw [hyt.1]; rfl⟩
  · have hnt : NoTop s free := by
      intro x hx hc
      exact hex ⟨x, hx, hc⟩
    refine ⟨s, free, fun fuel hf => shrink_heap_miss h hnt fuel hf, h, hna, hnt,
      fun q _ => SameBlock.refl _ _, le_refl _, fun r hr => ⟨hr, rfl⟩, fun q hq => Or.inl hq,
      fun _ => ⟨rfl, rfl⟩, fun y t e _ => ⟨t, e⟩⟩

/-- What `myfree` does to a live block of a well-formed heap whose free list
has no two adjacent blocks. -/
theorem myfree_spec {s : State} {base : Nat} {live free : List Nat} (h : WF s base live free)
    (hna : NoAdj s.mem free) {p : Nat} (hp : p ∈ live) :
    ∃ s' free', (∀ fuel, 2 * free.length + 4 ≤ fuel → myfree fuel s p = some s')
      ∧ WF s' base (live.erase p) free' ∧ NoAdj s'.mem free' ∧ NoTop s' free'
      ∧ (∀ q ∈ live, q ≠ p → SameBlock s.mem s'.mem q)
      ∧ s'.brk ≤ s.brk
      ∧ (∀ q ∈ p :: free,
          (∃ r ∈ free', r ≤ q ∧ q + GET_SIZE s.mem q ≤ r + GET_SIZE s'.mem r) ∨ s'.brk + 8 ≤ q)
      ∧ ((∀ q ∈ free, q + GET_SIZE s.mem q ≠ p) → (∃ r ∈ live, p < r) →
          ∃ t, free' = p :: t ∧ GET_SIZE s.mem p ≤ GET_SIZE s'.mem p)
      ∧ (NoTop s free →
          (GET_SIZE s.mem p
              + (if p + GET_SIZE s.mem p ∈ free then GET_SIZE s.mem (p + GET_SIZE s.mem p) else 0)
              < 1024
            ∨ p + GET_SIZE s.mem p
              + (if p + GET_SIZE s.mem p ∈ free then GET_SIZE s.mem (p + GET_SIZE s.mem p) else 0)
              ≠ s.brk + 8) →
          (∀ Q ∈ free, Q + GET_SIZE s.mem Q = p →
            GET_SIZE s.mem Q + GET_SIZE s.mem p
              + (if p + GET_SIZE s.mem p ∈ free then GET_SIZE s.mem (p + GET_SIZE s.mem p) else 0)
              < 1024
            ∨ p + GET_SIZE s.mem p
              + (if p + GET_SIZE s.mem p ∈ free then GET_SIZE s.mem (p + GET_SIZE s.mem p) else 0)
              ≠ s.brk + 8) →
          s'.brk = s.brk)
      ∧ free'.length ≤ free.length + 1 := by
  have hpm : p ∈ live ++ free := List.mem_append_left _ hp
  have hpb := h.bounds hpm
  have hp0 : p ≠ 0 := by omega
  have hpe : p ≠ s.emptyAddr := by
    have := h.empty_lt
    omega
  have h0 := h.push hp
  have hsame0 : ∀ q ∈ live ++ free, q ≠ p →
      SameBlock s.mem (write64 s.mem p s.head) q := by
    intro q hq hne
    refine h.sameBlock_of_inside hpm hq hne ?_
    intro x hx hnx
    exact write64_out _ _ _ _ (by omega) hx (by omega)
  have hsz0 : ∀ q ∈ live ++ free, GET_SIZE (write64 s.mem p s.head) q = GET_SIZE s.mem q := by
    intro q hq
    have hqb := h.bounds hq
    apply GET_SIZE_congr _ _ _ (by omega) (by omega)
    intro x h1 h2
    apply write64_out _ _ _ _ (by omega) (by omega)
    by_cases e : q = p
    · subst e; omega
    · have := h.disj q hq p hpm e
      omega
  have hna0 : NoAdj (write64 s.mem p s.head) free := by
    intro a ha b hb
    rw [hsz0 a (List.mem_append_right _ ha)]
    exact hna a ha b hb
  have hrun0 : ∀ fuel s1,
      merge fuel { s with mem := write64 s.mem p s.head, head := p } = some s1 →
      myfree fuel s p = shrink_heap fuel s1 := by
    intro fuel s1 hm
    unfold myfree
    rw [if_neg hp0, if_neg hpe]
    simp only [hm]
  have hbrk0 : ({ s with mem := write64 s.mem p s.head, head := p } : State).brk = s.brk := rfl
  have hmem0 : ({ s with mem := write64 s.mem p s.head, head := p } : State).mem
      = write64 s.mem p s.head := rfl
  generalize ({ s with mem := write64 s.mem p s.head, head := p } : State) = s0
    at h0 hrun0 hbrk0 hmem0
  rw [← hmem0] at hsame0 hsz0 hna0
  obtain ⟨s1, free1, hrun1, hw1, hna1, hsame1, hbrk1, hsub1, hcov1, hhd1, hpre1⟩ :=
    merge_spec h0 hna0
  obtain ⟨s2, free2, hrun2, hw2, hna2, hnt2, hsame2, hbrk2, hsub2, hcov2, hkeep2, hhd2⟩ :=
    shrink_heap_spec hw1 hna1
  have hlen1 : free1.length ≤ free.length + 1 := by
    have hnd1 : free1.Nodup := (List.nodup_append.1 hw1.nodup).2.1
    have : free1.length ≤ (p :: free).length := by
      have hs : free1 ⊆ p :: free := fun r hr => (hsub1 r hr).1
      exact (List.subperm_of_subset hnd1 hs).length_le
    simpa using this
  have hle : ∀ q ∈ live, q ≠ p → q ∈ live.erase p := by
    intro q hq hne
    exact (List.Nodup.mem_erase_iff (List.nodup_append.1 h.nodup).1).2 ⟨hne, hq⟩
  have hsz1 : ∀ q ∈ live.erase p, GET_SIZE s1.mem q = GET_SIZE s0.mem q := by
    intro q hq
    have hqb := h0.bounds (List.mem_append_left _ hq)
    exact (hsame1 q hq).size (by omega) (by omega) (by omega)
  have hlen2 : free2.length ≤ free1.length := by
    have hnd2 : free2.Nodup := (List.nodup_append.1 hw2.nodup).2.1
    have hs : free2 ⊆ free1 := fun r hr => (hsub2 r hr).1
    exact (List.subperm_of_subset hnd2 hs).length_le
  refine ⟨s2, free2, ?_, hw2, hna2, hnt2, ?_, by omega, ?_, ?_, ?_, by omega⟩
  · intro fuel hf
    rw [hrun0 fuel s1 (hrun1 fuel hf)]
    exact hrun2 fuel (by omega)
  · intro q hq hne
    have hq' := hle q hq hne
    have hqm : q ∈ live ++ free := List.mem_append_left _ hq
    have e0 := hsz0 q hqm
    exact ((hsame0 q hqm hne).andThen (hsame1 q hq') e0).andThen (hsame2 q hq')
      (by rw [hsz1 q hq', e0])
  · intro q hq
    obtain ⟨r, hr, hr1, hr2⟩ := hcov1 q hq
    have hqm : q ∈ live ++ free := by
      rcases List.mem_cons.1 hq with e | m
      · rw [e]; exact hpm
      · exact List.mem_append_right _ m
    rw [hsz0 q hqm] at hr2
    rcases hcov2 r hr with m | m
    · left
      exact ⟨r, m, hr1, by rw [(hsub2 r m).2]; exact hr2⟩
    · right
      omega
  · intro hno hab
    obtain ⟨t, ht⟩ := hhd1 (by
      intro q hq
      rw [hsz0 q (List.mem_append_right _ hq)]
      exact hno q hq)
    obtain ⟨r, hr, hpr⟩ := hab
    have hr' : r ∈ live.erase p := hle r hr (by omega)
    have hp1 : p ∈ free1 := by rw [ht]; exact List.mem_cons_self _ _
    have hpb1 := hw1.bounds (List.mem_append_right _ hp1)
    have hrb1 := hw1.bounds (List.mem_append_left _ hr')
    have hd := hw1.disj p (List.mem_append_right _ hp1) r (List.mem_append_left _ hr') (by omega)
    obtain ⟨t', ht'⟩ := hhd2 p t ht (by omega)
    refine ⟨t', ht', ?_⟩
    have hp2 : p ∈ free2 := by rw [ht']; exact List.mem_cons_self _ _
    rw [(hsub2 p hp2).2]
    have := (hsub1 p hp1).2
    rw [hsz0 p hpm] at this
    exact this
  · intro hnt hc1 hc2
    have hnt1 : NoTop s1 free1 := by
      intro r hr hc
      unfold MIN_UNMAP_SIZE at hc
      rw [hbrk1, hbrk0] at hc
      rcases hpre1 r hr with ⟨m, e⟩ | ⟨hcase, e⟩
      · rw [e, hsz0 r (List.mem_append_right _ m)] at hc
        exact hnt r m hc
      · rw [hsz0 p hpm] at e
        by_cases hN : p + GET_SIZE s.mem p ∈ free
        · rw [if_pos hN, hsz0 _ (List.mem_append_right _ hN)] at e
          rw [if_pos hN] at hc1 hc2
          rcases hcase with e' | ⟨m, e'⟩
          · rw [e'] at e hc
            omega
          · rw [hsz0 r (List.mem_append_right _ m)] at e'
            have := hc2 r m e'
            omega
        · rw [if_neg hN] at e hc1 hc2
          rcases hcase with e' | ⟨m, e'⟩
          · rw [e'] at e hc
            omega
          · rw [hsz0 r (List.mem_append_right _ m)] at e'
            have := hc2 r m e'
            omega
    rw [(hkeep2 hnt1).1, hbrk1, hbrk0]


/-! ## `mycalloc`, `myrealloc` and reachable states -/

theorem lseg_unique {m : Mem} : ∀ {xs ys : List Nat} {h : Nat},
    lseg m h xs → lseg m h ys → xs = ys
  | [], [], _, _, _ => rfl
  | [], y :: ys, h, h1, h2 => by
    have e1 : h = 0 := h1
    have := h2.2.1
    rw [← h2.1, e1] at this
    exact absurd rfl this
  | x :: xs, [], h, h1, h2 => by
    have e2 : h = 0 := h2
    have := h1.2.1
    rw [← h1.1, e2] at this
    exact absurd rfl this
  | x :: xs, y :: ys, h, h1, h2 => by
    have e : x = y := by rw [← h1.1, ← h2.1]
    subst e
    rw [lseg_unique h1.2.2 h2.2.2]

theorem bzero_in (m : Mem) (p k x : Nat) (h1 : p ≤ x) (h2 : x < p + k) (h3 : x < 2 ^ 64) :
    bzero m p k x = 0 := by
  unfold bzero
  rw [if_pos (by omega)]

theorem bzero_out (m : Mem) (p k x : Nat) (hp : p + k ≤ 2 ^ 64) (hx : x < 2 ^ 64)
    (h : x < p ∨ p + k ≤ x) : bzero m p k x = m x := by
  unfold bzero
  rw [if_neg (by omega)]

theorem bzero_zero (m : Mem) (p : Nat) : bzero m p 0 = m := by
  funext x
  unfold bzero
  rw [if_neg (by omega)]

theorem memcpy_in (m : Mem) (d a k x : Nat) (h1 : d ≤ x) (h2 : x < d + k) (h3 : x < 2 ^ 64)
    (ha : a + k ≤ 2 ^ 64) : memcpy m d a k x = m (a + (x - d)) := by
  unfold memcpy
  have e : (2 ^ 64 + x - d) % 2 ^ 64 = x - d := by omega
  rw [e, if_pos (by omega)]
  have e' : (a + (x - d)) % 2 ^ 64 = a + (x - d) := by omega
  rw [e']

theorem memcpy_out (m : Mem) (d a k x : Nat) (hp : d + k ≤ 2 ^ 64) (hx : x < 2 ^ 64)
    (h : x < d ∨ d + k ≤ x) : memcpy m d a k x = m x := by
  unfold memcpy
  rw [if_neg (by omega)]

/-- Writing into the payload of a live block keeps the heap well formed. -/
theorem WF.poke {s : State} {base : Nat} {live free : List Nat} (h : WF s base live free)
    {p : Nat} (hp : p ∈ live) (m' : Mem)
    (hm : ∀ x, x < 2 ^ 64 → ¬ (p ≤ x ∧ x + 8 < p + GET_SIZE s.mem p) → m' x = s.mem x) :
    WF { s with mem := m' } base live free
      ∧ (∀ q ∈ live ++ free, GET_SIZE m' q = GET_SIZE s.mem q)
      ∧ (∀ q ∈ live ++ free, q ≠ p → SameBlock s.mem m' q) := by
  have hpm : p ∈ live ++ free := List.mem_append_left _ hp
  have hpb := h.bounds hpm
  have hsame : ∀ q ∈ live ++ free, q ≠ p → SameBlock s.mem m' q := by
    intro q hq hne
    refine h.sameBlock_of_inside hpm hq hne ?_
    intro x hx hnx
    exact hm x hx (by omega)
  have hsz : ∀ q ∈ live ++ free, GET_SIZE m' q = GET_SIZE s.mem q := by
    intro q hq
    have hqb := h.bounds hq
    by_cases e : q = p
    · apply GET_SIZE_congr _ _ _ (by omega) (by omega)
      intro x h1 h2
      exact hm x (by omega) (by omega)
    · exact (hsame q hq e).size (by omega) (by omega) (by omega)
  refine ⟨?_, hsz, hsame⟩
  refine h.reshape rfl rfl rfl rfl h.nodup (fun q hq => hq) hsz ?_ (List.Perm.refl _)
  refine lseg_congr ?_ h.list
  intro x hx
  have hxm : x ∈ live ++ free := List.mem_append_right _ hx
  have hxb := h.bounds hxm
  have hne : x ≠ p := by
    intro e
    subst e
    exact h.mem_live_not_free hp hx
  exact (hsame x hxm hne).link (by omega) (by omega)

theorem target_eq (n : Nat) (hn : n + 16 ≤ 2 ^ 64) :
    (ALIGN_SIZE n + OVER_HEAD) % 2 ^ 64 = ALIGN_SIZE n + 8 ∧ ALIGN_SIZE n ≤ n + 7
      ∧ n ≤ ALIGN_SIZE n ∧ ALIGN_SIZE n % 8 = 0 := by
  rw [ALIGN_SIZE_eq]
  unfold OVER_HEAD
  omega

theorem ALIGN_SIZE_idem (t : Nat) (h : t % 8 = 0) (ht : t + 8 ≤ 2 ^ 64) : ALIGN_SIZE t = t := by
  rw [ALIGN_SIZE_eq]
  omega

theorem WF.fits {s : State} {base : Nat} {live free : List Nat} (h : WF s base live free)
    {t : Nat} (hf : Fits s t) : ∃ x ∈ free, t ≤ GET_SIZE s.mem x := by
  obtain ⟨free', x, hl, hx, ht⟩ := hf
  have := lseg_unique hl h.list
  subst this
  exact ⟨x, hx, ht⟩

theorem NoAdj_congr {m m' : Mem} {free : List Nat} (h : NoAdj m free)
    (e : ∀ q ∈ free, GET_SIZE m' q = GET_SIZE m q) : NoAdj m' free := by
  intro a ha b hb
  rw [e a ha]
  exact h a ha b hb

theorem NoTop_congr {s s' : State} {free : List Nat} (h : NoTop s free)
    (e : ∀ q ∈ free, GET_SIZE s'.mem q = GET_SIZE s.mem q) (eb : s'.brk = s.brk) :
    NoTop s' free := by
  intro a ha
  rw [e a ha, eb]
  exact h a ha

/-- What `mycalloc` does on a well-formed heap for a product that does not
overflow and is not zero. -/
theorem mycalloc_spec {s : State} {base : Nat} {live free : List Nat} (h : WF s base live free)
    (c n : Nat) (h0 : 0 < c * n) (hn : c * n + 16 ≤ 2 ^ 64)
    (hroom : (∃ x ∈ free, ALIGN_SIZE (c * n) + 8 ≤ GET_SIZE s.mem x)
      ∨ Room s (ALIGN_SIZE (c * n) + 8)) :
    ∃ p s1 s' free',
      (∀ fuel, free.length < fuel →
        mymalloc fuel s (c * n) = some (p, s1) ∧ mycalloc fuel s c n = some (p, s'))
      ∧ WF s' base (p :: live) free'
      ∧ ALIGN_SIZE (c * n) + 8 ≤ GET_SIZE s'.mem p
      ∧ (∀ q ∈ live, SameBlock s.mem s'.mem q)
      ∧ (NoAdj s.mem free → NoAdj s'.mem free')
      ∧ (NoTop s free → NoTop s' free')
      ∧ (∀ i, i < ALIGN_SIZE (c * n) → s'.mem (p + i) = 0)
      ∧ (∀ x, x < 2 ^ 64 → x < p ∨ p + (GET_SIZE s'.mem p - 8) ≤ x → s'.mem x = s1.mem x)
      ∧ GET_SIZE s'.mem p = GET_SIZE s1.mem p
      ∧ free'.length ≤ free.length + 1 := by
  obtain ⟨p, s1, free1, hrun, hw, hge, hsame, hna, _, hnt, _, _, hlen, _, _⟩ :=
    mymalloc_spec h (c * n) h0 hn hroom
  have hpm : p ∈ p :: live ++ free1 := by simp
  have hpb := hw.bounds hpm
  have hp0 : p ≠ 0 := by omega
  have hmod : c * n % 2 ^ 64 = c * n := by omega
  obtain ⟨_, ha1, ha2, ha3, _⟩ := target_bounds (c * n) h0 hn
  have hout : ∀ x, x < 2 ^ 64 → ¬ (p ≤ x ∧ x + 8 < p + GET_SIZE s1.mem p) →
      bzero s1.mem p (ALIGN_SIZE (c * n)) x = s1.mem x := by
    intro x hx hnx
    exact bzero_out _ _ _ _ (by omega) hx (by omega)
  obtain ⟨hw', hsz', hsame'⟩ := hw.poke (List.mem_cons_self p live) _ hout
  refine ⟨p, s1, { s1 with mem := bzero s1.mem p (ALIGN_SIZE (c * n)) }, free1, ?_, hw', ?_, ?_, ?_,
    ?_, ?_, ?_, hsz' p hpm, hlen⟩
  · intro fuel hf
    refine ⟨hrun fuel hf, ?_⟩
    unfold mycalloc
    rw [hmod, hrun fuel hf]
    simp only [if_neg hp0]
  · dsimp only
    rw [hsz' p hpm]
    exact hge
  · intro q hq
    have hqm : q ∈ p :: live ++ free1 := by simp [hq]
    have hne : q ≠ p := by
      intro e
      subst e
      have := hw.nodup
      simp only [List.cons_append, List.nodup_cons, List.mem_append] at this
      exact this.1 (Or.inl hq)
    have hqb := hw.bounds hqm
    exact (hsame q hq).andThen (hsame' q hqm hne)
      ((hsame q hq).size (by have := h.bounds (List.mem_append_left free hq); omega)
        (by have := h.bounds (List.mem_append_left free hq); omega)
        (by have := h.bounds (List.mem_append_left free hq); omega))
  · intro hna0
    exact NoAdj_congr (hna hna0) (fun q hq => hsz' q (List.mem_append_right _ hq))
  · intro hnt0
    exact NoTop_congr (hnt hnt0) (fun q hq => hsz' q (List.mem_append_right _ hq)) rfl
  · intro i hi
    dsimp only
    exact bzero_in _ _ _ _ (by omega) (by omega) (by omega)
  · intro x hx hc
    dsimp only at hc ⊢
    rw [hsz' p hpm] at hc
    exact bzero_out _ _ _ _ (by omega) hx (by omega)

theorem myrealloc_keep {s : State} {base : Nat} {live free : List Nat} (h : WF s base live free)
    {q : Nat} (hq : q ∈ live) (n : Nat) (hn : n + 16 ≤ 2 ^ 64)
    (hle : ALIGN_SIZE n + 8 ≤ GET_SIZE s.mem q) (fuel : Nat) :
    myrealloc fuel s q n = some (q, s) := by
  have hqb := h.bounds (List.mem_append_left free hq)
  have hq0 : q ≠ 0 := by omega
  obtain ⟨ht, _⟩ := target_eq n hn
  unfold myrealloc
  simp only [if_neg hq0, ht, if_pos hle]

/-- What `myrealloc` does to a live block that is too small for the request. -/
theorem myrealloc_spec {s : State} {base : Nat} {live free : List Nat} (h : WF s base live free)
    (hna : NoAdj s.mem free) {q : Nat} (hq : q ∈ live) (n : Nat) (hn : n + 16 ≤ 2 ^ 64)
    (hlt : GET_SIZE s.mem q < ALIGN_SIZE n + 8) (hn2 : ALIGN_SIZE n + 8 + 16 ≤ 2 ^ 64)
    (hroom : (∃ x ∈ free, ALIGN_SIZE (ALIGN_SIZE n + 8) + 8 ≤ GET_SIZE s.mem x)
      ∨ Room s (ALIGN_SIZE (ALIGN_SIZE n + 8) + 8)) :
    ∃ p s' free', (∀ fuel, 2 * free.length + 6 ≤ fuel → myrealloc fuel s q n = some (p, s'))
      ∧ WF s' base (p :: live.erase q) free' ∧ NoAdj s'.mem free' ∧ NoTop s' free'
      ∧ (∀ r ∈ live, r ≠ q → SameBlock s.mem s'.mem r)
      ∧ p ≠ q
      ∧ ALIGN_SIZE n + 8 + 8 ≤ GET_SIZE s'.mem p
      ∧ (∀ i, i + 8 < GET_SIZE s.mem q → s'.mem (p + i) = s.mem (q + i))
      ∧ Held s' free' q (q + GET_SIZE s.mem q)
      ∧ ∃ s1, (∀ fuel, free.length < fuel → mymalloc fuel s (ALIGN_SIZE n + 8) = some (p, s1))
          ∧ GET_SIZE s1.mem q = GET_SIZE s.mem q
          ∧ (∀ x, x < 2 ^ 64 → ¬ (p ≤ x ∧ x + 8 < p + GET_SIZE s1.mem p) →
              memcpy s1.mem p q (GET_SIZE s1.mem q) x = s1.mem x) := by
  have hqm : q ∈ live ++ free := List.mem_append_left _ hq
  have hqb := h.bounds hqm
  have hq0 : q ≠ 0 := by omega
  obtain ⟨ht, ht1, ht2, ht3⟩ := target_eq n hn
  have hal : ALIGN_SIZE (ALIGN_SIZE n + 8) = ALIGN_SIZE n + 8 :=
    ALIGN_SIZE_idem _ (by omega) (by omega)
  rw [hal] at hroom
  obtain ⟨p, s1, free1, hrun1, hw1, hge1, hsame1, hna1, _, _, _, _, hlen1, _, _⟩ :=
    mymalloc_spec h (ALIGN_SIZE n + 8) (by omega) hn2 (by rw [hal]; exact hroom)
  rw [hal] at hge1
  have hpm1 : p ∈ p :: live ++ free1 := by simp
  have hqm1 : q ∈ p :: live ++ free1 := by simp [hq]
  have hpb1 := hw1.bounds hpm1
  have hp0 : p ≠ 0 := by omega
  have hpq : p ≠ q := by
    intro e
    subst e
    have := hw1.nodup
    simp only [List.cons_append, List.nodup_cons, List.mem_append] at this
    exact this.1 (Or.inl hq)
  have hszq1 : GET_SIZE s1.mem q = GET_SIZE s.mem q :=
    (hsame1 q hq).size (by omega) (by omega) (by omega)
  have hout : ∀ x, x < 2 ^ 64 → ¬ (p ≤ x ∧ x + 8 < p + GET_SIZE s1.mem p) →
      memcpy s1.mem p q (GET_SIZE s1.mem q) x = s1.mem x := by
    intro x hx hnx
    have g1 : p + GET_SIZE s1.mem q ≤ 2 ^ 64 := by omega
    have g2 : x < p ∨ p + GET_SIZE s1.mem q ≤ x := by omega
    exact memcpy_out _ _ _ _ _ g1 hx g2
  obtain ⟨hw2, hsz2, hsame2⟩ := hw1.poke (List.mem_cons_self p live) _ hout
  have hna2 : NoAdj (memcpy s1.mem p q (GET_SIZE s1.mem q)) free1 :=
    NoAdj_congr (hna1 hna) (fun r hr => hsz2 r (List.mem_append_right _ hr))
  have hcopy : ∀ i, i + 8 < GET_SIZE s.mem q →
      memcpy s1.mem p q (GET_SIZE s1.mem q) (p + i) = s.mem (q + i) := by
    intro i hi
    rw [memcpy_in _ _ _ _ _ (by omega) (by omega) (by omega) (by omega)]
    have e : q + (p + i - p) = q + i := by omega
    rw [e]
    exact hsame1 q hq (q + i) (by omega) (by omega)
  have hrun2 : ∀ fuel s3, free.length < fuel →
      myfree fuel { s1 with mem := memcpy s1.mem p q (GET_SIZE s1.mem q) } q = some s3 →
      myrealloc fuel s q n = some (p, s3) := by
    intro fuel s3 hf h3
    unfold myrealloc
    simp only [if_neg hq0, ht, if_neg (by omega : ¬ ALIGN_SIZE n + 8 ≤ GET_SIZE s.mem q),
      if_neg (by omega : ¬ ALIGN_SIZE n + 8 < GET_SIZE s.mem q), hrun1 fuel hf, if_neg hp0, h3]
  have hmem2 : ({ s1 with mem := memcpy s1.mem p q (GET_SIZE s1.mem q) } : State).mem
      = memcpy s1.mem p q (GET_SIZE s1.mem q) := rfl
  generalize ({ s1 with mem := memcpy s1.mem p q (GET_SIZE s1.mem q) } : State) = s2
    at hw2 hrun2 hmem2
  rw [← hmem2] at hsz2 hsame2 hna2 hcopy
  obtain ⟨s3, free3, hrun3, hw3, hna3, hnt3, hsame3, _, hcov3, _, _, _⟩ :=
    myfree_spec hw2 hna2 (List.mem_cons_of_mem p hq)
  have herase : (p :: live).erase q = p :: live.erase q := by
    rw [List.erase_cons_tail]
    simpa using hpq
  rw [herase] at hw3
  have hsz12 : ∀ r ∈ p :: live ++ free1, GET_SIZE s2.mem r = GET_SIZE s1.mem r := hsz2
  have hp23 : SameBlock s2.mem s3.mem p := hsame3 p (List.mem_cons_self _ _) hpq
  have hszp3 : GET_SIZE s3.mem p = GET_SIZE s2.mem p :=
    hp23.size (by omega) (by rw [hsz12 p hpm1]; omega) (by omega)
  have hheld : Held s3 free3 q (q + GET_SIZE s.mem q) := by
    have := hcov3 q (List.mem_cons_self _ _)
    rw [hsz12 q hqm1, hszq1] at this
    exact this
  refine ⟨p, s3, free3, ?_, hw3, hna3, hnt3, ?_, hpq, ?_, ?_, hheld, s1, hrun1, hszq1, hout⟩
  · intro fuel hf
    exact hrun2 fuel s3 (by omega) (hrun3 fuel (by omega))
  · intro r hr hne
    have hrm : r ∈ live ++ free := List.mem_append_left _ hr
    have hrb := h.bounds hrm
    have hrm1 : r ∈ p :: live ++ free1 := by simp [hr]
    have hrp : r ≠ p := by
      intro e
      subst e
      have := hw1.nodup
      simp only [List.cons_append, List.nodup_cons, List.mem_append] at this
      exact this.1 (Or.inl hr)
    have e1 : GET_SIZE s1.mem r = GET_SIZE s.mem r :=
      (hsame1 r hr).size (by omega) (by omega) (by omega)
    have e2 : GET_SIZE s2.mem r = GET_SIZE s1.mem r := hsz12 r hrm1
    exact ((hsame1 r hr).andThen (hsame2 r hrm1 hrp) e1).andThen
      (hsame3 r (List.mem_cons_of_mem _ hr) hne) (by rw [e2, e1])
  · rw [hszp3, hsz12 p hpm1]
    omega
  · intro i hi
    rw [hp23 (p + i) (by omega) (by rw [hsz12 p hpm1]; omega)]
    exact hcopy i hi

theorem Returns.unique {α : Type} {f : Nat → Option α} {r r' : α} (h : Returns f r) (N : Nat)
    (h' : ∀ fuel, N ≤ fuel → f fuel = some r') : r = r' := by
  obtain ⟨M, hM⟩ := h
  have e1 := hM (max M N) (le_max_left _ _)
  have e2 := h' (max M N) (le_max_right _ _)
  rw [e1] at e2
  exact Option.some.inj e2

theorem mymalloc_zero_eq (s : State) (fuel : Nat) : mymalloc fuel s 0 = some (s.emptyAddr, s) := by
  unfold mymalloc
  rw [if_pos rfl]

theorem ALIGN_SIZE_zero : ALIGN_SIZE 0 = 0 := by
  rw [ALIGN_SIZE_eq]
  norm_num

theorem mycalloc_zero (s : State) (c n fuel : Nat) (h : c * n = 0) (he : s.emptyAddr ≠ 0) :
    mycalloc fuel s c n = some (s.emptyAddr, s) := by
  unfold mycalloc
  rw [h]
  simp only [Nat.zero_mod, mymalloc_zero_eq, if_neg he, ALIGN_SIZE_zero, bzero_zero]

theorem myfree_none (s : State) (q fuel : Nat) (h : q = 0 ∨ q = s.emptyAddr) :
    myfree fuel s q = some s := by
  unfold myfree
  rcases h with e | e
  · rw [if_pos e]
  · by_cases e0 : q = 0
    · rw [if_pos e0]
    · rw [if_neg e0, if_pos e]

theorem WF.canServe {s : State} {base : Nat} {live free : List Nat} (h : WF s base live free)
    {n : Nat} (hc : CanServe s n) :
    n + 16 ≤ 2 ^ 64 ∧ ((∃ x ∈ free, ALIGN_SIZE n + 8 ≤ GET_SIZE s.mem x)
      ∨ Room s (ALIGN_SIZE n + 8)) := by
  refine ⟨hc.1, ?_⟩
  rcases hc.2 with hf | hr
  · exact Or.inl (h.fits hf)
  · exact Or.inr hr

/-- Every call under valid usage keeps the heap well formed over the same
base, with no two free blocks adjacent and no large free block at the top,
and leaves the blocks that stay live untouched. -/
theorem Step.keeps_wf {s s' : State} {L L' : List Nat} (hs : Step s L s' L') {base : Nat}
    {free : List Nat} (h : WF s base L free) (hna : NoAdj s.mem free) (hnt : NoTop s free) :
    (∃ free', WF s' base L' free' ∧ NoAdj s'.mem free' ∧ NoTop s' free')
      ∧ (∀ p ∈ L, p ∈ L' → SameBlock s.mem s'.mem p) := by
  cases hs with
  | malloc_zero hr =>
    have e := hr.unique 0 (fun fuel _ => mymalloc_zero_eq s fuel)
    have e2 : s' = s := (Prod.mk.inj e).2
    subst e2
    exact ⟨⟨free, h, hna, hnt⟩, fun p _ _ => SameBlock.refl _ _⟩
  | malloc h0 hc hr =>
    obtain ⟨hn, hroom⟩ := h.canServe hc
    obtain ⟨p0, s0, free0, hrun, hw, _, hsame, hna', _, hnt', _, _, _, _, _⟩ :=
      mymalloc_spec h _ h0 hn hroom
    have e := hr.unique (free.length + 1) (fun fuel hf => hrun fuel (by omega))
    obtain ⟨e1, e2⟩ := Prod.mk.inj e
    subst e1 e2
    exact ⟨⟨free0, hw, hna' hna, hnt' hnt⟩, fun q hq _ => hsame q hq⟩
  | calloc_zero h0 hr =>
    have e := hr.unique 0 (fun fuel _ => mycalloc_zero s _ _ fuel h0 h.empty_ne)
    have e2 : s' = s := (Prod.mk.inj e).2
    subst e2
    exact ⟨⟨free, h, hna, hnt⟩, fun p _ _ => SameBlock.refl _ _⟩
  | calloc h0 hc hr =>
    obtain ⟨hn, hroom⟩ := h.canServe hc
    obtain ⟨p0, s1, s0, free0, hrun, hw, _, hsame, hna', hnt', _, _, _, _⟩ :=
      mycalloc_spec h _ _ h0 hn hroom
    have e := hr.unique (free.length + 1) (fun fuel hf => (hrun fuel (by omega)).2)
    obtain ⟨e1, e2⟩ := Prod.mk.inj e
    subst e1 e2
    exact ⟨⟨free0, hw, hna' hna, hnt' hnt⟩, fun q hq _ => hsame q hq⟩
  | realloc_null_zero hr =>
    have e := hr.unique 0 (fun fuel _ => by
      unfold myrealloc
      rw [if_pos rfl, mymalloc_zero_eq])
    have e2 : s' = s := (Prod.mk.inj e).2
    subst e2
    exact ⟨⟨free, h, hna, hnt⟩, fun p _ _ => SameBlock.refl _ _⟩
  | realloc_null h0 hc hr =>
    obtain ⟨hn, hroom⟩ := h.canServe hc
    obtain ⟨p0, s0, free0, hrun, hw, _, hsame, hna', _, hnt', _, _, _, _, _⟩ :=
      mymalloc_spec h _ h0 hn hroom
    have e := hr.unique (free.length + 1) (fun fuel hf => by
      unfold myrealloc
      rw [if_pos rfl]
      exact hrun fuel (by omega))
    obtain ⟨e1, e2⟩ := Prod.mk.inj e
    subst e1 e2
    exact ⟨⟨free0, hw, hna' hna, hnt' hnt⟩, fun q hq _ => hsame q hq⟩
  | realloc_keep hq hn hle hr =>
    have e := hr.unique 0 (fun fuel _ => myrealloc_keep h hq _ hn hle fuel)
    have e2 : s' = s := (Prod.mk.inj e).2
    subst e2
    exact ⟨⟨free, h, hna, hnt⟩, fun p _ _ => SameBlock.refl _ _⟩
  | realloc_grow hq hn hlt hc hr =>
    obtain ⟨hn2, hroom⟩ := h.canServe hc
    obtain ⟨p0, s0, free0, hrun, hw, hna', hnt', hsame, hpq, _, _⟩ :=
      myrealloc_spec h hna hq _ hn hlt hn2 hroom
    have e := hr.unique (2 * free.length + 6) hrun
    obtain ⟨e1, e2⟩ := Prod.mk.inj e
    subst e1 e2
    refine ⟨⟨free0, hw, hna', hnt'⟩, ?_⟩
    intro r hr hr'
    refine hsame r hr ?_
    intro e
    subst e
    have hnd : L.Nodup := (List.nodup_append.1 h.nodup).1
    rcases List.mem_cons.1 hr' with e' | m
    · exact hpq e'.symm
    · exact ((List.Nodup.mem_erase_iff hnd).1 m).1 rfl
  | free_none hq hr =>
    have e := hr.unique 0 (fun fuel _ => myfree_none s _ fuel hq)
    subst e
    exact ⟨⟨free, h, hna, hnt⟩, fun p _ _ => SameBlock.refl _ _⟩
  | free hq hr =>
    obtain ⟨s0, free0, hrun, hw, hna', hnt', hsame, _, _, _, _, _⟩ := myfree_spec h hna hq
    have e := hr.unique (2 * free.length + 4) hrun
    subst e
    refine ⟨⟨free0, hw, hna', hnt'⟩, ?_⟩
    intro r hr hr'
    have hnd : L.Nodup := (List.nodup_append.1 h.nodup).1
    exact hsame r hr ((List.Nodup.mem_erase_iff hnd).1 hr').1

/-- Every call under valid usage keeps the invariant, and leaves the blocks
that stay live untouched. -/
theorem Step.keeps_inv {s s' : State} {L L' : List Nat} (hs : Step s L s' L') (hi : Inv s L) :
    Inv s' L' ∧ (∀ p ∈ L, p ∈ L' → SameBlock s.mem s'.mem p) := by
  obtain ⟨base, free, h, hna, hnt⟩ := hi
  obtain ⟨⟨free', hw⟩, hsame⟩ := hs.keeps_wf h hna hnt
  exact ⟨⟨base, free', hw⟩, hsame⟩

theorem Init.gives_inv {s : State} (h : Init s) : Inv s [] := by
  obtain ⟨h1, h2, h3, h4, h5, h6⟩ := h
  refine ⟨s.brk, [], ⟨h6, h5, le_refl _, h4, h2, h3, by simp, by simp, by simp, h1, by simp,
    [], List.Perm.refl _, rfl⟩, ?_, ?_⟩
  · intro x hx
    simp at hx
  · intro x hx
    simp at hx

/-- A store of the client into a live block keeps the heap well formed. -/
theorem WF.store {s : State} {base : Nat} {L free : List Nat} (h : WF s base L free)
    (hna : NoAdj s.mem free) (hnt : NoTop s free) {p : Nat} (hp : p ∈ L) {m' : Mem}
    (hm : ∀ x, ¬ (p ≤ x ∧ x + 8 < p + GET_SIZE s.mem p) → m' x = s.mem x) :
    WF { s with mem := m' } base L free ∧ NoAdj m' free ∧ NoTop { s with mem := m' } free := by
  obtain ⟨hw, hsz, _⟩ := h.poke hp _ (fun x _ hx => hm x hx)
  exact ⟨hw, NoAdj_congr hna (fun q hq => hsz q (List.mem_append_right _ hq)),
    NoTop_congr hnt (fun q hq => hsz q (List.mem_append_right _ hq)) rfl⟩

/-- In a run from the initial state `s0` the heap is well formed over the
initial break. -/
theorem Run.has_wf {s0 s : State} {L : List Nat} (h0 : Init s0) (h : Run s0 s L) :
    ∃ free, WF s s0.brk L free ∧ NoAdj s.mem free ∧ NoTop s free := by
  induction h with
  | init =>
    obtain ⟨h1, h2, h3, h4, h5, h6⟩ := h0
    refine ⟨[], ⟨h6, h5, le_refl _, h4, h2, h3, by simp, by simp, by simp, h1, by simp,
      [], List.Perm.refl _, rfl⟩, ?_, ?_⟩
    · intro x hx
      simp at hx
    · intro x hx
      simp at hx
  | step _ hs ih =>
    obtain ⟨free, hw, hna, hnt⟩ := ih
    exact (hs.keeps_wf hw hna hnt).1
  | store _ hp hm ih =>
    obtain ⟨free, hw, hna, hnt⟩ := ih
    exact ⟨free, hw.store hna hnt hp hm⟩

/-- A run from an initial state ends in a reachable state. -/
theorem Run.reach {s0 s : State} {L : List Nat} (h0 : Init s0) (h : Run s0 s L) :
    Reach s L := by
  induction h with
  | init => exact Reach.init h0
  | step _ hs ih => exact Reach.step ih hs
  | store _ hp hm ih => exact Reach.store ih hp hm

/-- The invariant holds in every reachable state. -/
theorem Reach.has_inv {s : State} {L : List Nat} (h : Reach s L) : Inv s L := by
  induction h with
  | init hi => exact hi.gives_inv
  | step _ hs ih => exact (hs.keeps_inv ih).1
  | store _ hp hm ih =>
    obtain ⟨base, free, h, hna, hnt⟩ := ih
    obtain ⟨hw, hsz, _⟩ := h.poke hp _ (fun x _ hx => hm x hx)
    exact ⟨base, free, hw,
      NoAdj_congr hna (fun q hq => hsz q (List.mem_append_right _ hq)),
      NoTop_congr hnt (fun q hq => hsz q (List.mem_append_right _ hq)) rfl⟩


/-! ## Calls that return, and the states of the scenarios -/

theorem Init.wf {s : State} (h : Init s) : WF s s.brk [] [] := by
  obtain ⟨h1, h2, h3, h4, h5, h6⟩ := h
  exact ⟨h6, h5, le_refl _, h4, h2, h3, by simp, by simp, by simp, h1, by simp,
    [], List.Perm.refl _, rfl⟩

theorem initState_init : Init initState := by
  unfold Init initState
  decide

theorem initState_wf : WF initState 4096 [] [] := initState_init.wf

theorem initState_room (n : Nat) (h : n + 16 ≤ 1024) (h0 : 0 < n) :
    Room initState (ALIGN_SIZE n + 8) := by
  have := (target_bounds n h0 (by omega)).2
  unfold Room BATCH_SIZE ALLOC_SIZE initState
  dsimp only
  split_ifs
  · omega
  · omega

theorem Step.malloc_returns {s : State} {L : List Nat} (hi : Inv s L) {n : Nat} (h0 : 0 < n)
    (hc : CanServe s n) :
    ∃ p s', Returns (fun fuel => mymalloc fuel s n) (p, s') ∧ Step s L s' (p :: L) := by
  obtain ⟨base, free, h, _, _⟩ := hi
  obtain ⟨hn, hroom⟩ := h.canServe hc
  obtain ⟨p, s', free', hrun, _⟩ := mymalloc_spec h n h0 hn hroom
  have hr : Returns (fun fuel => mymalloc fuel s n) (p, s') :=
    ⟨free.length + 1, fun fuel hf => hrun fuel (by omega)⟩
  exact ⟨p, s', hr, Step.malloc h0 hc hr⟩

/-- Under valid usage `myfree` returns. -/
theorem Step.free_returns {s : State} {L : List Nat} (hi : Inv s L) {q : Nat} (hq : q ∈ L) :
    ∃ s', Returns (fun fuel => myfree fuel s q) s' ∧ Step s L s' (L.erase q) := by
  obtain ⟨base, free, h, hna, _⟩ := hi
  obtain ⟨s', free', hrun, _⟩ := myfree_spec h hna hq
  have hr : Returns (fun fuel => myfree fuel s q) s' := ⟨2 * free.length + 4, hrun⟩
  exact ⟨s', hr, Step.free hq hr⟩

theorem mymalloc_returns {s : State} {L : List Nat} (hi : Inv s L) {n : Nat} (h0 : 0 < n)
    (hc : CanServe s n) {F : List Nat} (hl : lseg s.mem s.head F) {r : Nat × State}
    (he : mymalloc (F.length + 1) s n = some r) :
    Returns (fun fuel => mymalloc fuel s n) r := by
  obtain ⟨base, free, h, _, _⟩ := hi
  obtain ⟨hn, hroom⟩ := h.canServe hc
  obtain ⟨p, s', free', hrun, _⟩ := mymalloc_spec h n h0 hn hroom
  have e : free = F := lseg_unique h.list hl
  subst e
  have e2 := hrun (free.length + 1) (by omega)
  rw [he] at e2
  rw [Option.some.inj e2]
  exact ⟨free.length + 1, fun fuel hf => hrun fuel (by omega)⟩

/-- A run of `myfree` with enough fuel tells what the call leaves. -/
theorem myfree_returns {s : State} {L : List Nat} (hi : Inv s L) {q : Nat} (hq : q ∈ L)
    {F : List Nat} (hl : lseg s.mem s.head F) {s0 : State}
    (he : myfree (2 * F.length + 4) s q = some s0) :
    Returns (fun fuel => myfree fuel s q) s0 := by
  obtain ⟨base, free, h, hna, _⟩ := hi
  obtain ⟨s', free', hrun, _⟩ := myfree_spec h hna hq
  have e : free = F := lseg_unique h.list hl
  subst e
  have e2 := hrun (2 * free.length + 4) (le_refl _)
  rw [he] at e2
  rw [Option.some.inj e2]
  exact ⟨2 * free.length + 4, hrun⟩

theorem canServe_of_list {s : State} {n : Nat} (F : List Nat) (x : Nat)
    (hn : n + 16 ≤ 2 ^ 64) (hl : lseg s.mem s.head F) (hx : x ∈ F)
    (hs : ALIGN_SIZE n + 8 ≤ GET_SIZE s.mem x) : CanServe s n :=
  ⟨hn, Or.inl ⟨F, x, hl, hx, hs⟩⟩

theorem oneBlockState_reach : Reach oneBlockState [4104] := by
  have hr : Returns (fun fuel => mymalloc fuel initState 10) (4104, oneBlockState) :=
    ⟨0, fun fuel _ => rfl⟩
  exact Reach.step (Reach.init initState_init)
    (Step.malloc (by decide) ⟨by decide, Or.inr (initState_room 10 (by decide) (by decide))⟩ hr)

theorem oneBlockState_list : lseg oneBlockState.mem oneBlockState.head [4128] := by
  refine ⟨by decide, by decide, ?_⟩
  show read64 oneBlockState.mem 4128 = 0
  decide

theorem joinState_reach : Reach joinState [5104] := by
  have r0 := Reach.init initState_init
  have c1 : CanServe initState 992 := by
    refine ⟨by decide, Or.inr ?_⟩
    unfold Room
    decide
  have e1 : Returns (fun fuel => mymalloc fuel initState 992)
      (4104, (req_inc_size initState 1000).2) := ⟨0, fun fuel _ => rfl⟩
  have r1 := Reach.step r0 (Step.malloc (by decide) c1 e1)
  have c2 : CanServe (req_inc_size initState 1000).2 976 := by
    refine ⟨by decide, Or.inr ?_⟩
    unfold Room
    decide
  have e2 : Returns (fun fuel => mymalloc fuel (req_inc_size initState 1000).2 976)
      (5104, (req_inc_size (req_inc_size initState 1000).2 984).2) := ⟨0, fun fuel _ => rfl⟩
  have r2 := Reach.step r1 (Step.malloc (by decide) c2 e2)
  have l2 : lseg (req_inc_size (req_inc_size initState 1000).2 984).2.mem
      (req_inc_size (req_inc_size initState 1000).2 984).2.head [] := by
    show _ = 0
    decide
  have e3 : Returns (fun fuel => myfree fuel (req_inc_size (req_inc_size initState 1000).2 984).2
      4104) joinState :=
    myfree_returns r2.has_inv (by decide) l2 rfl
  exact Reach.step r2 (Step.free (by decide) e3)

theorem joinState_list : lseg joinState.mem joinState.head [4104] := by
  refine ⟨by decide, by decide, ?_⟩
  show read64 joinState.mem 4104 = 0
  decide

theorem twoBlocks_reach : Reach twoBlocks [4128, 4104] := by
  have hl : lseg oneBlockState.mem oneBlockState.head [4128] := by decide
  have hc : CanServe oneBlockState 16 :=
    canServe_of_list [4128] 4128 (by decide) hl (by decide) (by decide)
  have hr : Returns (fun fuel => mymalloc fuel oneBlockState 16) (4128, twoBlocks) :=
    mymalloc_returns oneBlockState_reach.has_inv (by decide) hc hl rfl
  exact Reach.step oneBlockState_reach (Step.malloc (by decide) hc hr)

theorem threeBlocks_reach : Reach threeBlocks [4152, 4128, 4104] := by
  have hl : lseg twoBlocks.mem twoBlocks.head [4152] := by decide
  have hc : CanServe twoBlocks 16 :=
    canServe_of_list [4152] 4152 (by decide) hl (by decide) (by decide)
  have hr : Returns (fun fuel => mymalloc fuel twoBlocks 16) (4152, threeBlocks) :=
    mymalloc_returns twoBlocks_reach.has_inv (by decide) hc hl rfl
  exact Reach.step twoBlocks_reach (Step.malloc (by decide) hc hr)

theorem fourBlocks_reach : Reach fourBlocks [4176, 4152, 4128, 4104] := by
  have hl : lseg threeBlocks.mem threeBlocks.head [4176] := by decide
  have hc : CanServe threeBlocks 16 :=
    canServe_of_list [4176] 4176 (by decide) hl (by decide) (by decide)
  have hr : Returns (fun fuel => mymalloc fuel threeBlocks 16) (4176, fourBlocks) :=
    mymalloc_returns threeBlocks_reach.has_inv (by decide) hc hl rfl
  exact Reach.step threeBlocks_reach (Step.malloc (by decide) hc hr)

theorem rowState_reach : Reach rowState [4176, 4152, 4128] := by
  have hl : lseg fourBlocks.mem fourBlocks.head [4200] := by decide
  have hr : Returns (fun fuel => myfree fuel fourBlocks 4104) rowState :=
    myfree_returns fourBlocks_reach.has_inv (by decide) hl rfl
  exact Reach.step fourBlocks_reach (Step.free (by decide) hr)

/-- One `myfree` on a live block: the heap stays well formed, the other live
blocks are untouched, the break does not rise, and the freed block lies inside
one free block or above the break. -/
theorem myfree_held {s s' : State} {base : Nat} {live free : List Nat}
    (h : WF s base live free) (hna : NoAdj s.mem free) {p : Nat} (hp : p ∈ live)
    (hf : Returns (fun fuel => myfree fuel s p) s') :
    ∃ free', WF s' base (live.erase p) free' ∧ NoAdj s'.mem free'
      ∧ (∀ q ∈ live, q ≠ p → GET_SIZE s'.mem q = GET_SIZE s.mem q)
      ∧ Held s' free' p (p + GET_SIZE s.mem p)
      ∧ ∀ a e, Held s free a e → Held s' free' a e := by
  obtain ⟨s1, free', hrun, hw, hna', _, hsame, hbrk, hcov, _⟩ := myfree_spec h hna hp
  have e1 := hf.unique _ hrun
  subst e1
  refine ⟨free', hw, hna', ?_, ?_, ?_⟩
  · intro q hq hne
    have hb := h.bounds (List.mem_append_left _ hq)
    exact (hsame q hq hne).size hb.1 (by omega) (by omega)
  · exact hcov p (List.mem_cons_self _ _)
  · intro a e ha
    rcases ha with ⟨r, hr, h1, h2⟩ | ha
    · rcases hcov r (List.mem_cons_of_mem _ hr) with ⟨r', hr', h3, h4⟩ | h3
      · exact Or.inl ⟨r', hr', by omega, by omega⟩
      · exact Or.inr (by omega)
    · exact Or.inr (by omega)

/-- Two ranges that follow each other and lie each inside a free block lie
inside the same free block, when no two free blocks are adjacent. -/
theorem cover_join {s : State} {base : Nat} {live free : List Nat} (h : WF s base live free)
    (hna : NoAdj s.mem free) {a b e r r' : Nat} (hr : r ∈ free) (hr' : r' ∈ free)
    (hab : a < b) (hbe : b < e) (h1 : r ≤ a) (h2 : b ≤ r + GET_SIZE s.mem r)
    (h3 : r' ≤ b) (h4 : e ≤ r' + GET_SIZE s.mem r') : r = r' := by
  by_contra hne
  have hd := h.disj r (List.mem_append_right _ hr) r' (List.mem_append_right _ hr') hne
  have ha := hna r hr r' hr'
  omega

theorem storedState_reach : Reach storedState [4104] := by
  refine Reach.store oneBlockState_reach (by decide : 4104 ∈ [4104]) ?_
  intro x hx
  have e : GET_SIZE oneBlockState.mem 4104 = 24 := by decide
  rw [e] at hx
  have hne : x ≠ 4104 := by omega
  simp only [if_neg hne]

theorem storedState_canServe : CanServe storedState 10 := by
  refine ⟨by decide, Or.inr ?_⟩
  unfold Room
  decide

theorem bigState_reach : Reach bigState [4104] := by
  have c1 : CanServe initState 992 := by
    refine ⟨by decide, Or.inr ?_⟩
    unfold Room
    decide
  have e1 : Returns (fun fuel => mymalloc fuel initState 992) (4104, bigState) :=
    ⟨0, fun fuel _ => rfl⟩
  exact Reach.step (Reach.init initState_init) (Step.malloc (by decide) c1 e1)

theorem tightInit_init : Init tightInit := by
  unfold Init tightInit initState
  decide

theorem tightState_reach : Reach tightState [4104] := by
  have c1 : CanServe tightInit 976 := by
    refine ⟨by decide, Or.inr ?_⟩
    unfold Room
    decide
  have e1 : Returns (fun fuel => mymalloc fuel tightInit 976) (4104, tightState) :=
    ⟨0, fun fuel _ => rfl⟩
  exact Reach.step (Reach.init tightInit_init) (Step.malloc (by decide) c1 e1)

theorem oneBlockState_wf : WF oneBlockState 4096 [4104] [4128] := by
  obtain ⟨p, s', free', hrun, hw, _⟩ :=
    mymalloc_spec initState_wf 10 (by decide) (by decide)
      (Or.inr (initState_room 10 (by decide) (by decide)))
  have e : mymalloc 1 initState 10 = some (4104, oneBlockState) := rfl
  rw [hrun 1 (by decide)] at e
  obtain ⟨e1, e2⟩ := Prod.mk.inj (Option.some.inj e)
  subst e1 e2
  have e3 : free' = [4128] := lseg_unique hw.list oneBlockState_list
  rw [e3] at hw
  exact hw

theorem wideState_wf : WF wideState 4096 [4104] [] := by
  have hroom : Room initState (ALIGN_SIZE 1592 + 8) := by
    unfold Room
    decide
  obtain ⟨p, s', free', hrun, hw, _⟩ :=
    mymalloc_spec initState_wf 1592 (by decide) (by decide) (Or.inr hroom)
  have e : mymalloc 1 initState 1592 = some (4104, wideState) := rfl
  rw [hrun 1 (by decide)] at e
  obtain ⟨e1, e2⟩ := Prod.mk.inj (Option.some.inj e)
  subst e1 e2
  have hl : lseg wideState.mem wideState.head [] := by decide
  have e3 : free' = [] := lseg_unique hw.list hl
  rw [e3] at hw
  exact hw

theorem topState_wf : WF topState 4096 [] [4104] := by
  have h := wideState_wf.push (List.mem_cons_self 4104 [])
  rw [List.erase_cons_head] at h
  exact h

/-- The free list after `split` has cut `n >= 8` bytes off a live block. -/
theorem WF.cut_list {s : State} {base : Nat} {live free : List Nat} (h : WF s base live free)
    {p n : Nat} (hp : p ∈ live) (hn : 8 ≤ n) (hsz : n + 16 ≤ GET_SIZE s.mem p) :
    lseg (splitAt s p n).mem (splitAt s p n).head ((p + n) :: free) := by
  have hpm : p ∈ live ++ free := List.mem_append_left _ hp
  have hpb := h.bounds hpm
  have hsame : ∀ q ∈ live ++ free, q ≠ p → SameBlock s.mem (splitAt s p n).mem q := by
    intro q hq hne
    refine h.sameBlock_of_inside hpm hq hne ?_
    intro x hx hnx
    exact splitAt_out s p n x (by omega) (by omega) (by omega) hx (by omega)
  refine ⟨rfl, by omega, ?_⟩
  rw [splitAt_link s p n (by omega) h.head_lt]
  refine lseg_congr ?_ h.list
  intro x hx
  have hxm : x ∈ live ++ free := List.mem_append_right _ hx
  have hne : x ≠ p := by
    intro e
    subst e
    exact (List.nodup_append.1 h.nodup).2.2 hp hx
  have hxb := h.bounds hxm
  exact (hsame x hxm hne).link (by omega) (by omega)

/-- What `shrink_heap` does when it finds a block to give back and the
boundary primitive refuses the new break: the block stays unlinked. -/
theorem shrink_heap_stuck {s : State} {base : Nat} {live A B : List Nat} {x : Nat}
    (h : WF s base live (A ++ x :: B)) (h1 : 1024 ≤ GET_SIZE s.mem x)
    (h2 : x + GET_SIZE s.mem x = s.brk + 8) (m : Nat) (hm : x - 8 < m) (fuel : Nat)
    (hf : (A ++ x :: B).length < fuel) :
    shrink_heap fuel { s with brkMin := m } = some { unlinked s A x with brkMin := m } := by
  have hxm : x ∈ live ++ (A ++ x :: B) := by simp
  have hxb := h.bounds hxm
  have hx0 : x ≠ 0 := by omega
  have hs : (sbrk { s with brkMin := m } 0).1 = (sbrk s 0).1 := by simp [sbrk]
  unfold shrink_heap
  simp only [hs, scan_eq _ fuel 0 h.list hf]
  rw [scanList_first]
  · simp only [if_neg hx0]
    have e : (2 ^ 64 + x - OVER_HEAD) % 2 ^ 64 = x - 8 := by unfold OVER_HEAD; omega
    rw [e]
    have hu : (if lastOr A 0 = 0 then
          ({ s with brkMin := m, head := read64 s.mem s.head } : State)
        else { s with brkMin := m, mem := write64 s.mem (lastOr A 0) (read64 s.mem x) })
        = { unlinked s A x with brkMin := m } := by
      rw [← unlink_code_eq h.list]
      split_ifs <;> rfl
    rw [hu]
    unfold brk
    rw [if_neg (by
      intro hc
      have : m ≤ x - 8 := hc.1
      omega)]
  · intro a ha
    have ham : a ∈ A ++ x :: B := List.mem_append_left _ ha
    have hab := h.bounds (List.mem_append_right live ham)
    have hne : a ≠ x := by
      intro e
      subst e
      have hnd : (A ++ a :: B).Nodup := (List.nodup_append.1 h.nodup).2.1
      exact (List.nodup_append.1 hnd).2.2 ha (List.mem_cons_self _ _)
    have hdj := h.disj a (List.mem_append_right live ham) x hxm hne
    have := (shrink_stop h ham).not.2 (by omega)
    simpa using this
  · exact (shrink_stop h (by simp)).2 ⟨h1, h2⟩

/-- Three live blocks in a row, freed in any order and none of them given
back: the free list then has one block that covers the three ranges. -/
theorem three_frees_cover (s s1 s2 s3 : State) (L : List Nat) (A B C x1 x2 x3 : Nat)
    (hr : Reach s L) (hA : A ∈ L) (hB : B ∈ L) (hC : C ∈ L)
    (hAB : A + GET_SIZE s.mem A = B) (hBC : B + GET_SIZE s.mem B = C)
    (hperm : [x1, x2, x3].Perm [A, B, C])
    (h1 : Returns (fun fuel => myfree fuel s x1) s1)
    (h2 : Returns (fun fuel => myfree fuel s1 x2) s2)
    (h3 : Returns (fun fuel => myfree fuel s2 x3) s3)
    (hkeep : C + GET_SIZE s.mem C ≤ s3.brk + OVER_HEAD) :
    ∃ free r, lseg s3.mem s3.head free ∧ free.Nodup ∧ r ∈ free ∧ r ≤ A
      ∧ C + GET_SIZE s.mem C ≤ r + GET_SIZE s3.mem r
      ∧ GET_SIZE s.mem A + GET_SIZE s.mem B + GET_SIZE s.mem C ≤ GET_SIZE s3.mem r
      ∧ ∀ r' ∈ free, r' ≠ r →
          r' + GET_SIZE s3.mem r' ≤ r ∨ r + GET_SIZE s3.mem r ≤ r' := by
  obtain ⟨base, F0, h, hna, _⟩ := hr.has_inv
  have bA := h.bounds (List.mem_append_left _ hA)
  have bB := h.bounds (List.mem_append_left _ hB)
  have bC := h.bounds (List.mem_append_left _ hC)
  unfold OVER_HEAD at hkeep
  have hnd : [A, B, C].Nodup := by
    simp only [List.nodup_cons, List.mem_cons, List.mem_singleton, List.not_mem_nil,
      List.nodup_nil, not_or, not_false_eq_true, and_true]
    omega
  have hnd' : [x1, x2, x3].Nodup := hperm.nodup_iff.mpr hnd
  simp only [List.nodup_cons, List.mem_cons, List.mem_singleton, List.not_mem_nil,
    List.nodup_nil, not_or, not_false_eq_true, and_true] at hnd'
  obtain ⟨⟨n12, n13⟩, n23⟩ := hnd'
  have hm : ∀ x ∈ [x1, x2, x3], x ∈ L := by
    intro x hx
    have := hperm.mem_iff.mp hx
    simp only [List.mem_cons, List.mem_singleton, List.not_mem_nil, or_false] at this
    rcases this with e | e | e <;> rw [e] <;> assumption
  have hx1 : x1 ∈ L := hm x1 (by simp)
  have hx2 : x2 ∈ L := hm x2 (by simp)
  have hx3 : x3 ∈ L := hm x3 (by simp)
  obtain ⟨F1, w1, na1, sz1, hd1, hk1⟩ := myfree_held h hna hx1 h1
  have hx2' : x2 ∈ L.erase x1 := (List.mem_erase_of_ne (Ne.symm n12)).mpr hx2
  have hx3' : x3 ∈ L.erase x1 := (List.mem_erase_of_ne (Ne.symm n13)).mpr hx3
  obtain ⟨F2, w2, na2, sz2, hd2, hk2⟩ := myfree_held w1 na1 hx2' h2
  have hx3'' : x3 ∈ (L.erase x1).erase x2 := (List.mem_erase_of_ne (Ne.symm n23)).mpr hx3'
  obtain ⟨F3, w3, na3, sz3, hd3, hk3⟩ := myfree_held w2 na2 hx3'' h3
  have H1 : Held s3 F3 x1 (x1 + GET_SIZE s.mem x1) := hk3 _ _ (hk2 _ _ hd1)
  have H2 : Held s3 F3 x2 (x2 + GET_SIZE s.mem x2) := by
    have := hk3 _ _ hd2
    rwa [sz1 x2 hx2 (Ne.symm n12)] at this
  have H3 : Held s3 F3 x3 (x3 + GET_SIZE s.mem x3) := by
    have := hd3
    rwa [sz2 x3 hx3' (Ne.symm n23), sz1 x3 hx3 (Ne.symm n13)] at this
  have hall : ∀ X ∈ [A, B, C], Held s3 F3 X (X + GET_SIZE s.mem X) := by
    intro X hX
    have := hperm.mem_iff.mpr hX
    simp only [List.mem_cons, List.mem_singleton, List.not_mem_nil, or_false] at this
    rcases this with e | e | e <;> rw [e] <;> assumption
  have cA := hall A (by simp)
  have cB := hall B (by simp)
  have cC := hall C (by simp)
  rcases cA with ⟨rA, hrA, a1, a2⟩ | cA
  swap
  · omega
  rcases cB with ⟨rB, hrB, b1, b2⟩ | cB
  swap
  · omega
  rcases cC with ⟨rC, hrC, c1, c2⟩ | cC
  swap
  · omega
  have eAB : rA = rB :=
    cover_join w3 na3 hrA hrB (by omega : A < B) (by omega : B < B + GET_SIZE s.mem B)
      a1 (by omega) b1 b2
  have eBC : rB = rC :=
    cover_join w3 na3 hrB hrC (by omega : B < C) (by omega : C < C + GET_SIZE s.mem C)
      b1 (by omega) c1 c2
  subst eAB
  subst eBC
  refine ⟨F3, rA, w3.list, (List.nodup_append.mp w3.nodup).2.1, hrA, a1, c2, by omega, ?_⟩
  intro r' hr' hne
  exact w3.disj r' (List.mem_append_right _ hr') rA (List.mem_append_right _ hrA) hne

theorem oneBlockState_run : Run initState oneBlockState [4104] := by
  have hr : Returns (fun fuel => mymalloc fuel initState 10) (4104, oneBlockState) :=
    ⟨0, fun fuel _ => rfl⟩
  exact Run.step Run.init
    (Step.malloc (by decide) ⟨by decide, Or.inr (initState_room 10 (by decide) (by decide))⟩ hr)

/-- `mycalloc` sees only the product modulo `2 ^ 64`. -/
theorem mycalloc_mod (s : State) (fuel count size : Nat) :
    mycalloc fuel s count size = mycalloc fuel s (count * size % 2 ^ 64) 1 := by
  unfold mycalloc
  rw [Nat.mul_one, Nat.mod_mod]

/-! ## The claims -/

/-- C1, as stated, fails: a request of `2 ^ 64 - 1` bytes in the well-formed
state `initState` makes `align(size) + OVER_HEAD` wrap to `8`; the boundary
primitive succeeds, `mymalloc` returns the block `4104`, not `NULL`, with
recorded size `8`, so that its usable capacity `GET_SIZE(p) - OVER_HEAD` is
`0`, below the requested size. -/
theorem mymalloc_capacity_wraps :
    WF initState 4096 [] [] ∧ 0 < 2 ^ 64 - 1 ∧ 2 ^ 64 - 1 < 2 ^ 64
      ∧ ∃ r, mymalloc 0 initState (2 ^ 64 - 1) = some r ∧ r.1 = 4104 ∧ r.2.brk = 4096 + 992
        ∧ GET_SIZE r.2.mem r.1 = 8
        ∧ ¬ (2 ^ 64 - 1 ≤ (2 ^ 64 + GET_SIZE r.2.mem r.1 - OVER_HEAD) % 2 ^ 64) :=
  ⟨initState_wf, by decide, by decide, _, rfl, by decide, by decide, by decide, by decide⟩

/-- C1, amended: for every request `0 < size ≤ 2 ^ 64 - 16`, so that
`align(size) + OVER_HEAD` does not wrap, in a well-formed state where the
free list can serve the request or the boundary primitive grants the growth,
`mymalloc(size)` returns, with any fuel above the length of the free list, a
block that is not `NULL` and whose usable capacity `GET_SIZE(p) - OVER_HEAD`
is at least `size`. -/
theorem mymalloc_capacity (s : State) (base : Nat) (live free : List Nat) (size : Nat)
    (h : WF s base live free) (h0 : 0 < size) (hn : size + 16 ≤ 2 ^ 64)
    (hok : (∃ x ∈ free, ALIGN_SIZE size + 8 ≤ GET_SIZE s.mem x) ∨ Room s (ALIGN_SIZE size + 8)) :
    ∃ p s', (∀ fuel, free.length < fuel → mymalloc fuel s size = some (p, s'))
      ∧ p ≠ 0 ∧ size ≤ GET_SIZE s'.mem p - OVER_HEAD := by
  obtain ⟨p, s', free', hrun, hw, hge, _⟩ := mymalloc_spec h size h0 hn hok
  have hb := hw.bounds (List.mem_append_left free' (List.mem_cons_self p live))
  have := (target_bounds size h0 hn).2.1
  refine ⟨p, s', hrun, by omega, ?_⟩
  unfold OVER_HEAD
  omega

/-- Witness for `mymalloc_capacity`: a request of 10 bytes in `initState`. -/
theorem mymalloc_capacity_witness :
    ∃ p s', (∀ fuel, ([] : List Nat).length < fuel → mymalloc fuel initState 10 = some (p, s'))
      ∧ p ≠ 0 ∧ 10 ≤ GET_SIZE s'.mem p - OVER_HEAD :=
  mymalloc_capacity initState 4096 [] [] 10 initState_wf (by decide) (by decide)
    (Or.inr (initState_room 10 (by decide) (by decide)))

/-- C2, as stated, fails for a request of `2 ^ 63` bytes or more.  In the
reachable state `bigState` the block `4104` is live, with `1000` bytes.
`mymalloc(2 ^ 64 - 1000)` does not wrap (`2 ^ 64 - 992` bytes with the
header) and `sbrk` succeeds: it takes the size as the increment `-992`,
returns the old break `5096` and moves the break down to `4104`.  The next
call, `mymalloc(10)`, grows the arena from there, `sbrk` succeeds again, and
the header of its block `4112` is written at `4104`: the first byte of the
live block `4104`, `0` before, is `24`. -/
theorem huge_request_breaks_frame :
    Reach bigState [4104] ∧ GET_SIZE bigState.mem 4104 = 1000
      ∧ 2 ^ 64 - 1000 + 16 ≤ 2 ^ 64
      ∧ (ALIGN_SIZE (2 ^ 64 - 1000) + OVER_HEAD) % 2 ^ 64 = 2 ^ 64 - 1000 + OVER_HEAD
      ∧ (sbrk bigState (2 ^ 64 - 992)).1 = 5096 ∧ (sbrk bigState (2 ^ 64 - 992)).2.brk = 4104
      ∧ mymalloc 0 bigState (2 ^ 64 - 1000) = some (5104, hugeState)
      ∧ hugeState.mem (4104 + 0) = 0
      ∧ (sbrk hugeState BATCH_SIZE).1 = 4104
      ∧ mymalloc 0 hugeState 10 = some (4112, hugeA)
      ∧ 0 < GET_SIZE hugeState.mem 4104 - OVER_HEAD
      ∧ hugeA.mem (4104 + 0) = 24 ∧ hugeA.mem (4104 + 0) ≠ hugeState.mem (4104 + 0) :=
  ⟨bigState_reach, by decide, by decide, by decide, by decide, by decide, rfl, by decide,
    by decide, rfl, by decide, by decide, by decide⟩

/-- C2, amended: non-interference.  In a state reachable under valid usage, a
call of the public interface under valid usage that leaves the live block `p`
live (any call but `myfree(p)` and a `myrealloc(p, n)` that moves `p`) leaves
every byte `p[i]`, for `i` below the usable capacity of `p`, unchanged.
Valid usage (`Step`) includes that a request that has to grow the arena is
below `2 ^ 63`, header included, and that `myrealloc` is called on `NULL` or
a live block only. -/
theorem live_bytes_kept (s s' : State) (L L' : List Nat) (p i : Nat) (hr : Reach s L)
    (hs : Step s L s' L') (hp : p ∈ L) (hp' : p ∈ L')
    (hi : i < GET_SIZE s.mem p - OVER_HEAD) : s'.mem (p + i) = s.mem (p + i) := by
  have hsame := (hs.keeps_inv hr.has_inv).2 p hp hp'
  unfold OVER_HEAD at hi
  exact hsame (p + i) (by omega) (by omega)

/-- Witness for `live_bytes_kept`: after `mymalloc(10)` in `initState` the
client stores `7` in the first byte of its block `4104`; a second
`mymalloc(10)` leaves that byte as it is. -/
theorem live_bytes_kept_witness :
    ∃ p2 s2, Reach storedState [4104] ∧ Step storedState [4104] s2 [p2, 4104]
      ∧ 0 < GET_SIZE storedState.mem 4104 - OVER_HEAD
      ∧ storedState.mem (4104 + 0) = 7
      ∧ s2.mem (4104 + 0) = storedState.mem (4104 + 0) := by
  obtain ⟨p2, s2, _, hs⟩ :=
    Step.malloc_returns storedState_reach.has_inv (by decide : 0 < 10) storedState_canServe
  exact ⟨p2, s2, storedState_reach, hs, by decide, by decide,
    live_bytes_kept storedState s2 [4104] [p2, 4104] 4104 0 storedState_reach hs
      (by decide) (by simp) (by decide)⟩

/-- C3: in every state, with any fuel, `mymalloc(0)` returns the address of
the global `empty`, which is not `NULL`, and leaves the state, hence the free
list and the break, unchanged. -/
theorem mymalloc_zero_sentinel (s : State) (fuel : Nat) (he : s.emptyAddr ≠ 0) :
    ∃ p s', mymalloc fuel s 0 = some (p, s') ∧ p = s.emptyAddr ∧ p ≠ 0 ∧ s' = s
      ∧ s'.head = s.head ∧ s'.brk = s.brk :=
  ⟨s.emptyAddr, s, mymalloc_zero_eq s fuel, rfl, he, rfl, rfl, rfl⟩

/-- Witness for `mymalloc_zero_sentinel`: the state `initState`. -/
theorem mymalloc_zero_sentinel_witness :
    initState.emptyAddr ≠ 0 ∧ ∃ p s', mymalloc 0 initState 0 = some (p, s') ∧ p = initState.emptyAddr
      ∧ p ≠ 0 ∧ s' = initState ∧ s'.head = initState.head ∧ s'.brk = initState.brk :=
  ⟨by decide, mymalloc_zero_sentinel initState 0 (by decide)⟩

/-- C4, as stated, fails after a request of `2 ^ 63` bytes or more.  From the
reachable state `bigState`, `mymalloc(2 ^ 64 - 1000)` (no wrap, `sbrk`
succeeds) leaves the break inside the live block `4104`; `a`, `b`, `c`
`= mymalloc(10)` are then carved out of that block's payload; after
`myfree(b)` the client stores `48` at offset `24` of its live block `4104`,
which is the header of the free block `b`; `myfree(a)` then returns with the
free list `[4112, 4184]`, and `4112 + GET_SIZE(4112) == 4184`. -/
theorem huge_request_leaves_adjacent :
    Reach bigState [4104] ∧ 2 ^ 64 - 1000 + 16 ≤ 2 ^ 64
      ∧ (sbrk bigState (2 ^ 64 - 992)).1 = 5096
      ∧ mymalloc 0 bigState (2 ^ 64 - 1000) = some (5104, hugeState)
      ∧ mymalloc 1 hugeState 10 = some (4112, hugeA)
      ∧ mymalloc 2 hugeA 10 = some (4136, hugeB)
      ∧ mymalloc 2 hugeB 10 = some (4160, hugeC)
      ∧ (∃ s, myfree 6 hugeC 4136 = some s
          ∧ hugeStored = { s with mem := fun x => if x = 4128 then 48 else s.mem x }
          ∧ 4128 = 4104 + 24 ∧ 24 < GET_SIZE s.mem 4104 - OVER_HEAD)
      ∧ ∃ s', myfree 6 hugeStored 4112 = some s' ∧ lseg s'.mem s'.head [4112, 4184]
          ∧ 4112 + GET_SIZE s'.mem 4112 = 4184 :=
  ⟨bigState_reach, by decide, by decide, rfl, rfl, rfl, rfl,
    ⟨_, rfl, rfl, by decide, by decide⟩, _, rfl, by decide, by decide⟩

/-- C4, amended: the coalescing invariant.  In a state reachable under valid
usage, where a request that has to grow the arena is below `2 ^ 63`, header
included, and `myrealloc` is called on `NULL` or a live block only, a call
of `myfree` on a live block, on `NULL` or on the address of `empty` returns,
and when it has returned the free list, as it lies in memory, has no two
blocks `X`, `Y` with `X + GET_SIZE(X) == Y`. -/
theorem free_coalesced (s : State) (L : List Nat) (q : Nat) (hr : Reach s L)
    (hq : q ∈ L ∨ q = 0 ∨ q = s.emptyAddr) :
    (∃ s', Returns (fun fuel => myfree fuel s q) s')
      ∧ ∀ s', Returns (fun fuel => myfree fuel s q) s' →
        ∃ free, lseg s'.mem s'.head free
          ∧ ∀ X ∈ free, ∀ Y ∈ free, X + GET_SIZE s'.mem X ≠ Y := by
  have hinv := hr.has_inv
  constructor
  · rcases hq with hq | hq
    · obtain ⟨s', hr', _⟩ := Step.free_returns hinv hq
      exact ⟨s', hr'⟩
    · exact ⟨s, 0, fun fuel _ => myfree_none s q fuel hq⟩
  · intro s' hf
    have hs : ∃ L', Step s L s' L' := by
      rcases hq with hq | hq
      · exact ⟨_, Step.free hq hf⟩
      · exact ⟨_, Step.free_none hq hf⟩
    obtain ⟨L', hs⟩ := hs
    obtain ⟨base, free, h, hna, _⟩ := (hs.keeps_inv hinv).1
    exact ⟨free, h.list, hna⟩

/-- Witness for `free_coalesced`: `myfree(4104)` after `mymalloc(10)` in
`initState`. -/
theorem free_coalesced_witness :
    Reach oneBlockState [4104] ∧ 4104 ∈ [4104]
      ∧ (∃ s', Returns (fun fuel => myfree fuel oneBlockState 4104) s')
      ∧ ∀ s', Returns (fun fuel => myfree fuel oneBlockState 4104) s' →
        ∃ free, lseg s'.mem s'.head free
          ∧ ∀ X ∈ free, ∀ Y ∈ free, X + GET_SIZE s'.mem X ≠ Y :=
  ⟨oneBlockState_reach, by decide,
    free_coalesced oneBlockState [4104] 4104 oneBlockState_reach (Or.inl (by decide))⟩

/-- C5, as stated, fails: in the reachable state `rowState` the live blocks
`A = 4128`, `B = 4152`, `C = 4176` lie in a row; after `myfree(A)`,
`myfree(B)`, `myfree(C)` the arena boundary has not moved and the free list
is the one block `4104` of recorded size `992`: the block that covers the
three ranges starts at the free block that lay below `A`, not at `A`. -/
theorem three_frees_start_below :
    ∃ s1 s2 s3, Reach rowState [4176, 4152, 4128]
      ∧ 4128 + GET_SIZE rowState.mem 4128 = 4152 ∧ 4152 + GET_SIZE rowState.mem 4152 = 4176
      ∧ GET_SIZE rowState.mem 4176 = 24
      ∧ Returns (fun fuel => myfree fuel rowState 4128) s1
      ∧ Returns (fun fuel => myfree fuel s1 4152) s2
      ∧ Returns (fun fuel => myfree fuel s2 4176) s3
      ∧ s3.brk = rowState.brk
      ∧ lseg s3.mem s3.head [4104] ∧ GET_SIZE s3.mem 4104 = 992 ∧ 4128 ∉ [4104] := by
  have l0 : lseg rowState.mem rowState.head [4104, 4200] := by decide
  have e1 : ∃ s1, myfree (2 * [4104, 4200].length + 4) rowState 4128 = some s1
      ∧ lseg s1.mem s1.head [4104, 4200] := ⟨_, rfl, by decide⟩
  obtain ⟨s1, e1, l1⟩ := e1
  have f1 := myfree_returns rowState_reach.has_inv (by decide) l0 e1
  have r1 := Reach.step rowState_reach (Step.free (by decide) f1)
  have e2 : ∃ s2, myfree (2 * [4104, 4200].length + 4)
      ((myfree (2 * [4104, 4200].length + 4) rowState 4128).getD initState) 4152 = some s2
      ∧ lseg s2.mem s2.head [4104, 4200] := ⟨_, rfl, by decide⟩
  rw [e1] at e2
  simp only [Option.getD_some] at e2
  obtain ⟨s2, e2, l2⟩ := e2
  have f2 := myfree_returns r1.has_inv (by decide) l1 e2
  have r2 := Reach.step r1 (Step.free (by decide) f2)
  have e3 : ∃ s3, myfree (2 * [4104, 4200].length + 4)
      ((myfree (2 * [4104, 4200].length + 4)
        ((myfree (2 * [4104, 4200].length + 4) rowState 4128).getD initState) 4152).getD
          initState) 4176 = some s3
      ∧ s3.brk = rowState.brk ∧ lseg s3.mem s3.head [4104] ∧ GET_SIZE s3.mem 4104 = 992 :=
    ⟨_, rfl, by decide, by decide, by decide⟩
  rw [e1] at e3
  simp only [Option.getD_some] at e3
  rw [e2] at e3
  simp only [Option.getD_some] at e3
  obtain ⟨s3, e3, hb, l3, hs3⟩ := e3
  have f3 := myfree_returns r2.has_inv (by decide) l2 e3
  exact ⟨s1, s2, s3, rowState_reach, by decide, by decide, by decide, f1, f2, f3, hb, l3, hs3,
    by decide⟩

/-- C5, amended: in a state reachable under valid usage let the live blocks
`A`, `B`, `C` lie in a row (the end of `A` is the start of `B`, the end of `B`
the start of `C`), and let `myfree` be called on them in any of the six
orders with no other call in between.  The three calls return; and if the
arena boundary afterwards still lies at or above the end of `C` (none of the
three was given back), the free list has a block `r` that starts at or below
`A` and ends at or above the end of `C`, so its recorded size is at least the
sum of the three sizes, and every other block of the free list lies wholly
below or wholly above `r`. -/
theorem three_frees_coalesce (s : State) (L : List Nat) (A B C x1 x2 x3 : Nat)
    (hr : Reach s L) (hA : A ∈ L) (hB : B ∈ L) (hC : C ∈ L)
    (hAB : A + GET_SIZE s.mem A = B) (hBC : B + GET_SIZE s.mem B = C)
    (hperm : [x1, x2, x3].Perm [A, B, C]) :
    ∃ s1 s2 s3, Returns (fun fuel => myfree fuel s x1) s1
      ∧ Returns (fun fuel => myfree fuel s1 x2) s2
      ∧ Returns (fun fuel => myfree fuel s2 x3) s3
      ∧ (C + GET_SIZE s.mem C ≤ s3.brk + OVER_HEAD →
          ∃ free r, lseg s3.mem s3.head free ∧ free.Nodup ∧ r ∈ free ∧ r ≤ A
            ∧ C + GET_SIZE s.mem C ≤ r + GET_SIZE s3.mem r
            ∧ GET_SIZE s.mem A + GET_SIZE s.mem B + GET_SIZE s.mem C ≤ GET_SIZE s3.mem r
            ∧ ∀ r' ∈ free, r' ≠ r →
                r' + GET_SIZE s3.mem r' ≤ r ∨ r + GET_SIZE s3.mem r ≤ r') := by
  obtain ⟨base, F0, h, _, _⟩ := hr.has_inv
  have bA := h.bounds (List.mem_append_left _ hA)
  have bB := h.bounds (List.mem_append_left _ hB)
  have hnd : [A, B, C].Nodup := by
    simp only [List.nodup_cons, List.mem_cons, List.mem_singleton, List.not_mem_nil,
      List.nodup_nil, not_or, not_false_eq_true, and_true]
    omega
  have hnd' : [x1, x2, x3].Nodup := hperm.nodup_iff.mpr hnd
  simp only [List.nodup_cons, List.mem_cons, List.mem_singleton, List.not_mem_nil,
    List.nodup_nil, not_or, not_false_eq_true, and_true] at hnd'
  obtain ⟨⟨n12, n13⟩, n23⟩ := hnd'
  have hm : ∀ x ∈ [x1, x2, x3], x ∈ L := by
    intro x hx
    have := hperm.mem_iff.mp hx
    simp only [List.mem_cons, List.mem_singleton, List.not_mem_nil, or_false] at this
    rcases this with e | e | e <;> rw [e] <;> assumption
  have hx1 : x1 ∈ L := hm x1 (by simp)
  have hx2 : x2 ∈ L.erase x1 := (List.mem_erase_of_ne (Ne.symm n12)).mpr (hm x2 (by simp))
  have hx3 : x3 ∈ (L.erase x1).erase x2 :=
    (List.mem_erase_of_ne (Ne.symm n23)).mpr
      ((List.mem_erase_of_ne (Ne.symm n13)).mpr (hm x3 (by simp)))
  obtain ⟨s1, f1, st1⟩ := Step.free_returns hr.has_inv hx1
  have r1 := Reach.step hr st1
  obtain ⟨s2, f2, st2⟩ := Step.free_returns r1.has_inv hx2
  have r2 := Reach.step r1 st2
  obtain ⟨s3, f3, _⟩ := Step.free_returns r2.has_inv hx3
  exact ⟨s1, s2, s3, f1, f2, f3, fun hkeep =>
    three_frees_cover s s1 s2 s3 L A B C x1 x2 x3 hr hA hB hC hAB hBC hperm f1 f2 f3 hkeep⟩

/-- Witness for `three_frees_coalesce`: the blocks `4128`, `4152`, `4176` of
`rowState`, freed in the order `B`, `C`, `A`. -/
theorem three_frees_coalesce_witness :
    ∃ s1 s2 s3, Returns (fun fuel => myfree fuel rowState 4152) s1
      ∧ Returns (fun fuel => myfree fuel s1 4176) s2
      ∧ Returns (fun fuel => myfree fuel s2 4128) s3
      ∧ (4176 + GET_SIZE rowState.mem 4176 ≤ s3.brk + OVER_HEAD →
          ∃ free r, lseg s3.mem s3.head free ∧ free.Nodup ∧ r ∈ free ∧ r ≤ 4128
            ∧ 4176 + GET_SIZE rowState.mem 4176 ≤ r + GET_SIZE s3.mem r
            ∧ GET_SIZE rowState.mem 4128 + GET_SIZE rowState.mem 4152
                + GET_SIZE rowState.mem 4176 ≤ GET_SIZE s3.mem r
            ∧ ∀ r' ∈ free, r' ≠ r →
                r' + GET_SIZE s3.mem r' ≤ r ∨ r + GET_SIZE s3.mem r ≤ r') :=
  three_frees_coalesce rowState [4176, 4152, 4128] 4128 4152 4176 4152 4176 4128
    rowState_reach (by decide) (by decide) (by decide) (by decide) (by decide) (by decide)

/-- C6, as stated, fails: in the reachable state `joinState` the live block
`5104` has the recorded size `992`, below `MIN_UNMAP_SIZE`, and yet
`myfree(5104)` moves the arena boundary from `6088` down to `4096`: `merge`
joins the block to the free block `4104` just below it before `shrink_heap`
looks at the sizes. -/
theorem myfree_small_moves_boundary :
    ∃ s', Reach joinState [5104] ∧ GET_SIZE joinState.mem 5104 = 992
      ∧ 992 < MIN_UNMAP_SIZE ∧ joinState.brk = 6088
      ∧ Returns (fun fuel => myfree fuel joinState 5104) s' ∧ s'.brk = 4096
      ∧ s'.brk ≠ joinState.brk := by
  have e : ∃ s', myfree (2 * [4104].length + 4) joinState 5104 = some s' ∧ s'.brk = 4096 := by
    refine ⟨_, rfl, ?_⟩
    decide
  obtain ⟨s', he, hb⟩ := e
  exact ⟨s', joinState_reach, by decide, by decide, by decide,
    myfree_returns joinState_reach.has_inv (by decide) joinState_list he, hb, by rw [hb]; decide⟩

/-- C6, amended: in a reachable state with free list `free`, `myfree(p)` on a
live block `p` leaves the arena boundary unchanged when the block that `merge`
makes of `p`, of the free block that starts at the end of `p` and of the free
block that ends at the start of `p` (each if there is one) has a recorded size
below `MIN_UNMAP_SIZE` or does not end at the arena boundary. -/
theorem myfree_keeps_boundary (s s' : State) (L free : List Nat) (p : Nat) (hr : Reach s L)
    (hp : p ∈ L) (hl : lseg s.mem s.head free)
    (h1 : GET_SIZE s.mem p
        + (if p + GET_SIZE s.mem p ∈ free then GET_SIZE s.mem (p + GET_SIZE s.mem p) else 0)
        < MIN_UNMAP_SIZE
      ∨ p + GET_SIZE s.mem p
        + (if p + GET_SIZE s.mem p ∈ free then GET_SIZE s.mem (p + GET_SIZE s.mem p) else 0)
        ≠ s.brk + OVER_HEAD)
    (h2 : ∀ Q ∈ free, Q + GET_SIZE s.mem Q = p →
      GET_SIZE s.mem Q + GET_SIZE s.mem p
        + (if p + GET_SIZE s.mem p ∈ free then GET_SIZE s.mem (p + GET_SIZE s.mem p) else 0)
        < MIN_UNMAP_SIZE
      ∨ p + GET_SIZE s.mem p
        + (if p + GET_SIZE s.mem p ∈ free then GET_SIZE s.mem (p + GET_SIZE s.mem p) else 0)
        ≠ s.brk + OVER_HEAD)
    (hf : Returns (fun fuel => myfree fuel s p) s') : s'.brk = s.brk := by
  obtain ⟨base, free0, h, hna, hnt⟩ := hr.has_inv
  have e : free0 = free := lseg_unique h.list hl
  subst e
  obtain ⟨s1, free1, hrun, _, _, _, _, _, _, _, hkeep, _⟩ := myfree_spec h hna hp
  have e1 := hf.unique _ hrun
  subst e1
  exact hkeep hnt h1 h2

/-- Witness for `myfree_keeps_boundary`: `myfree(4104)` after `mymalloc(10)`
in `initState`; the block joins the remainder of the batch to a block of
`992` bytes. -/
theorem myfree_keeps_boundary_witness :
    ∃ s', Reach oneBlockState [4104] ∧ 4104 ∈ [4104]
      ∧ lseg oneBlockState.mem oneBlockState.head [4128]
      ∧ Returns (fun fuel => myfree fuel oneBlockState 4104) s'
      ∧ s'.brk = oneBlockState.brk := by
  obtain ⟨s', hf, _⟩ := Step.free_returns oneBlockState_reach.has_inv
    (by decide : 4104 ∈ [4104])
  exact ⟨s', oneBlockState_reach, by decide, oneBlockState_list, hf,
    myfree_keeps_boundary oneBlockState s' [4104] [4128] 4104 oneBlockState_reach (by decide)
      oneBlockState_list (by decide) (by decide) hf⟩

/-- C7: batched growth.  With an empty free list, for a request `n > 0` with
`align(n) + OVER_HEAD ≤ BATCH_SIZE - 16` and room for one batch, `mymalloc(n)`
returns, with any fuel, the block at the old break; the break has moved up by
exactly `BATCH_SIZE`; the block has recorded size `align(n) + OVER_HEAD`; and
the free list is exactly one block, the remainder, which starts right after
the served block and has recorded size `BATCH_SIZE - (align(n) + OVER_HEAD)`. -/
theorem mymalloc_batch (s : State) (n : Nat) (hh : s.head = 0) (h0 : 0 < n)
    (hn : ALIGN_SIZE n + OVER_HEAD ≤ BATCH_SIZE - 16)
    (hroom : s.brk + BATCH_SIZE ≤ s.brkMax) (hmax : s.brkMax + 8 < 2 ^ 64) :
    ∃ s', (∀ fuel, mymalloc fuel s n = some (s.brk + 8, s'))
      ∧ s'.brk = s.brk + BATCH_SIZE
      ∧ GET_SIZE s'.mem (s.brk + 8) = ALIGN_SIZE n + OVER_HEAD
      ∧ s'.head = s.brk + 8 + (ALIGN_SIZE n + OVER_HEAD)
      ∧ lseg s'.mem s'.head [s'.head]
      ∧ GET_SIZE s'.mem s'.head = BATCH_SIZE - (ALIGN_SIZE n + OVER_HEAD) := by
  unfold BATCH_SIZE ALLOC_SIZE OVER_HEAD at *
  have h8 : 8 ≤ ALIGN_SIZE n + 4 * 2 := by omega
  have hmod : (ALIGN_SIZE n + 4 * 2) % 2 ^ 64 = ALIGN_SIZE n + 8 := by omega
  have hgs : GET_SIZE (grown s 992).mem (s.brk + 8) = 992 := grown_size s 992 (by omega) (by norm_num)
  have hsp : split (grown s 992) (s.brk + 8) (ALIGN_SIZE n + 8)
      = (s.brk + 8, splitAt (grown s 992) (s.brk + 8) (ALIGN_SIZE n + 8)) :=
    split_big _ _ _ (by omega) (by omega) (by rw [hgs]; omega) (by rw [hgs]; omega)
  have hL := splitAt_size_left (grown s 992) (s.brk + 8) (ALIGN_SIZE n + 8) (by omega) (by omega)
    (by omega)
  have hR := splitAt_size_right (grown s 992) (s.brk + 8) (ALIGN_SIZE n + 8) (by omega) (by omega)
    (by omega)
  have hK := splitAt_link (grown s 992) (s.brk + 8) (ALIGN_SIZE n + 8) (by omega)
    (by show s.head < 2 ^ 64; omega)
  rw [hgs] at hR
  refine ⟨splitAt (grown s 992) (s.brk + 8) (ALIGN_SIZE n + 8), ?_, rfl, ?_, rfl, ?_, ?_⟩
  · intro fuel
    unfold mymalloc OVER_HEAD
    simp only [if_neg (by omega : ¬ n = 0), hmod, if_pos hh]
    rw [req_inc_size_batch s _ (by omega) (by omega) hmax, hsp]
  · exact hL
  · refine ⟨rfl, ?_, ?_⟩
    · show s.brk + 8 + (ALIGN_SIZE n + 8) ≠ 0
      omega
    · show lseg _ (read64 _ (s.brk + 8 + (ALIGN_SIZE n + 8))) []
      rw [hK]
      exact hh
  · exact hR

/-- Witness for `mymalloc_batch`: `n = 10` in `initState` serves 24 bytes and
leaves a remainder of 968 bytes. -/
theorem mymalloc_batch_witness :
    ALIGN_SIZE 10 + OVER_HEAD = 24 ∧ BATCH_SIZE - (ALIGN_SIZE 10 + OVER_HEAD) = 968
      ∧ ∃ s', (∀ fuel, mymalloc fuel initState 10 = some (initState.brk + 8, s'))
        ∧ s'.brk = initState.brk + BATCH_SIZE
        ∧ GET_SIZE s'.mem (initState.brk + 8) = ALIGN_SIZE 10 + OVER_HEAD
        ∧ s'.head = initState.brk + 8 + (ALIGN_SIZE 10 + OVER_HEAD)
        ∧ lseg s'.mem s'.head [s'.head]
        ∧ GET_SIZE s'.mem s'.head = BATCH_SIZE - (ALIGN_SIZE 10 + OVER_HEAD) :=
  ⟨by decide, by decide,
    mymalloc_batch initState 10 (by decide) (by decide) (by decide) (by decide) (by decide)⟩

/-- C8: reuse.  From an initial state, for a request `n > 0` whose aligned
size does not wrap and with room for two growths of the arena, the calls
`p1 = mymalloc(n)`, `p2 = mymalloc(n)`, `myfree(p1)`, `p3 = mymalloc(n)` all
return, with any fuel of at least 8, and `p3 = p1`; the third `mymalloc` does
not move the break. -/
theorem reuse_after_free (s : State) (n : Nat) (hi : Init s) (h0 : 0 < n)
    (hn : n + 16 ≤ 2 ^ 64)
    (hroom : ALIGN_SIZE n + 8 < 2 ^ 63
      ∧ s.brk + 2 * max BATCH_SIZE (ALIGN_SIZE n + 8) ≤ s.brkMax) :
    ∃ p1 s1 p2 s2 s3 s4,
      (∀ fuel, 8 ≤ fuel →
        mymalloc fuel s n = some (p1, s1) ∧ mymalloc fuel s1 n = some (p2, s2)
          ∧ myfree fuel s2 p1 = some s3 ∧ mymalloc fuel s3 n = some (p1, s4))
      ∧ s4.brk = s3.brk := by
  have hw0 := hi.wf
  have hna0 : NoAdj s.mem [] := fun x hx => by simp at hx
  unfold BATCH_SIZE ALLOC_SIZE at hroom
  have hmx : max (8 * 124) (ALIGN_SIZE n + 8) = max 992 (ALIGN_SIZE n + 8) := rfl
  rw [hmx] at hroom
  have hR1 : Room s (ALIGN_SIZE n + 8) := by
    unfold Room BATCH_SIZE ALLOC_SIZE
    split_ifs <;> omega
  obtain ⟨p1, s1, free1, hrun1, hw1, hge1, _, hna1, hb1, _, hp1, _, hlen1, hmax1, hub1⟩ :=
    mymalloc_spec hw0 n h0 hn (Or.inr hR1)
  have hp1e : p1 = s.brk + 8 := hp1 (fun x hx => by simp at hx)
  have hR2 : Room s1 (ALIGN_SIZE n + 8) := by
    unfold Room BATCH_SIZE ALLOC_SIZE
    rw [hmax1]
    split_ifs <;> omega
  obtain ⟨p2, s2, free2, hrun2, hw2, _, hsame2, hna2, _, _, _, _, hlen2, _, _⟩ :=
    mymalloc_spec hw1 n h0 hn (Or.inr hR2)
  have hp1m : p1 ∈ [p1] := List.mem_cons_self _ _
  have hp1b1 := hw1.bounds (List.mem_append_left free1 hp1m)
  have hsz2 : GET_SIZE s2.mem p1 = GET_SIZE s1.mem p1 :=
    (hsame2 p1 hp1m).size (by omega) (by omega) (by omega)
  have hp1m2 : p1 ∈ [p2, p1] := by simp
  have hp2m2 : p2 ∈ [p2, p1] := by simp
  have hp2b := hw2.bounds (List.mem_append_left free2 hp2m2)
  have hne : p2 ≠ p1 := by
    have := hw2.nodup
    simp only [List.cons_append, List.nodup_cons, List.mem_cons, List.mem_append] at this
    intro e
    exact this.1 (Or.inl e)
  obtain ⟨s3, free3, hrun3, hw3, _, _, _, _, _, hhd3, _, hlen3⟩ :=
    myfree_spec hw2 (hna2 (hna1 hna0)) hp1m2
  obtain ⟨t3, ht3, hsz3⟩ := hhd3 (by
      intro q hq
      have := hw2.bounds (List.mem_append_right [p2, p1] hq)
      omega) ⟨p2, hp2m2, by omega⟩
  have hfit : ALIGN_SIZE n + 8 ≤ GET_SIZE s3.mem p1 := by omega
  obtain ⟨p3, s4, free4, hrun4, _, _, _, _, _, _, _, hfirst, _, _, _⟩ :=
    mymalloc_spec hw3 n h0 hn (Or.inl ⟨p1, by rw [ht3]; exact List.mem_cons_self _ _, hfit⟩)
  obtain ⟨e3, hb4⟩ := hfirst p1 t3 ht3 hfit
  subst e3
  refine ⟨p3, s1, p2, s2, s3, s4, ?_, hb4⟩
  intro fuel hf
  simp only [List.length_nil] at hlen1
  exact ⟨hrun1 fuel (by simp only [List.length_nil]; omega), hrun2 fuel (by omega),
    hrun3 fuel (by omega), hrun4 fuel (by omega)⟩

/-- Witness for `reuse_after_free`: `n = 16` in `initState`. -/
theorem reuse_after_free_witness :
    ∃ p1 s1 p2 s2 s3 s4,
      (∀ fuel, 8 ≤ fuel →
        mymalloc fuel initState 16 = some (p1, s1) ∧ mymalloc fuel s1 16 = some (p2, s2)
          ∧ myfree fuel s2 p1 = some s3 ∧ mymalloc fuel s3 16 = some (p1, s4))
      ∧ s4.brk = s3.brk :=
  reuse_after_free initState 16 initState_init (by decide) (by decide) (by decide)

/-- C9, as stated, fails: `count = 2 ^ 63 + 1` and `size = 2` have a product
above the largest `size_t` value, and `mycalloc` in `initState` does not fail:
it returns the block `4104`, not `NULL`, after moving the break and changing
the free list, as `mymalloc(2)` does. -/
theorem mycalloc_overflow_allocates :
    2 ^ 64 - 1 < (2 ^ 63 + 1) * 2
      ∧ ∃ r, mycalloc 0 initState (2 ^ 63 + 1) 2 = some r ∧ r.1 = 4104 ∧ r.1 ≠ 0
        ∧ r.2.brk ≠ initState.brk ∧ r.2.head ≠ initState.head :=
  ⟨by decide, _, rfl, by decide, by decide, by decide, by decide⟩

/-- C9, amended: `mycalloc` does not detect an overflowing product.  For every
count and size, also when the product exceeds the largest `size_t` value,
`mycalloc(count, size)` does what `mycalloc(w, 1)` does, `w` being the product
modulo `2 ^ 64`.  When `w` is `0` it returns the address of `empty`, not the
failure value, and leaves the state unchanged.  When `w > 0`, the aligned
size of `w` does not wrap and the request can be served, it returns the block
`p` that `mymalloc(w)` returns: not `NULL`, of usable capacity at least
`align(w)`, with its first `align(w)` payload bytes zero and no byte outside
the payload of `p` changed by the zero fill. -/
theorem mycalloc_wraps (s : State) (base : Nat) (live free : List Nat) (count size : Nat)
    (h : WF s base live free) :
    (∀ fuel, mycalloc fuel s count size = mycalloc fuel s (count * size % 2 ^ 64) 1)
      ∧ (count * size % 2 ^ 64 = 0 →
          ∀ fuel, mycalloc fuel s count size = some (s.emptyAddr, s))
      ∧ (0 < count * size % 2 ^ 64 → count * size % 2 ^ 64 + 16 ≤ 2 ^ 64 →
          ((∃ x ∈ free, ALIGN_SIZE (count * size % 2 ^ 64) + 8 ≤ GET_SIZE s.mem x)
            ∨ Room s (ALIGN_SIZE (count * size % 2 ^ 64) + 8)) →
          ∃ p s1 s',
            (∀ fuel, free.length < fuel →
              mymalloc fuel s (count * size % 2 ^ 64) = some (p, s1)
                ∧ mycalloc fuel s count size = some (p, s'))
            ∧ p ≠ 0
            ∧ ALIGN_SIZE (count * size % 2 ^ 64) ≤ GET_SIZE s'.mem p - OVER_HEAD
            ∧ (∀ i, i < ALIGN_SIZE (count * size % 2 ^ 64) → s'.mem (p + i) = 0)
            ∧ (∀ x, x < 2 ^ 64 → x < p ∨ p + (GET_SIZE s'.mem p - OVER_HEAD) ≤ x →
                s'.mem x = s1.mem x)) := by
  refine ⟨fun fuel => mycalloc_mod s fuel count size, ?_, ?_⟩
  · intro h0 fuel
    rw [mycalloc_mod, h0]
    exact mycalloc_zero s 0 1 fuel rfl h.empty_ne
  · intro h0 hn hok
    have e1 : count * size % 2 ^ 64 * 1 = count * size % 2 ^ 64 := Nat.mul_one _
    obtain ⟨p, s1, s', free', hrun, hw, hge, _, _, _, hz, hout, _, _⟩ :=
      mycalloc_spec h (count * size % 2 ^ 64) 1 (by rw [e1]; exact h0) (by rw [e1]; exact hn)
        (by rw [e1]; exact hok)
    rw [e1] at hrun hge hz
    have hb := hw.bounds (List.mem_append_left free' (List.mem_cons_self p live))
    refine ⟨p, s1, s', ?_, by omega, ?_, hz, ?_⟩
    · intro fuel hf
      rw [mycalloc_mod]
      exact hrun fuel hf
    · unfold OVER_HEAD
      omega
    · unfold OVER_HEAD
      exact hout

/-- Witness for `mycalloc_wraps`: `count = 2 ^ 63 + 1`, `size = 2` in
`initState`; the product overflows and wraps to `2`, and `mycalloc` returns a
block with `8` zero bytes. -/
theorem mycalloc_wraps_witness :
    2 ^ 64 - 1 < (2 ^ 63 + 1) * 2 ∧ (2 ^ 63 + 1) * 2 % 2 ^ 64 = 2
      ∧ ∃ p s1 s',
          (∀ fuel, ([] : List Nat).length < fuel →
            mymalloc fuel initState ((2 ^ 63 + 1) * 2 % 2 ^ 64) = some (p, s1)
              ∧ mycalloc fuel initState (2 ^ 63 + 1) 2 = some (p, s'))
          ∧ p ≠ 0
          ∧ ALIGN_SIZE ((2 ^ 63 + 1) * 2 % 2 ^ 64) ≤ GET_SIZE s'.mem p - OVER_HEAD
          ∧ (∀ i, i < ALIGN_SIZE ((2 ^ 63 + 1) * 2 % 2 ^ 64) → s'.mem (p + i) = 0)
          ∧ (∀ x, x < 2 ^ 64 → x < p ∨ p + (GET_SIZE s'.mem p - OVER_HEAD) ≤ x →
              s'.mem x = s1.mem x) :=
  ⟨by decide, by decide,
    (mycalloc_wraps initState 4096 [] [] (2 ^ 63 + 1) 2 initState_wf).2.2 (by decide)
      (by decide) (Or.inr (by unfold Room; decide))⟩

/-- C10: for every count and size whose product does not overflow, is not
zero and does not wrap when aligned, in a well-formed state where the free
list can serve the request or the boundary primitive grants the growth,
`mycalloc(count, size)` returns, with any fuel above the length of the free
list, the block `p` that `mymalloc(count * size)` returns; the block is not
`NULL`, its usable capacity is at least `align(count * size)`, its first
`align(count * size)` payload bytes are zero, and the zero fill changes no
byte outside the payload of `p`. -/
theorem mycalloc_zero_fill (s : State) (base : Nat) (live free : List Nat) (count size : Nat)
    (h : WF s base live free) (h0 : 0 < count * size) (hn : count * size + 16 ≤ 2 ^ 64)
    (hok : (∃ x ∈ free, ALIGN_SIZE (count * size) + 8 ≤ GET_SIZE s.mem x)
      ∨ Room s (ALIGN_SIZE (count * size) + 8)) :
    ∃ p s1 s',
      (∀ fuel, free.length < fuel →
        mymalloc fuel s (count * size) = some (p, s1)
          ∧ mycalloc fuel s count size = some (p, s'))
      ∧ p ≠ 0
      ∧ ALIGN_SIZE (count * size) ≤ GET_SIZE s'.mem p - OVER_HEAD
      ∧ (∀ i, i < ALIGN_SIZE (count * size) → s'.mem (p + i) = 0)
      ∧ (∀ x, x < 2 ^ 64 → x < p ∨ p + (GET_SIZE s'.mem p - OVER_HEAD) ≤ x →
          s'.mem x = s1.mem x) := by
  obtain ⟨p, s1, s', free', hrun, hw, hge, _, _, _, hz, hout, _, _⟩ :=
    mycalloc_spec h count size h0 hn hok
  have hb := hw.bounds (List.mem_append_left free' (List.mem_cons_self p live))
  refine ⟨p, s1, s', hrun, by omega, ?_, hz, ?_⟩
  · unfold OVER_HEAD
    omega
  · unfold OVER_HEAD
    exact hout

/-- Witness for `mycalloc_zero_fill`: `count = 3`, `size = 5` in `initState`. -/
theorem mycalloc_zero_fill_witness :
    ∃ p s1 s',
      (∀ fuel, ([] : List Nat).length < fuel →
        mymalloc fuel initState (3 * 5) = some (p, s1)
          ∧ mycalloc fuel initState 3 5 = some (p, s'))
      ∧ p ≠ 0
      ∧ ALIGN_SIZE (3 * 5) ≤ GET_SIZE s'.mem p - OVER_HEAD
      ∧ (∀ i, i < ALIGN_SIZE (3 * 5) → s'.mem (p + i) = 0)
      ∧ (∀ x, x < 2 ^ 64 → x < p ∨ p + (GET_SIZE s'.mem p - OVER_HEAD) ≤ x →
          s'.mem x = s1.mem x) :=
  mycalloc_zero_fill initState 4096 [] [] 3 5 initState_wf (by decide) (by decide)
    (Or.inr (initState_room (3 * 5) (by decide) (by decide)))

/-- C11: the code at the failing input.  In the reachable state `bigState` the
live block `4104` has the recorded size `1000`; `myrealloc(4104, 16)` has the
target `24`, and the remainder `976` is large enough to be a block.  The call
returns `4104` and leaves the whole state as it is: the recorded size stays
`1000`, the free list stays empty, and a following `mymalloc(16)` has to grow
the arena by a batch. -/
theorem myrealloc_shrink_keeps_block :
    Reach bigState [4104] ∧ GET_SIZE bigState.mem 4104 = 1000
      ∧ ALIGN_SIZE 16 + OVER_HEAD = 24 ∧ OVER_HEAD + 8 ≤ 1000 - 24
      ∧ (∀ fuel, myrealloc fuel bigState 4104 16 = some (4104, bigState))
      ∧ bigState.head = 0
      ∧ ∃ r, (∀ fuel, mymalloc fuel bigState 16 = some r) ∧ r.1 = 5104
        ∧ r.2.brk = bigState.brk + BATCH_SIZE :=
  ⟨bigState_reach, by decide, by decide, by decide, fun _ => rfl, by decide,
    _, fun _ => rfl, by decide, by decide⟩

/-- C13: the code at the failing input.  In the reachable state `tightState`
the free list is empty and `sbrk` fails.  `mymalloc(10)` does not return
`NULL`: it takes the failure value `(void *) -1` for the old break, returns
`7`, writes headers at the addresses `2 ^ 64 - 1` and `23` and makes `31` the
head of the free list.  `myrealloc(4104, 2000)` likewise returns `7`, and
pushes the old block `4104` on the free list. -/
theorem mymalloc_ignores_sbrk_failure :
    Reach tightState [4104] ∧ tightState.head = 0
      ∧ sbrk tightState BATCH_SIZE = (2 ^ 64 - 1, tightState)
      ∧ (∃ r, (∀ fuel, mymalloc fuel tightState 10 = some r) ∧ r.1 = 7 ∧ r.1 ≠ 0
          ∧ r.2.head = 31 ∧ r.2.mem (2 ^ 64 - 1) = 24 ∧ tightState.mem (2 ^ 64 - 1) = 0
          ∧ r.2.mem 23 = 200 ∧ tightState.mem 23 = 0)
      ∧ sbrk tightState 2016 = (2 ^ 64 - 1, tightState)
      ∧ ∃ r, myrealloc 6 tightState 4104 2000 = some r ∧ r.1 = 7 ∧ r.1 ≠ 0
          ∧ r.2.head = 4104 :=
  ⟨tightState_reach, by decide, rfl,
    ⟨_, fun _ => rfl, by decide, by decide, by decide, by decide, by decide, by decide,
      by decide⟩,
    rfl, _, rfl, by decide, by decide, by decide⟩

/-- C14, as stated, fails: in `stuckState` the free list is the one block
`4104`, of `1600` bytes, which ends at the break; `shrink_heap` selects it,
`brk` refuses the new break `4096`, and when `shrink_heap` returns the break
is unchanged but the free list is empty: the block has been dropped. -/
theorem shrink_heap_drops_block :
    lseg stuckState.mem stuckState.head [4104]
      ∧ MIN_UNMAP_SIZE ≤ GET_SIZE stuckState.mem 4104
      ∧ 4104 + GET_SIZE stuckState.mem 4104 - OVER_HEAD = stuckState.brk
      ∧ (brk stuckState (4104 - OVER_HEAD)).1 = -1
      ∧ ∃ s', shrink_heap 2 stuckState = some s' ∧ s'.brk = stuckState.brk
        ∧ lseg s'.mem s'.head [] ∧ 4104 ∉ ([] : List Nat) :=
  ⟨by decide, by decide, by decide, by decide, _, rfl, by decide, by decide, by decide⟩

/-- C14, amended: on a well-formed heap whose operating system refuses every
break below `m`, when `shrink_heap` selects the free block `x` (recorded size
at least `MIN_UNMAP_SIZE`, ending at the break) and `x - OVER_HEAD < m`, the
boundary primitive `brk` fails; `shrink_heap` returns with the break
unchanged and with the other free blocks in the list, in their order and
with their sizes, but the selected block has been unlinked and is not put
back: it is not a member of the free list any more. -/
theorem shrink_heap_failed_brk (s : State) (base : Nat) (live A B : List Nat) (x m fuel : Nat)
    (h : WF s base live (A ++ x :: B)) (h1 : MIN_UNMAP_SIZE ≤ GET_SIZE s.mem x)
    (h2 : x + GET_SIZE s.mem x - OVER_HEAD = s.brk) (hm : x - OVER_HEAD < m)
    (hf : (A ++ x :: B).length < fuel) :
    (brk { unlinked s A x with brkMin := m } (x - OVER_HEAD)).1 = -1
      ∧ ∃ s', shrink_heap fuel { s with brkMin := m } = some s' ∧ s'.brk = s.brk
        ∧ lseg s'.mem s'.head (A ++ B) ∧ x ∉ A ++ B
        ∧ (∀ q ∈ live ++ (A ++ B), GET_SIZE s'.mem q = GET_SIZE s.mem q) := by
  unfold MIN_UNMAP_SIZE at h1
  unfold OVER_HEAD at *
  have hxm : x ∈ live ++ (A ++ x :: B) := by simp
  have hxb := h.bounds hxm
  have hu := h.unlink
  have hsub : ∀ q ∈ live ++ (A ++ B), q ∈ live ++ (A ++ x :: B) := by
    intro q hq
    simp only [List.mem_append, List.mem_cons] at hq ⊢
    tauto
  refine ⟨?_, { unlinked s A x with brkMin := m },
    shrink_heap_stuck h h1 (by omega) m (by omega) fuel hf, unlinked_brk s A x, hu.list,
    hu.mem_live_not_free (List.mem_cons_self x live),
    fun q hq => h.unlinked_size (hsub q hq)⟩
  unfold brk
  rw [if_neg (by
    intro hc
    have : m ≤ x - 4 * 2 := hc.1
    omega)]

/-- Witness for `shrink_heap_failed_brk`: the state `topState`, whose free
list is the block `4104` of `1600` bytes at the top of the arena, with an
operating system that accepts no break below `5000`. -/
theorem shrink_heap_failed_brk_witness :
    (brk { unlinked topState [] 4104 with brkMin := 5000 } (4104 - OVER_HEAD)).1 = -1
      ∧ ∃ s', shrink_heap 2 { topState with brkMin := 5000 } = some s'
        ∧ s'.brk = topState.brk
        ∧ lseg s'.mem s'.head ([] ++ []) ∧ 4104 ∉ ([] : List Nat) ++ []
        ∧ (∀ q ∈ [] ++ ([] ++ []), GET_SIZE s'.mem q = GET_SIZE topState.mem q) :=
  shrink_heap_failed_brk topState 4096 [] [] [] 4104 5000 2 topState_wf (by decide)
    (by decide) (by decide) (by decide)

/-- C15: in every state and with any fuel, also with none, `myfree(NULL)` and
`myfree` of the value that `mymalloc(0)` returns give back the state as it
is: the memory, hence every header and link, the head of the free list and
the break are unchanged.  Neither `merge` nor `shrink_heap` runs: either of
them needs fuel to return. -/
theorem myfree_null_and_sentinel (s : State) (fuel : Nat) :
    myfree fuel s 0 = some s
      ∧ (∃ p, mymalloc fuel s 0 = some (p, s) ∧ myfree fuel s p = some s)
      ∧ myfree 0 s 0 = some s ∧ myfree 0 s s.emptyAddr = some s
      ∧ merge 0 s = none ∧ shrink_heap 0 s = none :=
  ⟨myfree_none s 0 fuel (Or.inl rfl),
    ⟨s.emptyAddr, mymalloc_zero_eq s fuel, myfree_none s s.emptyAddr fuel (Or.inr rfl)⟩,
    myfree_none s 0 0 (Or.inl rfl), myfree_none s s.emptyAddr 0 (Or.inr rfl), rfl, rfl⟩

/-- C16, as stated, fails for a size below `OVER_HEAD`: `mymalloc(2 ^ 64 - 8)`
passes the size `0` on.  In `bigState` the block `4104` has the recorded size
`1000 >= 0` and `1000 - 0 >= OVER_HEAD + 8`, yet after `split(4104, 0)` the
header at the cut point `4104 + 0` holds `0`, not `1000 - 0`: served block and
remainder share one header, and the two sizes add up to `0`. -/
theorem split_zero_loses_size :
    (ALIGN_SIZE (2 ^ 64 - 8) + OVER_HEAD) % 2 ^ 64 = 0
      ∧ GET_SIZE bigState.mem 4104 = 1000 ∧ OVER_HEAD + 8 ≤ 1000 - 0
      ∧ (split bigState 4104 0).1 = 4104
      ∧ (split bigState 4104 0).2.head = 4104 + 0
      ∧ GET_SIZE (split bigState 4104 0).2.mem (4104 + 0) = 0
      ∧ GET_SIZE (split bigState 4104 0).2.mem (4104 + 0) ≠ 1000 - 0
      ∧ GET_SIZE (split bigState 4104 0).2.mem 4104
          + GET_SIZE (split bigState 4104 0).2.mem (4104 + 0) ≠ 1000 :=
  ⟨by decide, by decide, by decide, by decide, by decide, by decide, by decide, by decide⟩

/-- C16, amended: `split(block, size)` on a block of recorded size `s >= size`, for a
size that includes the header (`size >= OVER_HEAD`, as in every call of the
program), a block that does not wrap around the address space and a `head`
that is a pointer.  The returned address is `block`.  If
`s - size < OVER_HEAD + 8` the state, hence the header and the free list, is
unchanged.  Otherwise `block` has the recorded size `size`, the remainder
`block + size` has the recorded size `s - size`, is the new head of the free
list and links to the old head, and the two sizes add up to `s`. -/
theorem split_serves_and_frees (s : State) (block size : Nat) (hb : 8 ≤ block)
    (he : block + GET_SIZE s.mem block ≤ 2 ^ 64) (h8 : OVER_HEAD ≤ size)
    (hle : size ≤ GET_SIZE s.mem block) (hh : s.head < 2 ^ 64) :
    (split s block size).1 = block
      ∧ (GET_SIZE s.mem block - size < OVER_HEAD + 8 → (split s block size).2 = s)
      ∧ (OVER_HEAD + 8 ≤ GET_SIZE s.mem block - size →
          GET_SIZE (split s block size).2.mem block = size
          ∧ GET_SIZE (split s block size).2.mem (block + size) = GET_SIZE s.mem block - size
          ∧ (split s block size).2.head = block + size
          ∧ read64 (split s block size).2.mem (block + size) = s.head
          ∧ GET_SIZE (split s block size).2.mem block
              + GET_SIZE (split s block size).2.mem (block + size) = GET_SIZE s.mem block
          ∧ (split s block size).2.brk = s.brk) := by
  unfold OVER_HEAD at *
  refine ⟨split_fst s block size, ?_, ?_⟩
  · intro hs
    rw [split_small s block size hle (by omega)]
  · intro hs
    rw [split_big s block size hb (by omega) (by omega) he]
    have hL := splitAt_size_left s block size hb (by omega) (by omega)
    have hR := splitAt_size_right s block size hb (by omega) (by omega)
    have hK := splitAt_link s block size (by omega) hh
    refine ⟨hL, hR, rfl, hK, ?_, rfl⟩
    rw [hL, hR]
    omega

/-- Witness for `split_serves_and_frees`: cutting `24` bytes off the block
`4104` of `bigState`. -/
theorem split_serves_and_frees_witness :
    (split bigState 4104 24).1 = 4104
      ∧ (GET_SIZE bigState.mem 4104 - 24 < OVER_HEAD + 8 → (split bigState 4104 24).2 = bigState)
      ∧ (OVER_HEAD + 8 ≤ GET_SIZE bigState.mem 4104 - 24 →
          GET_SIZE (split bigState 4104 24).2.mem 4104 = 24
          ∧ GET_SIZE (split bigState 4104 24).2.mem (4104 + 24)
              = GET_SIZE bigState.mem 4104 - 24
          ∧ (split bigState 4104 24).2.head = 4104 + 24
          ∧ read64 (split bigState 4104 24).2.mem (4104 + 24) = bigState.head
          ∧ GET_SIZE (split bigState 4104 24).2.mem 4104
              + GET_SIZE (split bigState 4104 24).2.mem (4104 + 24)
              = GET_SIZE bigState.mem 4104
          ∧ (split bigState 4104 24).2.brk = bigState.brk) :=
  split_serves_and_frees bigState 4104 24 (by decide) (by decide) (by decide) (by decide)
    (by decide)

/-- C17, as stated, fails: `mymalloc(2 ^ 64 - 8)` asks `find_free_block` for
`0` bytes.  In the reachable state `oneBlockState`, whose free list is the one
block `4128`, `find_free_block(0)` returns `4128`, and `4128` is the head of
the free list afterwards: `split` pushes the block it serves. -/
theorem find_free_block_zero_keeps_block :
    Reach oneBlockState [4104] ∧ (ALIGN_SIZE (2 ^ 64 - 8) + OVER_HEAD) % 2 ^ 64 = 0
      ∧ lseg oneBlockState.mem oneBlockState.head [4128]
      ∧ 0 ≤ GET_SIZE oneBlockState.mem 4128
      ∧ ∃ r, find_free_block 2 oneBlockState 0 = some r ∧ r.1 = 4128
        ∧ lseg r.2.mem r.2.head [4128] ∧ 4128 ∈ [4128] :=
  ⟨oneBlockState_reach, by decide, by decide, by decide, _, rfl, by decide, by decide,
    by decide⟩

/-- C17, amended: `find_free_block(size)` on a well-formed heap, for a size
that includes the header (`size >= OVER_HEAD`), is first-fit in list order.
If no block of the free list has a recorded size of at least `size`, it
returns `NULL` and leaves the state unchanged.  Otherwise it returns the
first such block `x`, which is not `NULL`; afterwards the free list is the
old one without `x`, in the same order, with the remainder `x + size` of the
split in front when the block is at least `size + OVER_HEAD + 8` bytes long;
`x` itself is not in it. -/
theorem find_free_block_first_fit (s : State) (base : Nat) (live free : List Nat)
    (size fuel : Nat) (h : WF s base live free) (h8 : OVER_HEAD ≤ size)
    (hf : free.length < fuel) :
    ((∀ x ∈ free, GET_SIZE s.mem x < size) → find_free_block fuel s size = some (0, s))
      ∧ ∀ A x B, free = A ++ x :: B → (∀ a ∈ A, GET_SIZE s.mem a < size) →
          size ≤ GET_SIZE s.mem x →
          ∃ s', find_free_block fuel s size = some (x, s') ∧ x ≠ 0
            ∧ lseg s'.mem s'.head
                (if GET_SIZE s.mem x < size + (OVER_HEAD + 8) then A ++ B
                  else (x + size) :: (A ++ B))
            ∧ x ∉ A ++ B ∧ x ≠ x + size := by
  unfold OVER_HEAD at *
  refine ⟨fun hm => find_free_block_miss h size fuel hm hf, ?_⟩
  intro A x B e hA hx
  subst e
  have hxm : x ∈ live ++ (A ++ x :: B) := by simp
  have hxb := h.bounds hxm
  have hu := h.unlink
  have hszx : GET_SIZE (unlinked s A x).mem x = GET_SIZE s.mem x := h.unlinked_size hxm
  have hnx : x ∉ A ++ B := hu.mem_live_not_free (List.mem_cons_self x live)
  refine ⟨(split (unlinked s A x) x size).2, ?_, by omega, ?_, hnx, by omega⟩
  · rw [find_free_block_hit h size fuel hA hx hf]
    have e := split_fst (unlinked s A x) x size
    generalize split (unlinked s A x) x size = r at e
    obtain ⟨r1, r2⟩ := r
    simp only at e
    rw [e]
  · by_cases hs : GET_SIZE s.mem x < size + (4 * 2 + 8)
    · rw [if_pos hs, split_small _ x size (by rw [hszx]; exact hx) (by rw [hszx]; omega)]
      exact hu.list
    · rw [if_neg hs, split_big _ x size (by omega) (by omega) (by rw [hszx]; omega)
        (by rw [hszx]; omega)]
      exact hu.cut_list (List.mem_cons_self x live) (by omega) (by rw [hszx]; omega)

/-- Witness for `find_free_block_first_fit`: a request of `24` bytes in
`oneBlockState`, whose free list is the block `4128`. -/
theorem find_free_block_first_fit_witness :
    ((∀ x ∈ [4128], GET_SIZE oneBlockState.mem x < 24) →
        find_free_block 2 oneBlockState 24 = some (0, oneBlockState))
      ∧ ∀ A x B, [4128] = A ++ x :: B → (∀ a ∈ A, GET_SIZE oneBlockState.mem a < 24) →
          24 ≤ GET_SIZE oneBlockState.mem x →
          ∃ s', find_free_block 2 oneBlockState 24 = some (x, s') ∧ x ≠ 0
            ∧ lseg s'.mem s'.head
                (if GET_SIZE oneBlockState.mem x < 24 + (OVER_HEAD + 8) then A ++ B
                  else (x + 24) :: (A ++ B))
            ∧ x ∉ A ++ B ∧ x ≠ x + 24 := by
  exact find_free_block_first_fit oneBlockState 4096 [4104] [4128] 24 2 oneBlockState_wf
    (by decide) (by decide)

/-- C18: `shrink_heap` on a well-formed heap (the boundary primitive then
succeeds), with fuel above the length of the free list.  It returns, and the
break does not rise.  If a block `x` of the free list has a recorded size of
at least `MIN_UNMAP_SIZE` and ends at the break
(`x + GET_SIZE(x) - OVER_HEAD == sbrk(0)`), the first such block in list
order is unlinked, the other blocks stay in the list in their order with
their sizes, and the break becomes `x - OVER_HEAD`, the start of the block:
it has gone down by exactly the recorded size.  Otherwise the state is
unchanged. -/
theorem shrink_heap_gives_back (s : State) (base : Nat) (live free : List Nat) (fuel : Nat)
    (h : WF s base live free) (hf : free.length < fuel) :
    (∃ s', shrink_heap fuel s = some s' ∧ s'.brk ≤ s.brk)
      ∧ (∀ A x B, free = A ++ x :: B →
          (∀ a ∈ A, ¬ (MIN_UNMAP_SIZE ≤ GET_SIZE s.mem a
            ∧ a + GET_SIZE s.mem a - OVER_HEAD = s.brk)) →
          MIN_UNMAP_SIZE ≤ GET_SIZE s.mem x → x + GET_SIZE s.mem x - OVER_HEAD = s.brk →
          ∃ s', shrink_heap fuel s = some s'
            ∧ lseg s'.mem s'.head (A ++ B) ∧ x ∉ A ++ B
            ∧ (∀ q ∈ live ++ (A ++ B), GET_SIZE s'.mem q = GET_SIZE s.mem q)
            ∧ s'.brk = x - OVER_HEAD ∧ s'.brk + GET_SIZE s.mem x = s.brk)
      ∧ ((∀ x ∈ free, ¬ (MIN_UNMAP_SIZE ≤ GET_SIZE s.mem x
            ∧ x + GET_SIZE s.mem x - OVER_HEAD = s.brk)) → shrink_heap fuel s = some s) := by
  unfold MIN_UNMAP_SIZE OVER_HEAD
  have hit : ∀ A x B, free = A ++ x :: B →
      1024 ≤ GET_SIZE s.mem x → x + GET_SIZE s.mem x - 4 * 2 = s.brk →
      ∃ s', shrink_heap fuel s = some s'
        ∧ lseg s'.mem s'.head (A ++ B) ∧ x ∉ A ++ B
        ∧ (∀ q ∈ live ++ (A ++ B), GET_SIZE s'.mem q = GET_SIZE s.mem q)
        ∧ s'.brk = x - 4 * 2 ∧ s'.brk + GET_SIZE s.mem x = s.brk := by
    intro A x B e h1 h2
    subst e
    have hxm : x ∈ live ++ (A ++ x :: B) := by simp
    have hxb := h.bounds hxm
    obtain ⟨hrun, hw, _, hsz⟩ := shrink_heap_hit h h1 (by omega) fuel hf
    have hnd : (A ++ x :: B).Nodup := (List.nodup_append.1 h.nodup).2.1
    refine ⟨_, hrun, hw.list, ?_, hsz, ?_, ?_⟩
    · intro hm
      rcases List.mem_append.1 hm with hm | hm
      · exact (List.nodup_append.1 hnd).2.2 hm (List.mem_cons_self _ _)
      · have := (List.nodup_append.1 hnd).2.1
        exact (List.nodup_cons.1 this).1 hm
    · show x - 8 = x - 4 * 2
      omega
    · show x - 8 + GET_SIZE s.mem x = s.brk
      omega
  have miss : (∀ x ∈ free, ¬ (1024 ≤ GET_SIZE s.mem x ∧ x + GET_SIZE s.mem x - 4 * 2 = s.brk)) →
      shrink_heap fuel s = some s := by
    intro hm
    refine shrink_heap_miss h ?_ fuel hf
    intro x hx hc
    have hxb := h.bounds (List.mem_append_right live hx)
    exact hm x hx ⟨hc.1, by omega⟩
  refine ⟨?_, fun A x B e _ h1 h2 => hit A x B e h1 h2, miss⟩
  by_cases hex : ∃ x ∈ free, 1024 ≤ GET_SIZE s.mem x ∧ x + GET_SIZE s.mem x - 4 * 2 = s.brk
  · obtain ⟨A, x, B, e, _, hx⟩ := exists_first _ free hex
    obtain ⟨s', hrun, _, _, _, hb, _⟩ := hit A x B e hx.1 hx.2
    exact ⟨s', hrun, by omega⟩
  · refine ⟨s, miss ?_, le_refl _⟩
    intro x hx hc
    exact hex ⟨x, hx, hc⟩

/-- Witness for `shrink_heap_gives_back`: the state `topState`, whose free
list is the block `4104` of `1600` bytes at the top of the arena. -/
theorem shrink_heap_gives_back_witness :
    (∃ s', shrink_heap 2 topState = some s' ∧ s'.brk ≤ topState.brk)
      ∧ (∀ A x B, [4104] = A ++ x :: B →
          (∀ a ∈ A, ¬ (MIN_UNMAP_SIZE ≤ GET_SIZE topState.mem a
            ∧ a + GET_SIZE topState.mem a - OVER_HEAD = topState.brk)) →
          MIN_UNMAP_SIZE ≤ GET_SIZE topState.mem x →
          x + GET_SIZE topState.mem x - OVER_HEAD = topState.brk →
          ∃ s', shrink_heap 2 topState = some s'
            ∧ lseg s'.mem s'.head (A ++ B) ∧ x ∉ A ++ B
            ∧ (∀ q ∈ [] ++ (A ++ B), GET_SIZE s'.mem q = GET_SIZE topState.mem q)
            ∧ s'.brk = x - OVER_HEAD
            ∧ s'.brk + GET_SIZE topState.mem x = topState.brk)
      ∧ ((∀ x ∈ [4104], ¬ (MIN_UNMAP_SIZE ≤ GET_SIZE topState.mem x
            ∧ x + GET_SIZE topState.mem x - OVER_HEAD = topState.brk)) →
          shrink_heap 2 topState = some topState) :=
  shrink_heap_gives_back topState 4096 [] [4104] 2 topState_wf (by decide)

/-- C19: the code at the failing input.  In the reachable state
`oneBlockState` the live block `4104` has the recorded size `24`, a payload
of `16` bytes; `myrealloc(4104, 100)` has the target `112`.  The new block
`4128` has the recorded size `120`, not `112`: `mymalloc` is called with the
target and adds `OVER_HEAD` again.  And `24` bytes are copied, not `16`: the
byte `16` of the new payload, `0` before the call, is `120` after it, the
first byte of the header that follows the old payload. -/
theorem myrealloc_copies_header :
    Reach oneBlockState [4104] ∧ GET_SIZE oneBlockState.mem 4104 = 24
      ∧ ALIGN_SIZE 100 + OVER_HEAD = 112
      ∧ ∃ r, myrealloc 8 oneBlockState 4104 100 = some r ∧ r.1 = 4128
        ∧ GET_SIZE r.2.mem 4128 = 120
        ∧ oneBlockState.mem (4128 + 16) = 0 ∧ r.2.mem (4128 + 16) = 120
        ∧ r.2.mem (4104 + 16) = 120 :=
  ⟨oneBlockState_reach, by decide, by decide, _, rfl, by decide, by decide, by decide,
    by decide, by decide⟩

/-- C20, as stated, fails after a request of `2 ^ 63` bytes or more.  From
the reachable state `bigState`, `mymalloc(2 ^ 64 - 1000)` (no wrap, `sbrk`
succeeds) returns the block `5104` and leaves the break at `4104`: the live
block `4104`, of `1000` bytes, ends at `5104`, above the break, so no
stepping by recorded sizes that visits it lands on the break, whatever the
base. -/
theorem huge_request_breaks_partition :
    Reach bigState [4104] ∧ 2 ^ 64 - 1000 + 16 ≤ 2 ^ 64
      ∧ (sbrk bigState (2 ^ 64 - 992)).1 = 5096
      ∧ mymalloc 0 bigState (2 ^ 64 - 1000) = some (5104, hugeState)
      ∧ hugeState.brk + OVER_HEAD < 4104 + GET_SIZE hugeState.mem 4104
      ∧ ¬ ∃ base chain, 4104 ∈ chain
          ∧ tiles hugeState.mem (base + OVER_HEAD) chain (hugeState.brk + OVER_HEAD) := by
  refine ⟨bigState_reach, by decide, by decide, rfl, by decide, ?_⟩
  rintro ⟨base, chain, hm, ht⟩
  have h1 := tiles_le ht 4104 hm
  have h2 : hugeState.brk + OVER_HEAD < 4104 + GET_SIZE hugeState.mem 4104 := by decide
  omega

/-- C20, amended: heap well-formedness in every state of a run under valid
usage from an initial state `s0`, where valid usage includes that a request
that has to grow the arena is below `2 ^ 63`, header included, and that
`myrealloc` is called on `NULL` or a live block only.  With the break of `s0`
as the base, there are the free list `free` as it lies in memory and an
ordering `chain` of all blocks, the live ones `L` and the free ones, such that
(1) stepping from the first block, whose header is at the base, by the
recorded size of each block visits the blocks of `chain` one after the other
and lands exactly on the break; (2) every recorded size is a multiple of 8 and
at least `OVER_HEAD + 8`; (3) the free list is a `NULL`-terminated chain
without duplicates and each of its members is a block of the partition;
(4) no live block is in the free list, no live block is listed twice, and a
live block overlaps no other block, live or free. -/
theorem heap_well_formed (s0 s : State) (L : List Nat) (h0 : Init s0) (hr : Run s0 s L) :
    ∃ free chain,
      (s0.brk ≤ s.brk ∧ chain.Perm (L ++ free)
        ∧ tiles s.mem (s0.brk + OVER_HEAD) chain (s.brk + OVER_HEAD))
      ∧ (∀ p ∈ chain, GET_SIZE s.mem p % 8 = 0 ∧ OVER_HEAD + 8 ≤ GET_SIZE s.mem p)
      ∧ (lseg s.mem s.head free ∧ free.Nodup ∧ ∀ p ∈ free, p ∈ chain)
      ∧ ((∀ p ∈ L, p ∉ free) ∧ L.Nodup
        ∧ ∀ p ∈ L, ∀ q ∈ L ++ free, p ≠ q →
            p + GET_SIZE s.mem p ≤ q ∨ q + GET_SIZE s.mem q ≤ p) := by
  obtain ⟨free, h, _, _⟩ := hr.has_wf h0
  obtain ⟨chain, hc, ht⟩ := h.tile
  have hnd := List.nodup_append.1 h.nodup
  refine ⟨free, chain, ⟨h.base_le, hc, ht⟩, ?_, ⟨h.list, hnd.2.1, ?_⟩,
    fun p hp => h.mem_live_not_free hp, hnd.1, ?_⟩
  · intro p hp
    have hm := hc.mem_iff.1 hp
    have := h.bounds hm
    exact ⟨h.mult p hm, by unfold OVER_HEAD; omega⟩
  · intro p hp
    exact hc.mem_iff.2 (List.mem_append_right _ hp)
  · intro p hp q hq hne
    exact h.disj p (List.mem_append_left _ hp) q hq hne

/-- Witness for `heap_well_formed`: the run `mymalloc(10)` from `initState`. -/
theorem heap_well_formed_witness :
    ∃ free chain,
      (initState.brk ≤ oneBlockState.brk ∧ chain.Perm ([4104] ++ free)
        ∧ tiles oneBlockState.mem (initState.brk + OVER_HEAD) chain
            (oneBlockState.brk + OVER_HEAD))
      ∧ (∀ p ∈ chain, GET_SIZE oneBlockState.mem p % 8 = 0
          ∧ OVER_HEAD + 8 ≤ GET_SIZE oneBlockState.mem p)
      ∧ (lseg oneBlockState.mem oneBlockState.head free ∧ free.Nodup ∧ ∀ p ∈ free, p ∈ chain)
      ∧ ((∀ p ∈ [4104], p ∉ free) ∧ [4104].Nodup
        ∧ ∀ p ∈ [4104], ∀ q ∈ [4104] ++ free, p ≠ q →
            p + GET_SIZE oneBlockState.mem p ≤ q ∨ q + GET_SIZE oneBlockState.mem q ≤ p) :=
  heap_well_formed initState oneBlockState [4104] initState_init oneBlockState_run

end Alloc
